import Mathlib

/-!
Verification of the algorithmic core of the nomanssky production-formula
analyzer: the generic graph walker (nomanssky/_item_graph.py), the
ingredient/formula model and refinery scheduler (nomanssky/_formula.py),
and the BOM synthesizer (nomanssky/_bom.py).

Conventions of the shallow embedding:
* Python item identifiers (strings) are modelled as `Nat` values with
  their total order (only equality and order on ids are observable); quantities are `Int` (derived profit entries go negative);
  money values and wall-clock durations are `Rat` (Python `timedelta`
  is exact integer-microsecond arithmetic, and costs only ever add and
  compare, so `Rat` is exact for every run the claims mention).
* Python dict-backed containers are modelled as insertion-ordered
  association lists; `sorted(...)` (a stable sort) is modelled with
  `List.insertionSort`, which is stable.
* Mutation is modelled by explicit state passing; visitor callbacks are
  modelled as an emitted event trace.
-/

namespace NMS

/-- Node colors of the walker (`_NodeColor` in `_item_graph.py`):
White = not visited, Gray = in process, Black = done.  A node absent from
the color dictionary plays the role of "never seen". -/
inductive Color : Type where
  | white
  | gray
  | black
deriving DecidableEq

/-- `WalkOrder` in `_item_graph.py`: DFS uses a LIFO frontier, BFS a FIFO. -/
inductive WalkOrder : Type where
  | DFS
  | BFS
deriving DecidableEq

/-- Frontier entries: visit entries (`_NodeContainer._Node`) and finish
markers (`_NodeContainer._NodeFinish`).  The `edge` payload of `_Node` is
only used by the `add_edges` variant, which no claim touches. -/
inductive Entry (α : Type) : Type where
  | visit (item : α) (distance : Nat)
  | finish (item : α) (distance : Nat)
deriving DecidableEq

/-- Visitor callback events of one walk, in call order.  `discoverNode`
carries the node of the adjacency scan that discovered it (`source` of the
enclosing `_NodeContainer.add` call; `none` for the seeding call) as ghost
instrumentation: the Python callback receives only node and distance. -/
inductive Event (α : Type) : Type where
  | discoverNode (node : α) (distance : Nat) (source : Option α)
  | examineNode (node : α) (distance : Nat)
  | finishNode (node : α) (distance : Nat)
  | treeEdge (source : Option α) (target : α)
  | backEdge (source : Option α) (target : α)
  | fwdOrCrossEdge (source : Option α) (target : α)
deriving DecidableEq

/-- Walker state (`_NodeContainer`): the frontier deque plus the color
dictionary.  Pushing appends at the right end of the deque; DFS pops the
right end, BFS pops the left end. -/
structure WalkState (α : Type) : Type where
  queue : List (Entry α)
  colors : α → Option Color

variable {α : Type} [DecidableEq α]

/-- One iteration of the `for item in items` loop of `_NodeContainer.add`:
an unseen item is discovered, pushed as a visit entry and colored White;
an already-seen item is classified by its current color. -/
def addItem (σ : WalkState α) (src : Option α) (d : Nat) (a : α) :
    WalkState α × List (Event α) :=
  match σ.colors a with
  | none =>
      (⟨σ.queue ++ [Entry.visit a d], Function.update σ.colors a (some Color.white)⟩,
        [Event.discoverNode a d src])
  | some Color.white => (σ, [Event.treeEdge src a])
  | some Color.gray => (σ, [Event.backEdge src a])
  | some Color.black => (σ, [Event.fwdOrCrossEdge src a])

/-- The whole `for item in items` loop of `_NodeContainer.add`. -/
def addItems (src : Option α) (d : Nat) :
    WalkState α → List α → WalkState α × List (Event α)
  | σ, [] => (σ, [])
  | σ, a :: rest =>
      let p := addItem σ src d a
      let q := addItems src d p.1 rest
      (q.1, p.2 ++ q.2)

/-- Push a finish marker for a node. -/
def pushFinish (σ : WalkState α) (a : α) (d : Nat) : WalkState α :=
  ⟨σ.queue ++ [Entry.finish a d], σ.colors⟩

/-- `_NodeContainer.add`: for DFS the source's finish marker is pushed
before the adjacency scan, for BFS after it; the marker's distance is
`distance - 1`.  No marker is pushed for the seeding call (`source` None). -/
def addCall (order : WalkOrder) (σ : WalkState α) (src : Option α) (d : Nat)
    (items : List α) : WalkState α × List (Event α) :=
  let σ1 := match src, order with
    | some s, WalkOrder.DFS => pushFinish σ s (d - 1)
    | _, _ => σ
  let p := addItems src d σ1 items
  match src, order with
  | some s, WalkOrder.BFS => (pushFinish p.1 s (d - 1), p.2)
  | _, _ => p

/-- Pop the next frontier entry: the right end for DFS (LIFO), the left
end for BFS (FIFO). -/
def popEntry (order : WalkOrder) (q : List (Entry α)) :
    Option (Entry α × List (Entry α)) :=
  match order with
  | WalkOrder.DFS =>
      match q.getLast? with
      | none => none
      | some e => some (e, q.dropLast)
  | WalkOrder.BFS =>
      match q with
      | [] => none
      | e :: rest => some (e, rest)

/-- The body of the main loop of `walk_graph` for one popped entry: a
finish marker turns its node Black; a visit entry of a non-White node is
skipped defensively; otherwise the node turns Gray, is examined, and its
adjacency is scanned via `_NodeContainer.add`. -/
def stepEntry (order : WalkOrder) (adj : α → List α) (σ : WalkState α) :
    Entry α → WalkState α × List (Event α)
  | Entry.finish a d =>
      (⟨σ.queue, Function.update σ.colors a (some Color.black)⟩,
        [Event.finishNode a d])
  | Entry.visit a d =>
      if (σ.colors a).getD Color.white = Color.white then
        let σ1 : WalkState α := ⟨σ.queue, Function.update σ.colors a (some Color.gray)⟩
        let p := addCall order σ1 (some a) (d + 1) (adj a)
        (p.1, Event.examineNode a d :: p.2)
      else
        (σ, [])

/-- The main loop of `walk_graph`, with explicit fuel: pop the next entry
and process it until the frontier drains (or the fuel runs out). -/
def walkLoop (order : WalkOrder) (adj : α → List α) :
    Nat → WalkState α → WalkState α × List (Event α)
  | 0, σ => (σ, [])
  | Nat.succ n, σ =>
      match popEntry order σ.queue with
      | none => (σ, [])
      | some (e, q1) =>
          let p := stepEntry order adj ⟨q1, σ.colors⟩ e
          let r := walkLoop order adj n p.1
          (r.1, p.2 ++ r.2)

/-- `walk_graph`: seed the frontier with the start nodes (source `none`,
distance 0), then run the main loop. -/
def walkGraphRun (order : WalkOrder) (adj : α → List α) (start : List α)
    (fuel : Nat) : WalkState α × List (Event α) :=
  let p := addCall order ⟨[], fun _ => none⟩ none 0 start
  let r := walkLoop order adj fuel p.1
  (r.1, p.2 ++ r.2)

/-- The event trace of one `walk_graph` call. -/
def walkGraph (order : WalkOrder) (adj : α → List α) (start : List α)
    (fuel : Nat) : List (Event α) :=
  (walkGraphRun order adj start fuel).2

/-- Splitting an adjacency scan: the events of scanning `pre ++ a :: post`
are the events of scanning `pre`, then the classification of `a` in the
state reached after `pre`, then the rest. -/
theorem addItems_append (src : Option α) (d : Nat) (σ : WalkState α)
    (l1 l2 : List α) :
    addItems src d σ (l1 ++ l2) =
      ((addItems src d (addItems src d σ l1).1 l2).1,
        (addItems src d σ l1).2 ++ (addItems src d (addItems src d σ l1).1 l2).2) := by
  induction l1 generalizing σ with
  | nil => simp [addItems]
  | cons a rest ih =>
      simp only [List.cons_append, addItems, List.append_eq]
      rw [ih]
      simp [List.append_assoc]

/-- C1.  During any adjacency scan (`_NodeContainer.add`, shared by DFS
and BFS walks), the edge to target `a`, traversed after the targets `pre`
and before the targets `post`, produces a `back_edge` callback iff `a` is
Gray in the walker state at that moment; an edge to a Black target
produces `fwd_or_cross_edge`, and an edge to an already-discovered White
target produces `tree_edge` (a target not yet in the color map is
discovered instead, with no edge callback). -/
theorem backEdge_iff_gray (σ : WalkState α) (src : Option α) (d : Nat)
    (pre post : List α) (a : α) :
    (addItems src d σ (pre ++ a :: post)).2 =
      (addItems src d σ pre).2 ++
        (addItem (addItems src d σ pre).1 src d a).2 ++
        (addItems src d (addItem (addItems src d σ pre).1 src d a).1 post).2 ∧
    (Event.backEdge src a ∈ (addItem (addItems src d σ pre).1 src d a).2 ↔
      (addItems src d σ pre).1.colors a = some Color.gray) ∧
    (Event.fwdOrCrossEdge src a ∈ (addItem (addItems src d σ pre).1 src d a).2 ↔
      (addItems src d σ pre).1.colors a = some Color.black) ∧
    (Event.treeEdge src a ∈ (addItem (addItems src d σ pre).1 src d a).2 ↔
      (addItems src d σ pre).1.colors a = some Color.white) := by
  constructor
  · rw [addItems_append]
    simp only [addItems, List.append_assoc]
  · cases h : (addItems src d σ pre).1.colors a with
    | none => simp [addItem, h]
    | some c => cases c <;> simp [addItem, h]

/-! ## Ingredient and formula model (`_formula.py`) -/

/-- 3-way comparison results (`CompareResult`). -/
inductive CompareResult : Type where
  | Less
  | Equal
  | More
deriving DecidableEq

/-- `CompareResult.__invert__`. -/
def CompareResult.invert : CompareResult → CompareResult
  | Less => More
  | More => Less
  | Equal => Equal

/-- `Ingredient`: an item id and a quantity.  Quantities are modelled as
integers because derived profit computations go negative. -/
structure Ingredient : Type where
  name : Nat
  qty : Int
deriving DecidableEq

/-- `Ingredient.__mul__` (with an `int` argument). -/
def Ingredient.mul (i : Ingredient) (k : Int) : Ingredient :=
  ⟨i.name, i.qty * k⟩

/-- `Ingredient.__lt__`: by name, then by quantity. -/
def Ingredient.lt (a b : Ingredient) : Bool :=
  if a.name < b.name then true
  else if b.name < a.name then false
  else decide (a.qty < b.qty)

/-- `IngredientList`: the backing dict `_by_id`, modelled as an
insertion-ordered association list; all constructors below keep item
names unique, mirroring dict-key semantics. -/
abbrev IngredientList := List Ingredient

/-- Dict lookup by item id (quantity of the stored ingredient). -/
def ILlookup (l : IngredientList) (n : Nat) : Option Int :=
  ((l.find? (fun i => i.name = n)).map Ingredient.qty)

/-- Dict key-membership test (`__contains__` by name). -/
def ILcontains (l : IngredientList) (n : Nat) : Bool :=
  l.any (fun i => i.name = n)

/-- Dict `__setitem__`: overwrite the entry of an existing key in place,
otherwise append a new entry. -/
def ILset (l : IngredientList) (i : Ingredient) : IngredientList :=
  if ILcontains l i.name then
    l.map (fun e => if e.name = i.name then i else e)
  else
    l ++ [i]

/-- `IngredientList.__init__(*items)`: stores `item * 1` under each name
(overwriting duplicates, not summing). -/
def ILofItems (items : List Ingredient) : IngredientList :=
  items.foldl (fun acc i => ILset acc (i.mul 1)) []

/-- `IngredientList.append`: sum quantities of an existing entry in
place, otherwise store a copy. -/
def ILappend (l : IngredientList) (i : Ingredient) : IngredientList :=
  if ILcontains l i.name then
    l.map (fun e => if e.name = i.name then ⟨e.name, e.qty + i.qty⟩ else e)
  else
    ILset l (i.mul 1)

/-- `IngredientList.append_list` over an already-materialized sequence
(when Python iterates an `IngredientList` it yields the name-sorted
`items`; callers below pass the right sequence). -/
def ILappendList (l : IngredientList) (items : List Ingredient) : IngredientList :=
  items.foldl ILappend l

/-- `IngredientList.deduct_list`: decrement quantities of entries already
present; items with unknown names are silently skipped. -/
def ILdeduct (l : IngredientList) (items : List Ingredient) : IngredientList :=
  items.foldl
    (fun acc i =>
      if ILcontains acc i.name then
        acc.map (fun e => if e.name = i.name then ⟨e.name, e.qty - i.qty⟩ else e)
      else acc)
    l

/-- The `items` property: entries sorted by name (`sorted` is stable; the
names are unique, so any sort agrees). -/
def ILitems (l : IngredientList) : List Ingredient :=
  l.insertionSort (fun a b => a.name ≤ b.name)

/-- `IngredientList.__mul__`: scale every stored ingredient (dict value
order) and rebuild. -/
def ILmul (l : IngredientList) (k : Int) : IngredientList :=
  ILofItems (l.map (fun i => i.mul k))

/-- `IngredientList.__sub__`: copy (via the constructor over `items`),
then `deduct_list` the right operand (iterated as its sorted `items`). -/
def ILsub (a b : IngredientList) : IngredientList :=
  ILdeduct (ILofItems (ILitems a)) (ILitems b)

/-- `IngredientList.remove_if`: keep the (sorted) items that fail the
condition, clear, and re-append them. -/
def ILremoveIf (l : IngredientList) (p : Ingredient → Bool) : IngredientList :=
  ILappendList [] ((ILitems l).filter (fun i => !(p i)))

/-- The element-wise 3-way comparison used by `IngredientList.compare`:
built from `Ingredient.__lt__` both ways, as in the Python loop. -/
def cmpIngredient (a b : Ingredient) : CompareResult :=
  if Ingredient.lt a b then CompareResult.Less
  else if Ingredient.lt b a then CompareResult.More
  else CompareResult.Equal

/-- The index loop of `IngredientList.compare`: first non-Equal element
comparison over the common length, if any. -/
def cmpCommon : List Ingredient → List Ingredient → Option CompareResult
  | a :: as1, b :: bs =>
      match cmpIngredient a b with
      | CompareResult.Equal => cmpCommon as1 bs
      | r => some r
  | _, _ => none

/-- `IngredientListCompare`. -/
inductive IngredientListCompare : Type where
  | LongerLess
  | LongerMore
deriving DecidableEq

/-- `IngredientList.compare`: lexicographic over the common length of the
sorted items, then by length; the strategy inverts only the length-based
result (the element loop returns early, before the strategy applies). -/
def ILcompare (a b : IngredientList) (strategy : IngredientListCompare) : CompareResult :=
  match cmpCommon (ILitems a) (ILitems b) with
  | some r => r
  | none =>
      let res :=
        if (ILitems a).length < (ILitems b).length then CompareResult.Less
        else if (ILitems b).length < (ILitems a).length then CompareResult.More
        else CompareResult.Equal
      match strategy with
      | IngredientListCompare.LongerLess => res.invert
      | IngredientListCompare.LongerMore => res

/-- `FormulaType` (the enum member order is `CRAFT, REFINING, REPAIR,
COOK`, only used by comparisons no claim touches). -/
inductive FormulaType : Type where
  | CRAFT
  | REFINING
  | REPAIR
  | COOK
deriving DecidableEq

/-- `Rarity` (`_attributes.py`); the enum member order drives its
comparison: Common < Uncommon < Rare < VeryRare < UNKNOWN. -/
inductive Rarity : Type where
  | Common
  | Uncommon
  | Rare
  | VeryRare
  | UNKNOWN
deriving DecidableEq

/-- Member index of a `Rarity` (the basis of `Rarity.compare`). -/
def Rarity.idx : Rarity → Nat
  | Common => 0
  | Uncommon => 1
  | Rare => 2
  | VeryRare => 3
  | UNKNOWN => 4

/-- `Rarity.__lt__` via member indices. -/
def Rarity.ltR (a b : Rarity) : Bool :=
  decide (a.idx < b.idx)

/-- Python `max` of two rarities (keeps the accumulator on ties). -/
def Rarity.maxR (a b : Rarity) : Rarity :=
  if Rarity.ltR a b then b else a

/-- `Class` (`_attributes.py`); the core only ever distinguishes
`Resource` from everything else, so a few representatives suffice. -/
inductive Class : Type where
  | Resource
  | Product
  | Tradeable
  | UNKNOWN
deriving DecidableEq

/-- The slice of a catalog `Item` the core reads: id, value, rarity and
class. -/
structure Item : Type where
  id : Nat
  value : Rat
  rarity : Rarity
  cls : Class
deriving DecidableEq

/-- `RefinerySize`. -/
inductive RefinerySize : Type where
  | Craft
  | Medium
  | Big
deriving DecidableEq

/-- `Formula`: result, ingredients, type and optional per-batch time.
The `process` string and stored-digest plumbing are not observable by any
claim and are omitted. -/
structure Formula : Type where
  result : Ingredient
  ingredients : IngredientList
  type : FormulaType
  time : Option Rat
deriving DecidableEq

/-- `Formula.__mul__`: scales result, ingredients (iterated sorted) and
time; the Python expression `self.time and self.time * other or None`
collapses a missing or zero time (and a zero product) to `None`. -/
def Formula.mul (f : Formula) (k : Int) : Formula :=
  { result := f.result.mul k
    ingredients := ILofItems ((ILitems f.ingredients).map (fun i => i.mul k))
    type := f.type
    time :=
      match f.time with
      | none => none
      | some t => if t = 0 then none else if t * k = 0 then none else some (t * k) }

/-- `Formula.refinery_size`: repair/craft formulas are `Craft`; refining
with more than 2 ingredients needs a `Big` refinery, else `Medium`. -/
def Formula.refinerySize (f : Formula) : RefinerySize :=
  if f.type = FormulaType.REPAIR ∨ f.type = FormulaType.CRAFT then RefinerySize.Craft
  else if 2 < f.ingredients.length then RefinerySize.Big
  else RefinerySize.Medium

/-- The tuple returned by `Formula.estimate_time`. -/
structure TimeEstimate : Type where
  total : Rat
  maxBatch : Rat
  batchCount : Int
  size : RefinerySize
deriving DecidableEq

/-- `Formula.estimate_time`: repair formulas cost nothing; craft formulas
are serial (`result.qty * craft_time`, one batch); refining/cook formulas
split `result.qty` into output batches of at most `max_output_batch`.
Durations stay in `Rat` (`timedelta` is exact); a formula without a time
would raise in Python, the model reads it as 0. -/
def Formula.estimateTime (f : Formula) (maxOutputBatch : Int) (craftTime : Rat) :
    TimeEstimate :=
  if f.type = FormulaType.REPAIR then ⟨0, 0, 0, RefinerySize.Craft⟩
  else if f.type = FormulaType.CRAFT then
    ⟨f.result.qty * craftTime, f.result.qty * craftTime, 1, RefinerySize.Craft⟩
  else
    let batchCount : Int := ⌈(f.result.qty : Rat) / (maxOutputBatch : Rat)⌉
    let t := f.time.getD 0
    let unitTime := t / (f.result.qty : Rat)
    let maxBatchTime :=
      if maxOutputBatch < f.result.qty then maxOutputBatch * unitTime else t
    ⟨t, maxBatchTime, batchCount, f.refinerySize⟩

/-- `refiner_output_batch`: resources refine in slots of 4095, everything
else in slots of 10. -/
def refinerOutputBatch (c : Class) : Int :=
  if c = Class.Resource then 4095 else 10

/-! ## Refinery scheduler (`_formula.py`) -/

/-- `RefineryJob`: a formula (the tests pass `None`), a duration and a
batch size. -/
structure RefineryJob : Type where
  formula : Option Formula
  time : Rat
  batch : Int
deriving DecidableEq

/-- `RefineryJobQueue`: an ordered job list plus its running total
duration. -/
structure RefineryJobQueue : Type where
  jobs : List RefineryJob
  totalTime : Rat
deriving DecidableEq

/-- A freshly constructed `RefineryJobQueue`. -/
def emptyQueue : RefineryJobQueue := ⟨[], 0⟩

/-- `RefineryJobQueue.add_job`. -/
def RefineryJobQueue.addJob (q : RefineryJobQueue) (j : RefineryJob) : RefineryJobQueue :=
  ⟨q.jobs ++ [j], q.totalTime + j.time⟩

/-- `RefineryPool`: an optionally bounded collection of queues
(`pool_size = None` means unbounded) plus the running makespan
(`_max_time`) and longest queue length (`_max_len`). -/
structure RefineryPool : Type where
  poolSize : Option Nat
  queues : List RefineryJobQueue
  maxTime : Rat
  maxLen : Nat
deriving DecidableEq

/-- A freshly constructed `RefineryPool` of the given size. -/
def RefineryPool.mkEmpty (size : Option Nat) : RefineryPool :=
  ⟨size, [], 0, 0⟩

/-- `RefineryPool._get_next_queue`: open a new queue while unbounded or
under capacity; otherwise sort the queues by total time (Python `sorted`
is stable, modelled by the stable `List.insertionSort`) and use the
first.  Returns the reordered queue list and the receiving index. -/
def RefineryPool.getNextQueue (p : RefineryPool) : List RefineryJobQueue × Nat :=
  match p.poolSize with
  | none => (p.queues ++ [emptyQueue], p.queues.length)
  | some size =>
      if p.queues.length < size then (p.queues ++ [emptyQueue], p.queues.length)
      else (p.queues.insertionSort (fun a b => a.totalTime ≤ b.totalTime), 0)

/-- `RefineryPool.add_job`: place the job via `_get_next_queue` and
update the running makespan and longest-queue figures. -/
def RefineryPool.addJob (p : RefineryPool) (j : RefineryJob) : RefineryPool :=
  let qi := p.getNextQueue
  let newq := (qi.1.getD qi.2 emptyQueue).addJob j
  { poolSize := p.poolSize
    queues := qi.1.set qi.2 newq
    maxTime := if p.maxTime < newq.totalTime then newq.totalTime else p.maxTime
    maxLen := if p.maxLen < newq.jobs.length then newq.jobs.length else p.maxLen }

/-- The refinery-limit configuration dict, keyed by `Medium`/`Big` (the
default is Medium 3, Big 2). -/
structure RefineryLimit : Type where
  medium : Option Nat
  big : Option Nat
deriving DecidableEq

/-- `RefineryPool.make_pool`: the Python truthiness dance
`(limit and size in limit) and limit[size] or None` makes the pool
unbounded when the dict is empty, the key is missing, or the configured
limit is 0 (falsy). -/
def makePool (configured : Option Nat) : RefineryPool :=
  RefineryPool.mkEmpty
    (match configured with
     | some v => if v = 0 then none else some v
     | none => none)

/-- `ProductionLine`: the three pools; the craft pool is always forced to
size 1. -/
structure ProductionLine : Type where
  medium : RefineryPool
  big : RefineryPool
  craft : RefineryPool
deriving DecidableEq

/-- `ProductionLine.__init__` via `RefineryPool.make_pools`. -/
def ProductionLine.make (limit : RefineryLimit) : ProductionLine :=
  ⟨makePool limit.medium, makePool limit.big, RefineryPool.mkEmpty (some 1)⟩

/-- `ProductionLine.max_time`: the largest of the three pools' makespans
(the source sorts the pools descending by makespan and takes the head). -/
def ProductionLine.maxTime (pl : ProductionLine) : Rat :=
  max pl.medium.maxTime (max pl.big.maxTime pl.craft.maxTime)

/-- `ProductionLine.__getitem__`. -/
def ProductionLine.pool (pl : ProductionLine) : RefinerySize → RefineryPool
  | RefinerySize.Craft => pl.craft
  | RefinerySize.Medium => pl.medium
  | RefinerySize.Big => pl.big

/-- Write back one pool of a `ProductionLine` (the Python pools are
mutated in place). -/
def ProductionLine.setPool (pl : ProductionLine) : RefinerySize → RefineryPool → ProductionLine
  | RefinerySize.Craft, p => { pl with craft := p }
  | RefinerySize.Medium, p => { pl with medium := p }
  | RefinerySize.Big, p => { pl with big := p }

/-! ## Production stages and chains (`_formula.py`) -/

/-- `ProductionStage`: its member formulas; the aggregated `results` and
`ingredients` lists are recomputed from the formulas
(`_calc_formulas`), so they are modelled as derived views. -/
structure ProductionStage : Type where
  formulas : List Formula
deriving DecidableEq

/-- The aggregated `results` list of a stage (each formula contributes
its result via `IngredientList.append`). -/
def ProductionStage.results (s : ProductionStage) : IngredientList :=
  s.formulas.foldl (fun acc f => ILappend acc f.result) []

/-- The aggregated `ingredients` list of a stage (each formula
contributes its ingredient list via `append_list`, iterated sorted). -/
def ProductionStage.ingredients (s : ProductionStage) : IngredientList :=
  s.formulas.foldl (fun acc f => ILappendList acc (ILitems f.ingredients)) []

/-- `ProductionStage.__mul__` and the in-place `multiply` (both replace
every member formula by its scaled copy and recompute the aggregates). -/
def ProductionStage.mul (s : ProductionStage) (k : Int) : ProductionStage :=
  ⟨s.formulas.map (fun f => f.mul k)⟩

/-- `ProductionStage.estimate_time`: resolve each member formula's
output-batch cap from its result item's class, estimate the formula, and
enqueue one job per batch into the matching shared pool (craft jobs go
whole into the craft pool).  Returns the updated pool set together with
the returned figure: the pool set's overall makespan. -/
def ProductionStage.estimateTime (s : ProductionStage) (items : Nat → Item)
    (craftTime : Rat) (pools : ProductionLine) : ProductionLine × Rat :=
  let out := s.formulas.foldl
    (fun pl f =>
      let res := items f.result.name
      let batchSize := refinerOutputBatch res.cls
      let e := f.estimateTime batchSize craftTime
      if e.size ≠ RefinerySize.Craft then
        (List.range e.batchCount.toNat).foldl
          (fun pl2 _ => pl2.setPool e.size ((pl2.pool e.size).addJob ⟨some f, e.maxBatch, batchSize⟩))
          pl
      else
        pl.setPool RefinerySize.Craft
          ((pl.pool RefinerySize.Craft).addJob ⟨some f, e.total, f.result.qty⟩))
    pools
  (out, out.maxTime)

/-- `ProductionChain`: the ordered stage list (the cached derived values
are recomputed on demand here, so only the stages are state). -/
structure ProductionChain : Type where
  stages : List ProductionStage
deriving DecidableEq

/-- The rescale loop of `ProductionChain.append`.  The Python `for`
iterates the list object produced by `last_stage.results` once, at loop
entry; `multiply` rebuilds the stage from new objects, so the loop keeps
yielding the stale pre-scaling result entries (`snapshot`).  `stage` is
rebound by `stage = stage * k_out`; `k_in` multiplies every stage already
in the chain in place. -/
def appendRescale : List Ingredient → ProductionStage → List ProductionStage →
    ProductionStage × List ProductionStage
  | [], stage, stages => (stage, stages)
  | res :: rest, stage, stages =>
      if ILcontains stage.ingredients res.name then
        let sq := (ILlookup stage.ingredients res.name).getD 0
        let l : Int := Int.lcm res.qty sq
        let kOut : Int := Int.fdiv l sq
        let kIn : Int := Int.fdiv l res.qty
        let stage2 := if kOut ≠ 1 then stage.mul kOut else stage
        let stages2 := if kIn ≠ 1 then stages.map (fun s => s.mul kIn) else stages
        appendRescale rest stage2 stages2
      else
        appendRescale rest stage stages

/-- `ProductionChain.append`: if the chain has a last stage, run the
rescale loop over (a snapshot of) its results, then append the (possibly
rescaled) new stage. -/
def ProductionChain.append (c : ProductionChain) (stage : ProductionStage) :
    ProductionChain :=
  match c.stages.getLast? with
  | none => ⟨c.stages ++ [stage]⟩
  | some last =>
      let p := appendRescale (ILitems last.results) stage c.stages
      ⟨p.2 ++ [p.1]⟩

/-- `ProductionChain.output`: the last stage's results (empty list for an
empty chain). -/
def ProductionChain.output (c : ProductionChain) : IngredientList :=
  match c.stages.getLast? with
  | some s => s.results
  | none => []

/-- The stage loop inside the `input` property: walk the later stages in
order, appending each stage's ingredients and deducting the previous
stage's results. -/
def chainInputAux : IngredientList → ProductionStage → List ProductionStage →
    IngredientList
  | acc, _, [] => acc
  | acc, prev, s :: rest =>
      chainInputAux (ILdeduct (ILappendList acc (ILitems s.ingredients)) (ILitems prev.results)) s rest

/-- `ProductionChain.input`: stage-0 ingredients (copied via `* 1`)
reduced by each prior stage's output, with zero-quantity entries purged. -/
def ProductionChain.input (c : ProductionChain) : IngredientList :=
  match c.stages with
  | [] => []
  | s0 :: rest =>
      ILremoveIf (chainInputAux (ILmul s0.ingredients 1) s0 rest) (fun i => i.qty = 0)

/-- `ProductionChain.profit = output - input`. -/
def ProductionChain.profit (c : ProductionChain) : IngredientList :=
  ILsub c.output c.input

/-- `ProductionChain.has_losses`: some profit entry is negative. -/
def ProductionChain.hasLosses (c : ProductionChain) : Bool :=
  !((ILitems c.profit).filter (fun i => decide (i.qty < 0))).isEmpty

/-- `ProductionChain.has_profit`: some profit entry is positive. -/
def ProductionChain.hasProfit (c : ProductionChain) : Bool :=
  !((ILitems c.profit).filter (fun i => decide (0 < i.qty))).isEmpty

/-- `ProductionChain.estimate_time`: ONE pool set is created up front and
threaded through every stage's `estimate_time`; each stage's returned
figure (the shared pool set's cumulative makespan at that point) is added
to the running total. -/
def ProductionChain.estimateTime (c : ProductionChain) (items : Nat → Item)
    (craftTime : Rat) (limit : RefineryLimit) : Rat :=
  (c.stages.foldl
    (fun (acc : ProductionLine × Rat) stage =>
      let r := stage.estimateTime items craftTime acc.1
      (r.1, acc.2 + r.2))
    (ProductionLine.make limit, 0)).2

/-! ## BOM synthesizer (`_bom.py`) -/

/-- `_FormulaNode`: the chosen formula tree of a BOM. -/
inductive FormulaNode : Type where
  | node (formula : Formula) (dependencies : List FormulaNode)

/-- The root formula of a tree node. -/
def FormulaNode.formula : FormulaNode → Formula
  | node f _ => f

/-- An association-list lookup for the `components` dict. -/
def lookupComp (components : List (Nat × Item)) (n : Nat) : Option Item :=
  (components.find? (fun p => p.1 = n)).map (fun p => p.2)

/-- `BOM`: result item, sorted ingredient list, component dict, derived
rarity/cost figures, the chosen formula tree and the two comparator
flags.  The `process`/`refinery_allocations`/`avoided_items` accumulators
are filled by the sorter, which no claim touches. -/
structure BOM : Type where
  result : Item
  ingredients : List Ingredient
  components : List (Nat × Item)
  maxRarity : Rarity
  outputQty : Int
  total : Rat
  perItem : Rat
  formulaTree : FormulaNode
  avoid : Bool
  preferCraft : Bool

/-- `BOM.__init__`: sorts the ingredients by name, takes the maximum
rarity over the component items (`Rarity.Common` is the least rarity, so
it is a neutral fold base; Python `max` would raise on an empty dict) and
computes the total cost `Σ components[name].value * qty` (a missing
component key would raise in Python; the model scores it 0). -/
def mkBOM (result : Item) (ingredients : List Ingredient)
    (components : List (Nat × Item)) (resultQty : Int) (formulas : FormulaNode)
    (avoid : Bool) (preferCraft : Bool) : BOM :=
  let total := (ingredients.map
    (fun i => (((lookupComp components i.name).map Item.value).getD 0) * i.qty)).sum
  { result := result
    ingredients := ingredients.insertionSort (fun a b => a.name ≤ b.name)
    components := components
    maxRarity := (components.map (fun p => p.2.rarity)).foldl Rarity.maxR Rarity.Common
    outputQty := resultQty
    total := total
    perItem := total / resultQty
    formulaTree := formulas
    avoid := avoid
    preferCraft := preferCraft }

/-- `BOM.__mul__` (with an `int` argument): a new BOM over the scaled
ingredients and output quantity, same components, tree and flags. -/
def BOM.mul (b : BOM) (k : Int) : BOM :=
  mkBOM b.result (b.ingredients.map (fun i => i.mul k)) b.components
    (b.outputQty * k) b.formulaTree b.avoid b.preferCraft

/-- `BOM.process_type`: the root formula's type. -/
def BOM.processType (b : BOM) : FormulaType :=
  b.formulaTree.formula.type

/-- `BOM.__lt__` (ascending = "better"): not-avoided beats avoided; on
equal avoid flags and *equal* process types, lower rarity then lower
total cost win; on *any* process-type difference the answer is
`self._prefer_craft` when self is Craft-typed and `not self._prefer_craft`
otherwise. -/
def BOM.lt (a b : BOM) : Bool :=
  if a.avoid = b.avoid then
    if a.processType = b.processType then
      if a.maxRarity = b.maxRarity then decide (a.total < b.total)
      else if Rarity.ltR a.maxRarity b.maxRarity then true
      else false
    else if a.processType = FormulaType.CRAFT then a.preferCraft
    else !a.preferCraft
  else if a.avoid then false
  else true

/-- An association-list lookup for BOM dicts keyed by item id. -/
def lookupBom (l : List (Nat × BOM)) (n : Nat) : Option BOM :=
  (l.find? (fun p => p.1 = n)).map (fun p => p.2)

/-- Dict `__setitem__` for BOM dicts. -/
def setBom (l : List (Nat × BOM)) (n : Nat) (b : BOM) : List (Nat × BOM) :=
  if l.any (fun p => p.1 = n) then
    l.map (fun p => if p.1 = n then (n, b) else p)
  else
    l ++ [(n, b)]

/-- `_select_bom` inside `combine_boms`: prefer the locally grouped best
over the globally cached best via the comparator; fall back to whichever
exists. -/
def selectBom (globalBoms localBoms : List (Nat × BOM)) (n : Nat) : Option BOM :=
  match lookupBom localBoms n, lookupBom globalBoms n with
  | some lb, some gb => if BOM.lt lb gb then some lb else some gb
  | some lb, none => some lb
  | none, some gb => some gb
  | none, none => none

/-- Group the child BOMs by their result item id, preserving encounter
order (`bom_per_component`). -/
def groupBoms (boms : List BOM) : List (Nat × List BOM) :=
  boms.foldl
    (fun acc b =>
      if acc.any (fun p => p.1 = b.result.id) then
        acc.map (fun p => if p.1 = b.result.id then (p.1, p.2 ++ [b]) else p)
      else
        acc ++ [(b.result.id, [b])])
    []

/-- Python `list.sort()` over BOMs: a stable sort driven by `BOM.__lt__`
(modelled with the stable `List.insertionSort`; for a strict-weak-order
comparator this is exactly the stable-sort result). -/
def sortBoms (l : List BOM) : List BOM :=
  l.insertionSort (fun a b => ¬ (BOM.lt b a = true))

/-- The locally best candidate per component: head of each sorted group
(groups are nonempty by construction; the Python dict comprehension
guards on `if bom` all the same). -/
def combineBest0 (boms : List BOM) : List (Nat × BOM) :=
  (groupBoms boms).filterMap
    (fun p => ((sortBoms p.2).head?).map (fun b => (p.1, b)))

/-- The first ingredient loop of `combine_boms`: fold the running output
LCM and record selections for ingredient names not yet present. -/
def combineLoop1 (globalBoms : List (Nat × BOM)) :
    List Ingredient → Int → List (Nat × BOM) → Int × List (Nat × BOM)
  | [], acc, best => (acc, best)
  | ing :: rest, acc, best =>
      match selectBom globalBoms best ing.name with
      | none => combineLoop1 globalBoms rest acc best
      | some bom =>
          let best2 :=
            if best.any (fun p => p.1 = ing.name) then best
            else best ++ [(ing.name, bom)]
          let ingLcm : Int := Int.lcm ing.qty bom.outputQty
          combineLoop1 globalBoms rest (Int.lcm (Int.fdiv ingLcm ing.qty) acc) best2

/-- The rescale applied to a selected child BOM for one ingredient in the
second loop of `combine_boms`: integer-multiply it up to
`lcm(ing.qty * k_output, bom.output_qty)` unless it is already there. -/
def rescaleBom (kOutput : Int) (ing : Ingredient) (bom : BOM) : BOM :=
  let ingLcm : Int := Int.lcm (ing.qty * kOutput) bom.outputQty
  if ingLcm ≠ bom.outputQty then bom.mul (Int.fdiv ingLcm bom.outputQty) else bom

/-- The second ingredient loop of `combine_boms`: store the rescaled
selection back into the local dict when a rescale happens. -/
def combineLoop2 (globalBoms : List (Nat × BOM)) (kOutput : Int) :
    List Ingredient → List (Nat × BOM) → List (Nat × BOM)
  | [], best => best
  | ing :: rest, best =>
      match selectBom globalBoms best ing.name with
      | none => combineLoop2 globalBoms kOutput rest best
      | some bom =>
          let ingLcm : Int := Int.lcm (ing.qty * kOutput) bom.outputQty
          let best2 :=
            if ingLcm ≠ bom.outputQty then setBom best ing.name (rescaleBom kOutput ing bom)
            else best
          combineLoop2 globalBoms kOutput rest best2

/-- The folded output LCM and post-first-loop selection dict of
`combine_boms` for a formula. -/
def combineFold (formula : Formula) (boms : List BOM)
    (globalBoms : List (Nat × BOM)) : Int × List (Nat × BOM) :=
  combineLoop1 globalBoms (ILitems formula.ingredients) formula.result.qty
    (combineBest0 boms)

/-- `new_output` of `combine_boms`: replaced by `output_lcm // result.qty`
when the folded LCM differs from the natural result quantity. -/
def combineNewOutput (formula : Formula) (boms : List BOM)
    (globalBoms : List (Nat × BOM)) : Int :=
  let outputLcm := (combineFold formula boms globalBoms).1
  if formula.result.qty ≠ outputLcm then Int.fdiv outputLcm formula.result.qty
  else formula.result.qty

/-- `k_output = new_output // formula.result.qty`. -/
def combineKOutput (formula : Formula) (boms : List BOM)
    (globalBoms : List (Nat × BOM)) : Int :=
  Int.fdiv (combineNewOutput formula boms globalBoms) formula.result.qty

/-- The selection dict after both loops of `combine_boms`. -/
def combineFinalBoms (formula : Formula) (boms : List BOM)
    (globalBoms : List (Nat × BOM)) : List (Nat × BOM) :=
  combineLoop2 globalBoms (combineKOutput formula boms globalBoms)
    (ILitems formula.ingredients) (combineFold formula boms globalBoms).2

/-- Dict `__setitem__` for component dicts. -/
def setComp (l : List (Nat × Item)) (n : Nat) (v : Item) : List (Nat × Item) :=
  if l.any (fun p => p.1 = n) then l.map (fun p => if p.1 = n then (n, v) else p)
  else l ++ [(n, v)]

/-- `BOM.__getitem__`: the ingredient quantity of a component id (0 when
the id is not a component or carries no ingredient entry). -/
def BOM.getQty (b : BOM) (key : Nat) : Int :=
  if (lookupComp b.components key).isSome then
    ((b.ingredients.find? (fun i => i.name = key)).map Ingredient.qty).getD 0
  else 0

/-- The merge phase and final construction of `combine_boms`: union the
chosen BOMs' component dicts (skipping ids that have their own chosen
BOM; on duplicate ids the later dict wins, as with Python dict `|`),
sum each merged component's quantity across all chosen BOMs, recompute
the avoid flag against the avoid set, and link the chosen formula trees
(dropping children rooted at the current formula). -/
def combineBoms (result : Item) (formula : Formula) (boms : List BOM)
    (globalBoms : List (Nat × BOM)) (avoidSet : List Nat)
    (preferCraft : Bool) : BOM :=
  let best := combineFinalBoms formula boms globalBoms
  let newComponents := best.foldl
    (fun acc p =>
      (p.2.components.filter (fun q => ¬ best.any (fun r => r.1 = q.1))).foldl
        (fun acc2 q => setComp acc2 q.1 q.2) acc)
    []
  let newIngredients := newComponents.map
    (fun q => Ingredient.mk q.1 ((best.map (fun p => BOM.getQty p.2 q.1)).sum))
  let avoid := newComponents.any (fun q => avoidSet.contains q.1)
  mkBOM result newIngredients newComponents
    (combineNewOutput formula boms globalBoms)
    (FormulaNode.node formula
      ((best.filter (fun p => ¬ (p.2.formulaTree.formula = formula))).map
        (fun p => p.2.formulaTree)))
    avoid preferCraft

/-! ## Claims -/

/-- C9.  For every BOM built by the constructor and every integer k ≥ 1,
`b * k` is a new BOM whose `total` and `output_qty` are `b`'s scaled by
`k`; the model's `BOM.mul` builds a fresh structure from `b`'s fields, so
`b` itself is untouched. -/
theorem bom_mul_scales (result : Item) (ingredients : List Ingredient)
    (components : List (Nat × Item)) (resultQty : Int) (formulas : FormulaNode)
    (avoid preferCraft : Bool) (k : Int) (hk : 1 ≤ k) :
    ((mkBOM result ingredients components resultQty formulas avoid preferCraft).mul k).total =
      (mkBOM result ingredients components resultQty formulas avoid preferCraft).total * k ∧
    ((mkBOM result ingredients components resultQty formulas avoid preferCraft).mul k).outputQty =
      (mkBOM result ingredients components resultQty formulas avoid preferCraft).outputQty * k := by
  constructor
  · have hmap :
        ((mkBOM result ingredients components resultQty formulas avoid preferCraft).ingredients.map
            (fun i => i.mul k)).map
          (fun i => (((lookupComp components i.name).map Item.value).getD 0) * (i.qty : Rat)) =
        (mkBOM result ingredients components resultQty formulas avoid preferCraft).ingredients.map
          (fun i => (((lookupComp components i.name).map Item.value).getD 0) * (i.qty : Rat) * (k : Rat)) := by
      rw [List.map_map]
      refine List.map_congr_left ?_
      intro i _
      simp only [Function.comp, Ingredient.mul]
      push_cast
      ring
    have hperm :
        ((mkBOM result ingredients components resultQty formulas avoid preferCraft).ingredients.map
          (fun i => (((lookupComp components i.name).map Item.value).getD 0) * (i.qty : Rat))).sum =
        (ingredients.map
          (fun i => (((lookupComp components i.name).map Item.value).getD 0) * (i.qty : Rat))).sum := by
      refine List.Perm.sum_eq (List.Perm.map _ ?_)
      exact List.perm_insertionSort _ _
    have hcomp :
        (mkBOM result ingredients components resultQty formulas avoid preferCraft).components
          = components := rfl
    show (List.map _ _).sum = _
    simp only [hcomp]
    rw [hmap, List.sum_map_mul_right, hperm]
    rfl
  · rfl

/-- C9 witness: a concrete constructor call and k = 3. -/
theorem bom_mul_scales_witness :
    (1 : Int) ≤ 3 ∧
    (((mkBOM ⟨0, 5, Rarity.Common, Class.Resource⟩ [⟨1, 2⟩]
        [(1, ⟨1, 3, Rarity.Rare, Class.Product⟩)] 2
        (FormulaNode.node ⟨⟨0, 2⟩, [⟨1, 2⟩], FormulaType.CRAFT, none⟩ []) false false).mul 3).total =
      (mkBOM ⟨0, 5, Rarity.Common, Class.Resource⟩ [⟨1, 2⟩]
        [(1, ⟨1, 3, Rarity.Rare, Class.Product⟩)] 2
        (FormulaNode.node ⟨⟨0, 2⟩, [⟨1, 2⟩], FormulaType.CRAFT, none⟩ []) false false).total * 3 ∧
    ((mkBOM ⟨0, 5, Rarity.Common, Class.Resource⟩ [⟨1, 2⟩]
        [(1, ⟨1, 3, Rarity.Rare, Class.Product⟩)] 2
        (FormulaNode.node ⟨⟨0, 2⟩, [⟨1, 2⟩], FormulaType.CRAFT, none⟩ []) false false).mul 3).outputQty =
      (mkBOM ⟨0, 5, Rarity.Common, Class.Resource⟩ [⟨1, 2⟩]
        [(1, ⟨1, 3, Rarity.Rare, Class.Product⟩)] 2
        (FormulaNode.node ⟨⟨0, 2⟩, [⟨1, 2⟩], FormulaType.CRAFT, none⟩ []) false false).outputQty * 3) :=
  ⟨by decide,
    bom_mul_scales ⟨0, 5, Rarity.Common, Class.Resource⟩ [⟨1, 2⟩]
      [(1, ⟨1, 3, Rarity.Rare, Class.Product⟩)] 2
      (FormulaNode.node ⟨⟨0, 2⟩, [⟨1, 2⟩], FormulaType.CRAFT, none⟩ []) false false 3
      (by decide)⟩

/-- C6.  In the rescale loop of `combine_boms`, when the ingredient `ing`
(traversed after the ingredients `pre`) selects a child BOM, the
(possibly rescaled) selection's `output_qty` is an exact integer multiple
of `ing.qty * k_output`. -/
theorem combine_scaled_child_divisible (formula : Formula) (boms : List BOM)
    (globalBoms : List (Nat × BOM)) (pre post : List Ingredient)
    (ing : Ingredient) (bom : BOM)
    (hsplit : ILitems formula.ingredients = pre ++ ing :: post)
    (hsel : selectBom globalBoms
        (combineLoop2 globalBoms (combineKOutput formula boms globalBoms) pre
          (combineFold formula boms globalBoms).2) ing.name = some bom) :
    (ing.qty * combineKOutput formula boms globalBoms) ∣
      (rescaleBom (combineKOutput formula boms globalBoms) ing bom).outputQty := by
  unfold rescaleBom
  by_cases h : (Int.lcm (ing.qty * combineKOutput formula boms globalBoms) bom.outputQty : Int)
      = bom.outputQty
  · simp only [h, ne_eq, not_true_eq_false, if_neg, ite_false, not_not]
    rw [← h]
    exact Int.dvd_lcm_left
  · simp only [ne_eq, h, not_false_eq_true, if_pos, ite_true]
    have hout : bom.outputQty ≠ 0 := by
      intro h0
      apply h
      rw [h0]
      simp
    obtain ⟨m, hm⟩ :=
      (Int.dvd_lcm_right :
        bom.outputQty ∣ (Int.lcm (ing.qty * combineKOutput formula boms globalBoms) bom.outputQty : Int))
    have hq : (bom.mul (Int.fdiv
        (Int.lcm (ing.qty * combineKOutput formula boms globalBoms) bom.outputQty : Int)
        bom.outputQty)).outputQty =
        (Int.lcm (ing.qty * combineKOutput formula boms globalBoms) bom.outputQty : Int) := by
      show bom.outputQty * _ = _
      rw [hm, Int.mul_fdiv_cancel_left _ hout]
    rw [hq]
    exact Int.dvd_lcm_left

/-- C6 witness: a formula needing 3 of item 1 per 2 outputs, with a
globally cached BOM of output 5 for item 1; the derived k_output is 2 and
the selection is rescaled to output 30, a multiple of 3 * 2. -/
theorem combine_scaled_child_divisible_witness :
    (ILitems (Formula.mk ⟨0, 2⟩ [⟨1, 3⟩] FormulaType.CRAFT none).ingredients =
      [] ++ Ingredient.mk 1 3 :: [] ∧
     selectBom [(1, mkBOM ⟨1, 0, Rarity.Common, Class.UNKNOWN⟩ [] [] 5
          (FormulaNode.node ⟨⟨1, 5⟩, [], FormulaType.REFINING, none⟩ []) false false)]
        (combineLoop2 [(1, mkBOM ⟨1, 0, Rarity.Common, Class.UNKNOWN⟩ [] [] 5
            (FormulaNode.node ⟨⟨1, 5⟩, [], FormulaType.REFINING, none⟩ []) false false)]
          (combineKOutput (Formula.mk ⟨0, 2⟩ [⟨1, 3⟩] FormulaType.CRAFT none) []
            [(1, mkBOM ⟨1, 0, Rarity.Common, Class.UNKNOWN⟩ [] [] 5
              (FormulaNode.node ⟨⟨1, 5⟩, [], FormulaType.REFINING, none⟩ []) false false)])
          []
          (combineFold (Formula.mk ⟨0, 2⟩ [⟨1, 3⟩] FormulaType.CRAFT none) []
            [(1, mkBOM ⟨1, 0, Rarity.Common, Class.UNKNOWN⟩ [] [] 5
              (FormulaNode.node ⟨⟨1, 5⟩, [], FormulaType.REFINING, none⟩ []) false false)]).2)
        (Ingredient.mk 1 3).name =
      some (mkBOM ⟨1, 0, Rarity.Common, Class.UNKNOWN⟩ [] [] 5
        (FormulaNode.node ⟨⟨1, 5⟩, [], FormulaType.REFINING, none⟩ []) false false)) ∧
    ((Ingredient.mk 1 3).qty *
        combineKOutput (Formula.mk ⟨0, 2⟩ [⟨1, 3⟩] FormulaType.CRAFT none) []
          [(1, mkBOM ⟨1, 0, Rarity.Common, Class.UNKNOWN⟩ [] [] 5
            (FormulaNode.node ⟨⟨1, 5⟩, [], FormulaType.REFINING, none⟩ []) false false)]) ∣
      (rescaleBom
        (combineKOutput (Formula.mk ⟨0, 2⟩ [⟨1, 3⟩] FormulaType.CRAFT none) []
          [(1, mkBOM ⟨1, 0, Rarity.Common, Class.UNKNOWN⟩ [] [] 5
            (FormulaNode.node ⟨⟨1, 5⟩, [], FormulaType.REFINING, none⟩ []) false false)])
        (Ingredient.mk 1 3)
        (mkBOM ⟨1, 0, Rarity.Common, Class.UNKNOWN⟩ [] [] 5
          (FormulaNode.node ⟨⟨1, 5⟩, [], FormulaType.REFINING, none⟩ []) false false)).outputQty :=
  ⟨⟨rfl, rfl⟩,
    combine_scaled_child_divisible (Formula.mk ⟨0, 2⟩ [⟨1, 3⟩] FormulaType.CRAFT none) []
      [(1, mkBOM ⟨1, 0, Rarity.Common, Class.UNKNOWN⟩ [] [] 5
        (FormulaNode.node ⟨⟨1, 5⟩, [], FormulaType.REFINING, none⟩ []) false false)]
      [] [] (Ingredient.mk 1 3)
      (mkBOM ⟨1, 0, Rarity.Common, Class.UNKNOWN⟩ [] [] 5
        (FormulaNode.node ⟨⟨1, 5⟩, [], FormulaType.REFINING, none⟩ []) false false)
      rfl rfl⟩

/-! ### Ingredient-dictionary lemmas -/

/-- Name-uniqueness, the dict-key invariant of every `IngredientList`. -/
def NamesNodup (l : IngredientList) : Prop :=
  (l.map Ingredient.name).Nodup

theorem ILcontains_iff (l : IngredientList) (n : Nat) :
    ILcontains l n = true ↔ ∃ i ∈ l, i.name = n := by
  simp [ILcontains, List.any_eq_true]

theorem names_map_preserve (l : IngredientList) (f : Ingredient → Ingredient)
    (hf : ∀ e ∈ l, (f e).name = e.name) :
    (l.map f).map Ingredient.name = l.map Ingredient.name := by
  induction l with
  | nil => rfl
  | cons a rest ih =>
      simp only [List.map_cons, List.cons.injEq]
      exact ⟨hf a (by simp), ih (fun e he => hf e (by simp [he]))⟩

theorem namesNodup_ILset (l : IngredientList) (i : Ingredient)
    (h : NamesNodup l) : NamesNodup (ILset l i) := by
  unfold ILset
  by_cases hc : ILcontains l i.name = true
  · rw [if_pos hc]
    unfold NamesNodup
    rw [names_map_preserve]
    · exact h
    · intro e _
      by_cases he : e.name = i.name <;> simp [he]
  · rw [if_neg hc]
    unfold NamesNodup
    rw [List.map_append]
    simp only [List.map_cons, List.map_nil]
    rw [List.nodup_append]
    refine ⟨h, List.nodup_singleton _, ?_⟩
    intro n hn hmem
    rcases List.mem_map.mp hn with ⟨e, he, rfl⟩
    simp only [List.mem_singleton] at hmem
    exact hc ((ILcontains_iff l i.name).mpr ⟨e, he, hmem⟩)

theorem namesNodup_ILappend (l : IngredientList) (i : Ingredient)
    (h : NamesNodup l) : NamesNodup (ILappend l i) := by
  unfold ILappend
  by_cases hc : ILcontains l i.name = true
  · rw [if_pos hc]
    unfold NamesNodup
    rw [names_map_preserve]
    · exact h
    · intro e _
      by_cases he : e.name = i.name <;> simp [he]
  · rw [if_neg hc]
    exact namesNodup_ILset l (i.mul 1) h

theorem namesNodup_ILappendList (l : IngredientList) (items : List Ingredient)
    (h : NamesNodup l) : NamesNodup (ILappendList l items) := by
  induction items generalizing l with
  | nil => exact h
  | cons a rest ih => exact ih (ILappend l a) (namesNodup_ILappend l a h)

theorem namesNodup_foldl_ILset (items : List Ingredient) (acc : IngredientList)
    (h : NamesNodup acc) :
    NamesNodup (items.foldl (fun a i => ILset a (i.mul 1)) acc) := by
  induction items generalizing acc with
  | nil => exact h
  | cons a rest ih => exact ih (ILset acc (a.mul 1)) (namesNodup_ILset acc (a.mul 1) h)

theorem namesNodup_ILofItems (items : List Ingredient) :
    NamesNodup (ILofItems items) :=
  namesNodup_foldl_ILset items [] (by simp [NamesNodup])

theorem namesNodup_ILdeduct (l : IngredientList) (items : List Ingredient)
    (h : NamesNodup l) : NamesNodup (ILdeduct l items) := by
  unfold ILdeduct
  induction items generalizing l with
  | nil => exact h
  | cons a rest ih =>
      simp only [List.foldl_cons]
      apply ih
      by_cases hc : ILcontains l a.name = true
      · rw [if_pos hc]
        unfold NamesNodup
        rw [names_map_preserve]
        · exact h
        · intro e _
          by_cases he : e.name = a.name <;> simp [he]
      · rw [if_neg hc]
        exact h

theorem mem_ILitems (l : IngredientList) (i : Ingredient) :
    i ∈ ILitems l ↔ i ∈ l :=
  (List.perm_insertionSort _ l).mem_iff

theorem namesNodup_ILitems (l : IngredientList) (h : NamesNodup l) :
    NamesNodup (ILitems l) :=
  ((List.perm_insertionSort _ l).map Ingredient.name).nodup_iff.mpr h

theorem namesNodup_ILremoveIf (l : IngredientList) (p : Ingredient → Bool) :
    NamesNodup (ILremoveIf l p) :=
  namesNodup_ILappendList [] _ (by simp [NamesNodup])

theorem namesNodup_results (s : ProductionStage) : NamesNodup s.results := by
  unfold ProductionStage.results
  generalize hbase : ([] : IngredientList) = base
  have hb : NamesNodup base := by rw [← hbase]; simp [NamesNodup]
  clear hbase
  induction s.formulas generalizing base with
  | nil => exact hb
  | cons f rest ih => exact ih (ILappend base f.result) (namesNodup_ILappend _ _ hb)

theorem namesNodup_input (c : ProductionChain) : NamesNodup c.input := by
  unfold ProductionChain.input
  cases c.stages with
  | nil => simp [NamesNodup]
  | cons s0 rest => exact namesNodup_ILremoveIf _ _

/-- Dict lookup characterized by membership, given unique names. -/
theorem ILlookup_eq_some_iff (l : IngredientList) (n : Nat) (q : Int)
    (h : NamesNodup l) :
    ILlookup l n = some q ↔ (⟨n, q⟩ : Ingredient) ∈ l := by
  induction l with
  | nil => simp [ILlookup]
  | cons a rest ih =>
      unfold NamesNodup at h
      simp only [List.map_cons, List.nodup_cons] at h
      by_cases ha : a.name = n
      · unfold ILlookup
        rw [List.find?_cons_of_pos _ (by simp [ha])]
        simp only [Option.map_some, Option.some.injEq, List.mem_cons]
        constructor
        · intro hq
          left
          cases a
          simp_all
        · rintro (rfl | hmem)
          · rfl
          · exfalso
            exact h.1 (ha ▸ List.mem_map.mpr ⟨⟨n, q⟩, hmem, rfl⟩)
      · unfold ILlookup
        rw [List.find?_cons_of_neg _ (by simp [ha])]
        rw [show ((List.find? (fun i => i.name = n) rest).map Ingredient.qty) = ILlookup rest n from rfl]
        rw [ih h.2]
        simp only [List.mem_cons]
        constructor
        · intro hmem
          exact Or.inr hmem
        · rintro (rfl | hmem)
          · exact absurd rfl ha
          · exact hmem

theorem ILlookup_eq_none_iff (l : IngredientList) (n : Nat) :
    ILlookup l n = none ↔ ∀ i ∈ l, i.name ≠ n := by
  simp [ILlookup, List.find?_eq_none]

/-- Lookups agree across permutations of a unique-names dictionary. -/
theorem ILlookup_perm (l l2 : IngredientList) (n : Nat)
    (hperm : l.Perm l2) (h : NamesNodup l) :
    ILlookup l n = ILlookup l2 n := by
  have h2 : NamesNodup l2 := ((hperm.map Ingredient.name).nodup_iff).mp h
  cases hl : ILlookup l n with
  | none =>
      symm
      rw [ILlookup_eq_none_iff] at hl ⊢
      intro i hi
      exact hl i (hperm.mem_iff.mpr hi)
  | some q =>
      symm
      rw [ILlookup_eq_some_iff l2 n q h2]
      rw [ILlookup_eq_some_iff l n q h] at hl
      exact hperm.mem_iff.mp hl

theorem ILlookup_ILitems (l : IngredientList) (n : Nat) (h : NamesNodup l) :
    ILlookup (ILitems l) n = ILlookup l n :=
  ILlookup_perm _ _ _ (List.perm_insertionSort _ l) (namesNodup_ILitems l h)

theorem ILofItems_eq_map (items : List Ingredient) (h : NamesNodup items) :
    ILofItems items = items.map (fun i => i.mul 1) := by
  unfold ILofItems
  have main : ∀ (rest : List Ingredient) (acc : IngredientList),
      NamesNodup rest → (∀ i ∈ rest, ILcontains acc i.name = false) →
      rest.foldl (fun a i => ILset a (i.mul 1)) acc = acc ++ rest.map (fun i => i.mul 1) := by
    intro rest
    induction rest with
    | nil => intro acc _ _; simp
    | cons a tail ih =>
        intro acc hnd hacc
        unfold NamesNodup at hnd
        simp only [List.map_cons, List.nodup_cons] at hnd
        have hfalse : ILcontains acc a.name = false := hacc a (by simp)
        have hset : ILset acc (a.mul 1) = acc ++ [a.mul 1] := by
          unfold ILset
          rw [show (a.mul 1).name = a.name from rfl, hfalse]
          simp
        simp only [List.foldl_cons, hset]
        rw [ih (acc ++ [a.mul 1]) hnd.2]
        · simp
        · intro i hi
          have hname : i.name ≠ a.name := by
            intro he
            exact hnd.1 (he ▸ List.mem_map.mpr ⟨i, hi, rfl⟩)
          have hbase := hacc i (by simp [hi])
          have hnot : ¬ (ILcontains (acc ++ [a.mul 1]) i.name = true) := by
            rw [ILcontains_iff]
            rintro ⟨e, he, hen⟩
            rcases List.mem_append.mp he with h1 | h2
            · exact absurd ((ILcontains_iff acc i.name).mpr ⟨e, h1, hen⟩) (by simp [hbase])
            · simp only [List.mem_singleton] at h2
              subst h2
              exact hname (by rw [← hen]; rfl)
          exact Bool.not_eq_true _ ▸ hnot
  exact main items [] h (fun i _ => rfl)

theorem ILlookup_map_mul (l : IngredientList) (k : Int) (n : Nat) :
    ILlookup (l.map (fun i => i.mul k)) n = (ILlookup l n).map (fun q => q * k) := by
  induction l with
  | nil => rfl
  | cons a rest ih =>
      by_cases ha : a.name = n
      · unfold ILlookup
        rw [List.map_cons, List.find?_cons_of_pos _ (by simp [Ingredient.mul, ha]),
          List.find?_cons_of_pos _ (by simp [ha])]
        rfl
      · unfold ILlookup
        rw [List.map_cons, List.find?_cons_of_neg _ (by simp [Ingredient.mul, ha]),
          List.find?_cons_of_neg _ (by simp [ha])]
        exact ih

/-- Lookup after one in-place quantity rewrite of the entries named `m`. -/
theorem ILlookup_map_adjust (l : IngredientList) (m n : Nat) (g : Int → Int) :
    ILlookup (l.map (fun e => if e.name = m then ⟨e.name, g e.qty⟩ else e)) n =
      if m = n then (ILlookup l n).map g else ILlookup l n := by
  induction l with
  | nil => simp [ILlookup]
  | cons a rest ih =>
      have hname : ((fun e => if e.name = m then (⟨e.name, g e.qty⟩ : Ingredient) else e) a).name
          = a.name := by
        by_cases h2 : a.name = m <;> simp [h2]
      by_cases ha : a.name = n
      · have hL : ILlookup ((a :: rest).map
              (fun e => if e.name = m then (⟨e.name, g e.qty⟩ : Ingredient) else e)) n
            = some (if a.name = m then g a.qty else a.qty) := by
          unfold ILlookup
          rw [List.map_cons,
            List.find?_cons_of_pos _ (by simp only [hname, decide_eq_true_eq]; exact ha)]
          by_cases h2 : a.name = m <;> simp [h2]
        have hR : ILlookup (a :: rest) n = some a.qty := by
          unfold ILlookup
          rw [List.find?_cons_of_pos _ (by simp only [decide_eq_true_eq]; exact ha)]
          rfl
        rw [hL, hR]
        by_cases h2 : a.name = m
        · have hmn : m = n := h2.symm.trans ha
          rw [if_pos h2, if_pos hmn]
          rfl
        · have hmn : ¬ (m = n) := fun hmn => h2 (ha.trans hmn.symm)
          rw [if_neg h2, if_neg hmn]
      · have hL : ILlookup ((a :: rest).map
              (fun e => if e.name = m then (⟨e.name, g e.qty⟩ : Ingredient) else e)) n
            = ILlookup (rest.map
              (fun e => if e.name = m then (⟨e.name, g e.qty⟩ : Ingredient) else e)) n := by
          unfold ILlookup
          rw [List.map_cons,
            List.find?_cons_of_neg _ (by simp only [hname, decide_eq_true_eq]; exact ha)]
        have hR : ILlookup (a :: rest) n = ILlookup rest n := by
          unfold ILlookup
          rw [List.find?_cons_of_neg _ (by simp only [decide_eq_true_eq]; exact ha)]
        rw [hL, hR, ih]

/-- Lookup after one `deduct_list` step. -/
theorem ILlookup_deduct_step (l : IngredientList) (i : Ingredient) (n : Nat) :
    ILlookup
      (if ILcontains l i.name then
        l.map (fun e => if e.name = i.name then ⟨e.name, e.qty - i.qty⟩ else e)
      else l) n =
      if i.name = n then (ILlookup l n).map (fun q => q - i.qty) else ILlookup l n := by
  by_cases hc : ILcontains l i.name = true
  · rw [if_pos hc, ILlookup_map_adjust l i.name n (fun q => q - i.qty)]
  · rw [if_neg hc]
    by_cases hn : i.name = n
    · rw [if_pos hn]
      have : ILlookup l n = none := by
        rw [ILlookup_eq_none_iff]
        intro j hj he
        apply hc
        rw [ILcontains_iff]
        exact ⟨j, hj, by rw [he, hn]⟩
      rw [this]
      rfl
    · rw [if_neg hn]

/-- Lookup through `deduct_list` over a unique-names item sequence. -/
theorem ILlookup_ILdeduct (l : IngredientList) (items : List Ingredient) (n : Nat)
    (h : NamesNodup items) :
    ILlookup (ILdeduct l items) n =
      match ILlookup items n with
      | some q => (ILlookup l n).map (fun x => x - q)
      | none => ILlookup l n := by
  induction items generalizing l with
  | nil => rfl
  | cons i rest ih =>
      unfold NamesNodup at h
      simp only [List.map_cons, List.nodup_cons] at h
      have hstep := ILlookup_deduct_step l i n
      have hfold : ILdeduct l (i :: rest) =
          ILdeduct (if ILcontains l i.name then
            l.map (fun e => if e.name = i.name then ⟨e.name, e.qty - i.qty⟩ else e)
          else l) rest := rfl
      rw [hfold, ih _ h.2]
      by_cases hn : i.name = n
      · have hrest : ILlookup rest n = none := by
          rw [ILlookup_eq_none_iff]
          intro j hj he
          apply h.1
          rw [hn, ← he]
          exact List.mem_map.mpr ⟨j, hj, rfl⟩
        have hhead : ILlookup (i :: rest) n = some i.qty := by
          unfold ILlookup
          rw [List.find?_cons_of_pos _ (by simp [hn])]
          rfl
        rw [hrest, hhead, hstep, if_pos hn]
      · have hhead : ILlookup (i :: rest) n = ILlookup rest n := by
          unfold ILlookup
          rw [List.find?_cons_of_neg _ (by simp [hn])]
        rw [hhead, hstep, if_neg hn]

/-- Truthiness of `find_if(...)` results: the filtered list is nonempty
iff some element satisfies the condition. -/
theorem filter_nonempty_flag (l : List Ingredient) (p : Ingredient → Bool) :
    (!(l.filter p).isEmpty) = true ↔ ∃ i ∈ l, p i = true := by
  cases hf : l.filter p with
  | nil =>
      simp only [List.isEmpty_nil, Bool.not_true]
      constructor
      · intro hfalse
        cases hfalse
      · rintro ⟨i, hi, hp⟩
        have hmem : i ∈ l.filter p := List.mem_filter.mpr ⟨hi, hp⟩
        rw [hf] at hmem
        cases hmem
  | cons a rest =>
      simp only [List.isEmpty_cons, Bool.not_false]
      constructor
      · intro _
        have ha : a ∈ l.filter p := by rw [hf]; simp
        exact ⟨a, (List.mem_filter.mp ha).1, (List.mem_filter.mp ha).2⟩
      · intro _
        trivial

/-- C4 helper: the profit lookup rule the code actually implements. -/
theorem chain_profit_lookup (c : ProductionChain) (n : Nat) :
    ILlookup c.profit n =
      (ILlookup c.output n).map (fun q => q - (ILlookup c.input n).getD 0) := by
  have hout : NamesNodup c.output := by
    unfold ProductionChain.output
    cases c.stages.getLast? with
    | none => simp [NamesNodup]
    | some s => exact namesNodup_results s
  have hbase : ILlookup (ILofItems (ILitems c.output)) n = ILlookup c.output n := by
    rw [ILofItems_eq_map _ (namesNodup_ILitems _ hout), ILlookup_map_mul,
      ILlookup_ILitems _ _ hout]
    cases ILlookup c.output n <;> simp
  have hin : NamesNodup (ILitems c.input) := namesNodup_ILitems _ (namesNodup_input c)
  show ILlookup (ILdeduct (ILofItems (ILitems c.output)) (ILitems c.input)) n = _
  rw [ILlookup_ILdeduct _ _ _ hin, ILlookup_ILitems _ _ (namesNodup_input c)]
  cases hi : ILlookup c.input n with
  | none =>
      rw [hbase]
      cases ILlookup c.output n <;> simp
  | some q =>
      rw [hbase]
      rfl

/-- C4 (amended).  For every non-empty chain, `profit` is `output` with
each entry reduced by the input quantity of the same item when present;
items appearing only in `input` are omitted from `profit` (no negative
entry is created for them); `has_losses` holds iff some profit entry is
negative and `has_profit` iff some profit entry is positive. -/
theorem chain_profit_spec (c : ProductionChain) (h : c.stages ≠ []) :
    (∀ n, ILlookup c.profit n =
      (ILlookup c.output n).map (fun q => q - (ILlookup c.input n).getD 0)) ∧
    (c.hasLosses = true ↔ ∃ i ∈ c.profit, i.qty < 0) ∧
    (c.hasProfit = true ↔ ∃ i ∈ c.profit, 0 < i.qty) := by
  refine ⟨fun n => chain_profit_lookup c n, ?_, ?_⟩
  · unfold ProductionChain.hasLosses
    rw [filter_nonempty_flag]
    constructor
    · rintro ⟨i, hi, hp⟩
      exact ⟨i, (mem_ILitems _ _).mp hi, by simpa using hp⟩
    · rintro ⟨i, hi, hp⟩
      exact ⟨i, (mem_ILitems _ _).mpr hi, by simpa using hp⟩
  · unfold ProductionChain.hasProfit
    rw [filter_nonempty_flag]
    constructor
    · rintro ⟨i, hi, hp⟩
      exact ⟨i, (mem_ILitems _ _).mp hi, by simpa using hp⟩
    · rintro ⟨i, hi, hp⟩
      exact ⟨i, (mem_ILitems _ _).mpr hi, by simpa using hp⟩

/-- C4 witness: the single-stage chain refining 1 of item 1 into 2 of
item 2. -/
theorem chain_profit_spec_witness :
    (ProductionChain.mk [ProductionStage.mk
        [Formula.mk ⟨2, 2⟩ [⟨1, 1⟩] FormulaType.REFINING none]]).stages ≠ [] ∧
    ((∀ n, ILlookup (ProductionChain.mk [ProductionStage.mk
        [Formula.mk ⟨2, 2⟩ [⟨1, 1⟩] FormulaType.REFINING none]]).profit n =
      (ILlookup (ProductionChain.mk [ProductionStage.mk
        [Formula.mk ⟨2, 2⟩ [⟨1, 1⟩] FormulaType.REFINING none]]).output n).map
        (fun q => q - (ILlookup (ProductionChain.mk [ProductionStage.mk
          [Formula.mk ⟨2, 2⟩ [⟨1, 1⟩] FormulaType.REFINING none]]).input n).getD 0)) ∧
    ((ProductionChain.mk [ProductionStage.mk
        [Formula.mk ⟨2, 2⟩ [⟨1, 1⟩] FormulaType.REFINING none]]).hasLosses = true ↔
      ∃ i ∈ (ProductionChain.mk [ProductionStage.mk
        [Formula.mk ⟨2, 2⟩ [⟨1, 1⟩] FormulaType.REFINING none]]).profit, i.qty < 0) ∧
    ((ProductionChain.mk [ProductionStage.mk
        [Formula.mk ⟨2, 2⟩ [⟨1, 1⟩] FormulaType.REFINING none]]).hasProfit = true ↔
      ∃ i ∈ (ProductionChain.mk [ProductionStage.mk
        [Formula.mk ⟨2, 2⟩ [⟨1, 1⟩] FormulaType.REFINING none]]).profit, 0 < i.qty)) :=
  ⟨by decide,
    chain_profit_spec (ProductionChain.mk [ProductionStage.mk
      [Formula.mk ⟨2, 2⟩ [⟨1, 1⟩] FormulaType.REFINING none]]) (by decide)⟩

/-- C4 counterexample.  In the chain refining 1 of item 1 into 2 of item
2, item 1 is consumed (input quantity 1) and absent from the output, yet
`profit` has no entry for it at all (rather than the claimed negative
entry) and `has_losses` is accordingly false. -/
theorem chain_profit_counterexample :
    ILlookup (ProductionChain.mk [ProductionStage.mk
        [Formula.mk ⟨2, 2⟩ [⟨1, 1⟩] FormulaType.REFINING none]]).input 1 = some 1 ∧
    ILlookup (ProductionChain.mk [ProductionStage.mk
        [Formula.mk ⟨2, 2⟩ [⟨1, 1⟩] FormulaType.REFINING none]]).output 1 = none ∧
    ILlookup (ProductionChain.mk [ProductionStage.mk
        [Formula.mk ⟨2, 2⟩ [⟨1, 1⟩] FormulaType.REFINING none]]).profit 1 = none ∧
    (ProductionChain.mk [ProductionStage.mk
        [Formula.mk ⟨2, 2⟩ [⟨1, 1⟩] FormulaType.REFINING none]]).hasLosses = false :=
  ⟨rfl, rfl, rfl, rfl⟩

/-! ### Stage-scaling lemmas (for C8) -/

theorem Ingredient.mul_one_eq (i : Ingredient) : i.mul 1 = i := by
  cases i
  simp [Ingredient.mul]

theorem ILcontains_map_mul (l : IngredientList) (k : Int) (n : Nat) :
    ILcontains (l.map (fun i => i.mul k)) n = ILcontains l n := by
  induction l with
  | nil => rfl
  | cons a rest ih =>
      show (decide (a.name = n) || ILcontains (rest.map (fun i => i.mul k)) n)
          = (decide (a.name = n) || ILcontains rest n)
      rw [ih]

theorem ILappend_map_mul (l : IngredientList) (i : Ingredient) (k : Int) :
    ILappend (l.map (fun e => e.mul k)) (i.mul k) = (ILappend l i).map (fun e => e.mul k) := by
  unfold ILappend
  rw [show (i.mul k).name = i.name from rfl, ILcontains_map_mul]
  by_cases hc : ILcontains l i.name = true
  · rw [if_pos hc, if_pos hc, List.map_map, List.map_map]
    refine List.map_congr_left ?_
    intro e _
    simp only [Function.comp_apply]
    show (if (e.mul k).name = (i.mul k).name
        then (⟨(e.mul k).name, (e.mul k).qty + (i.mul k).qty⟩ : Ingredient) else e.mul k)
      = (if e.name = i.name then (⟨e.name, e.qty + i.qty⟩ : Ingredient) else e).mul k
    rw [apply_ite (fun x : Ingredient => x.mul k)]
    by_cases he : e.name = i.name
    · rw [if_pos (show (e.mul k).name = (i.mul k).name from he), if_pos he]
      show (⟨e.name, e.qty * k + i.qty * k⟩ : Ingredient) = ⟨e.name, (e.qty + i.qty) * k⟩
      have harith : e.qty * k + i.qty * k = (e.qty + i.qty) * k := by ring
      rw [harith]
    · rw [if_neg (show ¬ (e.mul k).name = (i.mul k).name from he), if_neg he]
  · rw [if_neg hc, if_neg hc]
    unfold ILset
    rw [show ((i.mul k).mul 1).name = i.name from rfl, show (i.mul 1).name = i.name from rfl,
      ILcontains_map_mul]
    rw [if_neg hc, if_neg hc, List.map_append]
    simp only [List.map_cons, List.map_nil]
    rw [(i.mul k).mul_one_eq, i.mul_one_eq]

theorem ILappendList_map_mul (l : IngredientList) (items : List Ingredient) (k : Int) :
    ILappendList (l.map (fun e => e.mul k)) (items.map (fun e => e.mul k)) =
      (ILappendList l items).map (fun e => e.mul k) := by
  induction items generalizing l with
  | nil => rfl
  | cons a rest ih =>
      simp only [List.map_cons, ILappendList, List.foldl_cons]
      rw [ILappend_map_mul]
      exact ih (ILappend l a)

theorem stageResults_mul (s : ProductionStage) (k : Int) :
    (s.mul k).results = s.results.map (fun e => e.mul k) := by
  unfold ProductionStage.results ProductionStage.mul
  generalize hbase : ([] : IngredientList) = base
  have : (s.formulas.map (fun f => f.mul k)).foldl (fun acc f => ILappend acc f.result)
      (base.map (fun e => e.mul k)) =
      (s.formulas.foldl (fun acc f => ILappend acc f.result) base).map (fun e => e.mul k) := by
    clear hbase
    induction s.formulas generalizing base with
    | nil => rfl
    | cons f rest ih =>
        simp only [List.map_cons, List.foldl_cons]
        rw [show (f.mul k).result = f.result.mul k from rfl, ILappend_map_mul]
        exact ih (ILappend base f.result)
  rw [← this, ← hbase]
  rfl

instance : IsTotal Ingredient (fun a b => a.name ≤ b.name) :=
  ⟨fun a b => Nat.le_total a.name b.name⟩

instance : IsTrans Ingredient (fun a b => a.name ≤ b.name) :=
  ⟨fun _ _ _ hab hbc => Nat.le_trans hab hbc⟩

theorem ILitems_sorted (l : IngredientList) :
    List.Sorted (fun a b : Ingredient => a.name ≤ b.name) (ILitems l) :=
  List.sorted_insertionSort _ l

theorem map_mul_one_id (l : List Ingredient) : l.map (fun i => i.mul 1) = l := by
  induction l with
  | nil => rfl
  | cons a rest ih => simp [Ingredient.mul_one_eq, ih]

theorem ILitems_formula_mul (f : Formula) (k : Int) (h : NamesNodup f.ingredients) :
    ILitems ((f.mul k).ingredients) = (ILitems f.ingredients).map (fun i => i.mul k) := by
  have hnd : NamesNodup ((ILitems f.ingredients).map (fun i => i.mul k)) := by
    unfold NamesNodup
    rw [names_map_preserve (ILitems f.ingredients) (fun i => i.mul k) (fun e _ => rfl)]
    exact namesNodup_ILitems _ h
  have hof : (f.mul k).ingredients = (ILitems f.ingredients).map (fun i => i.mul k) := by
    show ILofItems _ = _
    rw [ILofItems_eq_map _ hnd, map_mul_one_id]
  rw [hof]
  unfold ILitems
  apply List.Sorted.insertionSort_eq
  have hs := ILitems_sorted f.ingredients
  unfold List.Sorted at hs ⊢
  rw [List.pairwise_map]
  exact hs.imp (fun hab => hab)

theorem stageIngredients_mul (s : ProductionStage) (k : Int)
    (h : ∀ f ∈ s.formulas, NamesNodup f.ingredients) :
    (s.mul k).ingredients = s.ingredients.map (fun e => e.mul k) := by
  have main : ∀ (fs : List Formula) (base : IngredientList),
      (∀ f ∈ fs, NamesNodup f.ingredients) →
      (fs.map (fun f => f.mul k)).foldl (fun acc f => ILappendList acc (ILitems f.ingredients))
        (base.map (fun e => e.mul k)) =
      (fs.foldl (fun acc f => ILappendList acc (ILitems f.ingredients)) base).map
        (fun e => e.mul k) := by
    intro fs
    induction fs with
    | nil => intro base _; rfl
    | cons f rest ih =>
        intro base hfs
        simp only [List.map_cons, List.foldl_cons]
        rw [ILitems_formula_mul f k (hfs f (by simp)), ILappendList_map_mul]
        exact ih _ (fun g hg => hfs g (by simp [hg]))
  exact main s.formulas [] h

/-- Exact integer division through `lcm` is total: if `x` divides `l`
then `x * (l // x) = l` (also when `x = 0`, which forces `l = 0`). -/
theorem mul_fdiv_of_dvd (x l : Int) (h : x ∣ l) : x * (Int.fdiv l x) = l := by
  by_cases hx : x = 0
  · subst hx
    have : l = 0 := by simpa using h
    subst this
    rfl
  · obtain ⟨m, rfl⟩ := h
    rw [Int.mul_fdiv_cancel_left _ hx]

/-- The rescale loop ignores result entries that are not ingredients of
the stage being appended. -/
theorem appendRescale_skip (seg : List Ingredient) (stage : ProductionStage)
    (stages : List ProductionStage)
    (h : ∀ i ∈ seg, ILcontains stage.ingredients i.name = false) :
    appendRescale seg stage stages = (stage, stages) := by
  induction seg with
  | nil => rfl
  | cons a rest ih =>
      unfold appendRescale
      rw [if_neg (by rw [h a (by simp)]; intro hcon; cases hcon)]
      exact ih (fun i hi => h i (by simp [hi]))

/-- The rescale loop skips a leading segment of non-shared result
entries. -/
theorem appendRescale_skip_seg (seg rest : List Ingredient) (stage : ProductionStage)
    (stages : List ProductionStage)
    (h : ∀ i ∈ seg, ILcontains stage.ingredients i.name = false) :
    appendRescale (seg ++ rest) stage stages = appendRescale rest stage stages := by
  induction seg with
  | nil => rfl
  | cons a tail ih =>
      simp only [List.cons_append, appendRescale]
      rw [if_neg (by rw [h a (by simp)]; intro hcon; cases hcon)]
      exact ih (fun i hi => h i (by simp [hi]))

/-- One shared step of the rescale loop. -/
theorem appendRescale_cons_shared (res : Ingredient) (rest : List Ingredient)
    (stage : ProductionStage) (stages : List ProductionStage)
    (h : ILcontains stage.ingredients res.name = true) :
    appendRescale (res :: rest) stage stages =
      appendRescale rest
        (if Int.fdiv (Int.lcm res.qty ((ILlookup stage.ingredients res.name).getD 0) : Int)
              ((ILlookup stage.ingredients res.name).getD 0) ≠ 1 then
          stage.mul (Int.fdiv
            (Int.lcm res.qty ((ILlookup stage.ingredients res.name).getD 0) : Int)
            ((ILlookup stage.ingredients res.name).getD 0))
        else stage)
        (if Int.fdiv (Int.lcm res.qty ((ILlookup stage.ingredients res.name).getD 0) : Int)
              res.qty ≠ 1 then
          stages.map (fun s => s.mul (Int.fdiv
            (Int.lcm res.qty ((ILlookup stage.ingredients res.name).getD 0) : Int) res.qty))
        else stages) := by
  simp only [appendRescale]
  rw [if_pos h]

/-- `ILcontains` means the lookup succeeds. -/
theorem ILcontains_lookup (l : IngredientList) (n : Nat)
    (h : ILcontains l n = true) : ∃ q, ILlookup l n = some q := by
  unfold ILcontains at h
  rw [List.any_eq_true] at h
  obtain ⟨i, hi, hp⟩ := h
  rcases hf : l.find? (fun i => i.name = n) with _ | j
  · rw [List.find?_eq_none] at hf
    exact absurd hp (by simpa using hf i hi)
  · exact ⟨j.qty, by unfold ILlookup; rw [hf]; rfl⟩

/-- C8 (amended).  Appending a stage that shares exactly one item with
the previous stage's results scales the new stage by `k_out` and every
accumulated stage by `k_in`, after which the shared item's ingredient
quantity in the appended stage equals its result quantity in the (now
scaled) previous stage — both are `lcm(res.qty, ing.qty)`.  With two or
more shared items the loop keeps iterating over a stale snapshot of the
pre-scaling results and the equality fails (see the counterexample). -/
theorem append_single_shared (c : ProductionChain) (stage last : ProductionStage)
    (r : Ingredient) (pre post : List Ingredient)
    (hlast : c.stages.getLast? = some last)
    (hsnap : ILitems last.results = pre ++ r :: post)
    (hpre : ∀ i ∈ pre, ILcontains stage.ingredients i.name = false)
    (hr : ILcontains stage.ingredients r.name = true)
    (hpost : ∀ i ∈ post, ILcontains stage.ingredients i.name = false)
    (hnodup : ∀ f ∈ stage.formulas, NamesNodup f.ingredients) :
    ∃ newst prior,
      (c.append stage).stages.getLast? = some newst ∧
      (c.append stage).stages.dropLast.getLast? = some prior ∧
      (ILlookup newst.ingredients r.name).isSome = true ∧
      ILlookup newst.ingredients r.name = ILlookup prior.results r.name := by
  obtain ⟨q, hq⟩ := ILcontains_lookup stage.ingredients r.name hr
  have hgetd : (ILlookup stage.ingredients r.name).getD 0 = q := by rw [hq]; rfl
  set L : Int := (Int.lcm r.qty q : Int) with hL
  set kOut : Int := Int.fdiv L q with hkOut
  set kIn : Int := Int.fdiv L r.qty with hkIn
  have happ : c.append stage =
      ⟨(appendRescale (ILitems last.results) stage c.stages).2 ++
        [(appendRescale (ILitems last.results) stage c.stages).1]⟩ := by
    unfold ProductionChain.append
    rw [hlast]
  set stage2 : ProductionStage := if kOut ≠ 1 then stage.mul kOut else stage with hstage2
  set stages2 : List ProductionStage :=
    if kIn ≠ 1 then c.stages.map (fun s => s.mul kIn) else c.stages with hstages2
  have hrescale : appendRescale (ILitems last.results) stage c.stages = (stage2, stages2) := by
    rw [hsnap, appendRescale_skip_seg pre _ stage c.stages hpre,
      appendRescale_cons_shared r post stage c.stages hr]
    rw [hgetd, ← hL, ← hkOut, ← hkIn, ← hstage2, ← hstages2]
    apply appendRescale_skip
    intro i hi
    rw [hstage2]
    by_cases hko : kOut ≠ 1
    · rw [if_pos hko, stageIngredients_mul stage kOut hnodup, ILcontains_map_mul]
      exact hpost i hi
    · rw [if_neg hko]
      exact hpost i hi
  have hlook2 : ILlookup stage2.ingredients r.name = some (q * kOut) := by
    rw [hstage2]
    by_cases hko : kOut ≠ 1
    · rw [if_pos hko, stageIngredients_mul stage kOut hnodup, ILlookup_map_mul, hq]
      rfl
    · rw [if_neg hko]
      push_neg at hko
      rw [hq, hko, mul_one]
  have hrmem : r ∈ last.results := by
    refine (mem_ILitems last.results r).mp ?_
    rw [hsnap]
    simp
  have hlookr : ILlookup last.results r.name = some r.qty := by
    rw [ILlookup_eq_some_iff last.results r.name r.qty (namesNodup_results last)]
    exact hrmem
  have hlast2 : stages2.getLast? = some (if kIn ≠ 1 then last.mul kIn else last) := by
    rw [hstages2]
    by_cases hki : kIn ≠ 1
    · rw [if_pos hki, if_pos hki, List.getLast?_map, hlast]
      rfl
    · rw [if_neg hki, if_neg hki, hlast]
  have hlookprior :
      ILlookup (if kIn ≠ 1 then last.mul kIn else last).results r.name = some (r.qty * kIn) := by
    by_cases hki : kIn ≠ 1
    · rw [if_pos hki, stageResults_mul, ILlookup_map_mul, hlookr]
      rfl
    · rw [if_neg hki]
      push_neg at hki
      rw [hlookr, hki, mul_one]
  refine ⟨stage2, (if kIn ≠ 1 then last.mul kIn else last), ?_, ?_, ?_, ?_⟩
  · rw [happ]
    show ((appendRescale (ILitems last.results) stage c.stages).2 ++
      [(appendRescale (ILitems last.results) stage c.stages).1]).getLast? = _
    rw [hrescale, List.getLast?_concat]
  · rw [happ]
    show ((appendRescale (ILitems last.results) stage c.stages).2 ++
      [(appendRescale (ILitems last.results) stage c.stages).1]).dropLast.getLast? = _
    rw [hrescale]
    show (stages2 ++ [stage2]).dropLast.getLast? = _
    rw [List.dropLast_concat, hlast2]
  · rw [hlook2]
    rfl
  · rw [hlook2, hlookprior]
    have h1 : q * kOut = L := by
      rw [hkOut]
      exact mul_fdiv_of_dvd q L (by rw [hL]; exact Int.dvd_lcm_right)
    have h2 : r.qty * kIn = L := by
      rw [hkIn]
      exact mul_fdiv_of_dvd r.qty L (by rw [hL]; exact Int.dvd_lcm_left)
    rw [h1, h2]

/-- C8 witness: a one-stage chain producing 2 of item 1, extended by a
stage consuming 3 of item 1. -/
theorem append_single_shared_witness :
    ((ProductionChain.mk [ProductionStage.mk
        [Formula.mk ⟨1, 2⟩ [] FormulaType.REFINING none]]).stages.getLast? =
      some (ProductionStage.mk [Formula.mk ⟨1, 2⟩ [] FormulaType.REFINING none]) ∧
     ILitems (ProductionStage.mk
        [Formula.mk ⟨1, 2⟩ [] FormulaType.REFINING none]).results =
      [] ++ Ingredient.mk 1 2 :: [] ∧
     ILcontains (ProductionStage.mk
        [Formula.mk ⟨3, 1⟩ [⟨1, 3⟩] FormulaType.REFINING none]).ingredients
        (Ingredient.mk 1 2).name = true) ∧
    (∃ newst prior,
      ((ProductionChain.mk [ProductionStage.mk
          [Formula.mk ⟨1, 2⟩ [] FormulaType.REFINING none]]).append
        (ProductionStage.mk
          [Formula.mk ⟨3, 1⟩ [⟨1, 3⟩] FormulaType.REFINING none])).stages.getLast? = some newst ∧
      ((ProductionChain.mk [ProductionStage.mk
          [Formula.mk ⟨1, 2⟩ [] FormulaType.REFINING none]]).append
        (ProductionStage.mk
          [Formula.mk ⟨3, 1⟩ [⟨1, 3⟩] FormulaType.REFINING none])).stages.dropLast.getLast? =
        some prior ∧
      (ILlookup newst.ingredients (Ingredient.mk 1 2).name).isSome = true ∧
      ILlookup newst.ingredients (Ingredient.mk 1 2).name =
        ILlookup prior.results (Ingredient.mk 1 2).name) :=
  ⟨⟨rfl, rfl, rfl⟩,
    append_single_shared
      (ProductionChain.mk [ProductionStage.mk
        [Formula.mk ⟨1, 2⟩ [] FormulaType.REFINING none]])
      (ProductionStage.mk [Formula.mk ⟨3, 1⟩ [⟨1, 3⟩] FormulaType.REFINING none])
      (ProductionStage.mk [Formula.mk ⟨1, 2⟩ [] FormulaType.REFINING none])
      (Ingredient.mk 1 2) [] []
      rfl rfl (by intro i hi; cases hi) rfl (by intro i hi; cases hi)
      (by intro f hf; simp only [List.mem_singleton] at hf; subst hf; unfold NamesNodup; decide)⟩

/-- C8 counterexample.  Prior stage producing (item 1 ×2, item 2 ×3),
appended stage consuming (item 1 ×3, item 2 ×2): the rescale loop's
second iteration reads the stale snapshot quantity 3 for item 2, ends
with the appended stage needing 18 of item 1 while the rescaled prior
stage produces 24 of it — the claimed exact-consumption equality fails. -/
theorem append_counterexample :
    ILlookup (((ProductionChain.mk [ProductionStage.mk
        [Formula.mk ⟨1, 2⟩ [] FormulaType.REFINING none,
         Formula.mk ⟨2, 3⟩ [] FormulaType.REFINING none]]).append
        (ProductionStage.mk
          [Formula.mk ⟨3, 1⟩ [⟨1, 3⟩, ⟨2, 2⟩]
            FormulaType.REFINING none])).stages.getLast?.getD
        (ProductionStage.mk [])).ingredients 1 = some 18 ∧
    ILlookup (((ProductionChain.mk [ProductionStage.mk
        [Formula.mk ⟨1, 2⟩ [] FormulaType.REFINING none,
         Formula.mk ⟨2, 3⟩ [] FormulaType.REFINING none]]).append
        (ProductionStage.mk
          [Formula.mk ⟨3, 1⟩ [⟨1, 3⟩, ⟨2, 2⟩]
            FormulaType.REFINING none])).stages.dropLast.getLast?.getD
        (ProductionStage.mk [])).results 1 = some 24 :=
  ⟨rfl, rfl⟩

/-! ### Comparator lemmas (for C5) -/

theorem ingredient_lt_iff (a b : Ingredient) :
    Ingredient.lt a b = true ↔
      (a.name < b.name ∨ (a.name = b.name ∧ a.qty < b.qty)) := by
  unfold Ingredient.lt
  by_cases h1 : a.name < b.name
  · rw [if_pos h1]
    constructor
    · intro _
      exact Or.inl h1
    · intro _
      rfl
  · rw [if_neg h1]
    by_cases h2 : b.name < a.name
    · rw [if_pos h2]
      constructor
      · intro hcon
        cases hcon
      · intro hcon
        rcases hcon with h | ⟨he, _⟩
        · exact absurd h h1
        · omega
    · rw [if_neg h2]
      have he : a.name = b.name := by omega
      constructor
      · intro hq
        exact Or.inr ⟨he, by simpa using hq⟩
      · intro hcon
        rcases hcon with h | ⟨_, hq⟩
        · exact absurd h h1
        · simpa using hq

theorem ingredient_lt_self (a : Ingredient) : Ingredient.lt a a = false := by
  rw [Bool.eq_false_iff, Ne, ingredient_lt_iff]
  omega

theorem cmpIngredient_self (a : Ingredient) : cmpIngredient a a = CompareResult.Equal := by
  unfold cmpIngredient
  rw [if_neg (by rw [ingredient_lt_self]; intro hcon; cases hcon),
    if_neg (by rw [ingredient_lt_self]; intro hcon; cases hcon)]

theorem cmpIngredient_eq_iff (a b : Ingredient) :
    cmpIngredient a b = CompareResult.Equal ↔ a = b := by
  constructor
  · intro h
    unfold cmpIngredient at h
    by_cases h1 : Ingredient.lt a b = true
    · rw [if_pos h1] at h
      cases h
    · rw [if_neg h1] at h
      by_cases h2 : Ingredient.lt b a = true
      · rw [if_pos h2] at h
        cases h
      · rw [ingredient_lt_iff] at h1 h2
        have hn : a.name = b.name := by omega
        have hq : a.qty = b.qty := by omega
        cases a
        cases b
        simp only [Ingredient.mk.injEq]
        exact ⟨hn, hq⟩
  · rintro rfl
    exact cmpIngredient_self a

theorem cmpIngredient_antisymm (a b : Ingredient) :
    cmpIngredient a b = (cmpIngredient b a).invert := by
  by_cases h1 : Ingredient.lt a b = true
  · have h2 : Ingredient.lt b a = false := by
      rw [Bool.eq_false_iff, Ne, ingredient_lt_iff]
      rw [ingredient_lt_iff] at h1
      omega
    have hL : cmpIngredient a b = CompareResult.Less := by
      unfold cmpIngredient
      rw [if_pos h1]
    have hR : cmpIngredient b a = CompareResult.More := by
      unfold cmpIngredient
      rw [if_neg (by rw [h2]; intro hcon; cases hcon), if_pos h1]
    rw [hL, hR]
    rfl
  · by_cases h2 : Ingredient.lt b a = true
    · have hL : cmpIngredient a b = CompareResult.More := by
        unfold cmpIngredient
        rw [if_neg h1, if_pos h2]
      have hR : cmpIngredient b a = CompareResult.Less := by
        unfold cmpIngredient
        rw [if_pos h2]
      rw [hL, hR]
      rfl
    · have hL : cmpIngredient a b = CompareResult.Equal := by
        unfold cmpIngredient
        rw [if_neg h1, if_neg h2]
      have hR : cmpIngredient b a = CompareResult.Equal := by
        unfold cmpIngredient
        rw [if_neg h2, if_neg h1]
      rw [hL, hR]
      rfl

theorem cmpIngredient_less_lt (a b : Ingredient)
    (h : cmpIngredient a b = CompareResult.Less) : Ingredient.lt a b = true := by
  unfold cmpIngredient at h
  by_cases h1 : Ingredient.lt a b = true
  · exact h1
  · rw [if_neg h1] at h
    by_cases h2 : Ingredient.lt b a = true
    · rw [if_pos h2] at h
      cases h
    · rw [if_neg h2] at h
      cases h

theorem cmpIngredient_trans (a b c : Ingredient)
    (hab : cmpIngredient a b = CompareResult.Less)
    (hbc : cmpIngredient b c = CompareResult.Less) :
    cmpIngredient a c = CompareResult.Less := by
  have hab2 := cmpIngredient_less_lt a b hab
  have hbc2 := cmpIngredient_less_lt b c hbc
  have hac : Ingredient.lt a c = true := by
    rw [ingredient_lt_iff] at hab2 hbc2 ⊢
    omega
  unfold cmpIngredient
  rw [if_pos hac]

/-- The length tie-break of `IngredientList.compare` before the strategy
applies. -/
def lengthRes (X Y : List Ingredient) : CompareResult :=
  if X.length < Y.length then CompareResult.Less
  else if Y.length < X.length then CompareResult.More
  else CompareResult.Equal

/-- The effective list comparison computed by `IngredientList.compare`,
written recursively: the first differing element decides; otherwise the
shorter list is Less under `LongerMore` and More under `LongerLess`. -/
def cmpListsB (longerMore : Bool) : List Ingredient → List Ingredient → CompareResult
  | [], [] => CompareResult.Equal
  | [], _ :: _ => if longerMore then CompareResult.Less else CompareResult.More
  | _ :: _, [] => if longerMore then CompareResult.More else CompareResult.Less
  | a :: X, b :: Y =>
      match cmpIngredient a b with
      | CompareResult.Equal => cmpListsB longerMore X Y
      | r => r

theorem compareBody_LM : ∀ X Y : List Ingredient,
    (match cmpCommon X Y with
     | some r => r
     | none => lengthRes X Y) = cmpListsB true X Y := by
  intro X
  induction X with
  | nil =>
      intro Y
      cases Y with
      | nil => rfl
      | cons y Y2 =>
          show lengthRes [] (y :: Y2) = cmpListsB true [] (y :: Y2)
          unfold lengthRes
          rw [if_pos (by simp)]
          rfl
  | cons x X2 ih =>
      intro Y
      cases Y with
      | nil =>
          show lengthRes (x :: X2) [] = cmpListsB true (x :: X2) []
          unfold lengthRes
          rw [if_neg (by simp), if_pos (by simp)]
          rfl
      | cons y Y2 =>
          show (match (match cmpIngredient x y with
              | CompareResult.Equal => cmpCommon X2 Y2
              | r => some r) with
            | some r => r
            | none => lengthRes (x :: X2) (y :: Y2)) = _
          cases hc : cmpIngredient x y with
          | Equal =>
              have hlen : lengthRes (x :: X2) (y :: Y2) = lengthRes X2 Y2 := by
                unfold lengthRes
                simp [Nat.succ_lt_succ_iff]
              rw [hlen]
              rw [show cmpListsB true (x :: X2) (y :: Y2) =
                (match cmpIngredient x y with
                 | CompareResult.Equal => cmpListsB true X2 Y2
                 | r => r) from rfl, hc]
              exact ih Y2
          | Less =>
              rw [show cmpListsB true (x :: X2) (y :: Y2) =
                (match cmpIngredient x y with
                 | CompareResult.Equal => cmpListsB true X2 Y2
                 | r => r) from rfl, hc]
          | More =>
              rw [show cmpListsB true (x :: X2) (y :: Y2) =
                (match cmpIngredient x y with
                 | CompareResult.Equal => cmpListsB true X2 Y2
                 | r => r) from rfl, hc]

theorem compareBody_LL : ∀ X Y : List Ingredient,
    (match cmpCommon X Y with
     | some r => r
     | none => (lengthRes X Y).invert) = cmpListsB false X Y := by
  intro X
  induction X with
  | nil =>
      intro Y
      cases Y with
      | nil => rfl
      | cons y Y2 =>
          show (lengthRes [] (y :: Y2)).invert = cmpListsB false [] (y :: Y2)
          unfold lengthRes
          rw [if_pos (by simp)]
          rfl
  | cons x X2 ih =>
      intro Y
      cases Y with
      | nil =>
          show (lengthRes (x :: X2) []).invert = cmpListsB false (x :: X2) []
          unfold lengthRes
          rw [if_neg (by simp), if_pos (by simp)]
          rfl
      | cons y Y2 =>
          show (match (match cmpIngredient x y with
              | CompareResult.Equal => cmpCommon X2 Y2
              | r => some r) with
            | some r => r
            | none => (lengthRes (x :: X2) (y :: Y2)).invert) = _
          cases hc : cmpIngredient x y with
          | Equal =>
              have hlen : lengthRes (x :: X2) (y :: Y2) = lengthRes X2 Y2 := by
                unfold lengthRes
                simp [Nat.succ_lt_succ_iff]
              rw [hlen]
              rw [show cmpListsB false (x :: X2) (y :: Y2) =
                (match cmpIngredient x y with
                 | CompareResult.Equal => cmpListsB false X2 Y2
                 | r => r) from rfl, hc]
              exact ih Y2
          | Less =>
              rw [show cmpListsB false (x :: X2) (y :: Y2) =
                (match cmpIngredient x y with
                 | CompareResult.Equal => cmpListsB false X2 Y2
                 | r => r) from rfl, hc]
          | More =>
              rw [show cmpListsB false (x :: X2) (y :: Y2) =
                (match cmpIngredient x y with
                 | CompareResult.Equal => cmpListsB false X2 Y2
                 | r => r) from rfl, hc]

/-- `IngredientList.compare` is `cmpListsB` over the sorted items. -/
theorem ILcompare_eq_cmpListsB (x y : IngredientList) :
    ILcompare x y IngredientListCompare.LongerMore =
      cmpListsB true (ILitems x) (ILitems y) ∧
    ILcompare x y IngredientListCompare.LongerLess =
      cmpListsB false (ILitems x) (ILitems y) := by
  constructor
  · rw [← compareBody_LM (ILitems x) (ILitems y)]
    unfold ILcompare lengthRes
    cases cmpCommon (ILitems x) (ILitems y) <;> rfl
  · rw [← compareBody_LL (ILitems x) (ILitems y)]
    unfold ILcompare lengthRes
    cases cmpCommon (ILitems x) (ILitems y) <;> rfl

theorem cmpListsB_step (b : Bool) (x y : Ingredient) (X Y : List Ingredient) :
    cmpListsB b (x :: X) (y :: Y) =
      match cmpIngredient x y with
      | CompareResult.Equal => cmpListsB b X Y
      | r => r := rfl

theorem cmpListsB_self (b : Bool) : ∀ X : List Ingredient,
    cmpListsB b X X = CompareResult.Equal := by
  intro X
  induction X with
  | nil => rfl
  | cons x X2 ih =>
      rw [cmpListsB_step, cmpIngredient_self]
      exact ih

theorem cmpListsB_antisymm (b : Bool) : ∀ X Y : List Ingredient,
    cmpListsB b X Y = (cmpListsB b Y X).invert := by
  intro X
  induction X with
  | nil =>
      intro Y
      cases Y with
      | nil => rfl
      | cons y Y2 => cases b <;> rfl
  | cons x X2 ih =>
      intro Y
      cases Y with
      | nil => cases b <;> rfl
      | cons y Y2 =>
          rw [cmpListsB_step, cmpListsB_step, cmpIngredient_antisymm x y]
          cases cmpIngredient y x with
          | Equal => exact ih Y2
          | Less => rfl
          | More => rfl

theorem cmpListsB_eq_iff (b : Bool) : ∀ X Y : List Ingredient,
    cmpListsB b X Y = CompareResult.Equal ↔ X = Y := by
  intro X
  induction X with
  | nil =>
      intro Y
      cases Y with
      | nil => simp [cmpListsB]
      | cons y Y2 =>
          cases b <;> simp [cmpListsB]
  | cons x X2 ih =>
      intro Y
      cases Y with
      | nil => cases b <;> simp [cmpListsB]
      | cons y Y2 =>
          rw [cmpListsB_step]
          cases hc : cmpIngredient x y with
          | Equal =>
              have hxy : x = y := (cmpIngredient_eq_iff x y).mp hc
              subst hxy
              rw [ih Y2]
              simp
          | Less =>
              constructor
              · intro hcon
                cases hcon
              · intro hcon
                rw [List.cons.injEq] at hcon
                rw [hcon.1] at hc
                rw [cmpIngredient_self] at hc
                cases hc
          | More =>
              constructor
              · intro hcon
                cases hcon
              · intro hcon
                rw [List.cons.injEq] at hcon
                rw [hcon.1] at hc
                rw [cmpIngredient_self] at hc
                cases hc

theorem cmpListsB_trans (b : Bool) : ∀ X Y Z : List Ingredient,
    cmpListsB b X Y = CompareResult.Less → cmpListsB b Y Z = CompareResult.Less →
    cmpListsB b X Z = CompareResult.Less := by
  intro X
  induction X with
  | nil =>
      intro Y Z hxy hyz
      cases Y with
      | nil => exact hyz
      | cons y Y2 =>
          cases Z with
          | nil =>
              cases b
              · cases hxy
              · cases hyz
          | cons z Z2 =>
              cases b
              · cases hxy
              · rfl
  | cons x X2 ih =>
      intro Y Z hxy hyz
      cases Y with
      | nil =>
          cases b
          · cases Z with
            | nil => cases hyz
            | cons z Z2 => cases hyz
          · cases hxy
      | cons y Y2 =>
          cases Z with
          | nil =>
              cases b
              · rfl
              · cases hyz
          | cons z Z2 =>
              rw [cmpListsB_step] at hxy hyz ⊢
              cases hc1 : cmpIngredient x y with
              | More =>
                  rw [hc1] at hxy
                  cases hxy
              | Less =>
                  cases hc2 : cmpIngredient y z with
                  | More =>
                      rw [hc2] at hyz
                      cases hyz
                  | Less =>
                      rw [cmpIngredient_trans x y z hc1 hc2]
                  | Equal =>
                      have hyz2 : y = z := (cmpIngredient_eq_iff y z).mp hc2
                      subst hyz2
                      rw [hc1]
              | Equal =>
                  have hxy2 : x = y := (cmpIngredient_eq_iff x y).mp hc1
                  subst hxy2
                  cases hc2 : cmpIngredient x z with
                  | More =>
                      rw [hc2] at hyz
                      cases hyz
                  | Less => rfl
                  | Equal =>
                      rw [hc1] at hxy
                      rw [hc2] at hyz
                      exact ih Y2 Z2 hxy hyz

/-- Rank of the avoid flag (not-avoided sorts first). -/
def avoidRank (x : BOM) : Nat :=
  if x.avoid then 1 else 0

/-- Rank of the craft-preference key of `BOM.__lt__` when both operands
carry the same `prefer_craft` flag `p`. -/
def craftRank (p : Bool) (x : BOM) : Nat :=
  if x.processType = FormulaType.CRAFT then (if p then 0 else 1) else (if p then 1 else 0)

/-- The BOM comparator's key tuple. -/
def bomKey (p : Bool) (x : BOM) : Nat × Nat × Nat × Rat :=
  (avoidRank x, craftRank p x, x.maxRarity.idx, x.total)

/-- Lexicographic strict order on the key tuple. -/
def tupLt (u v : Nat × Nat × Nat × Rat) : Prop :=
  u.1 < v.1 ∨ (u.1 = v.1 ∧ (u.2.1 < v.2.1 ∨ (u.2.1 = v.2.1 ∧
    (u.2.2.1 < v.2.2.1 ∨ (u.2.2.1 = v.2.2.1 ∧ u.2.2.2 < v.2.2.2)))))

theorem tupLt_asymm (u v : Nat × Nat × Nat × Rat) (h : tupLt u v) : ¬ tupLt v u := by
  intro g
  unfold tupLt at h g
  rcases h with h1 | ⟨e1, h2⟩
  · rcases g with g1 | ⟨f1, g2⟩ <;> omega
  · rcases g with g1 | ⟨f1, g2⟩
    · omega
    · rcases h2 with h2 | ⟨e2, h3⟩
      · rcases g2 with g2 | ⟨f2, g3⟩ <;> omega
      · rcases g2 with g2 | ⟨f2, g3⟩
        · omega
        · rcases h3 with h3 | ⟨e3, h4⟩
          · rcases g3 with g3 | ⟨f3, g4⟩ <;> omega
          · rcases g3 with g3 | ⟨f3, g4⟩
            · omega
            · exact absurd h4 (not_lt.mpr (le_of_lt g4))

theorem tupLt_trans (u v w : Nat × Nat × Nat × Rat)
    (h : tupLt u v) (g : tupLt v w) : tupLt u w := by
  unfold tupLt at h g ⊢
  rcases h with h1 | ⟨e1, h2⟩
  · rcases g with g1 | ⟨f1, g2⟩
    · exact Or.inl (by omega)
    · exact Or.inl (by omega)
  · rcases g with g1 | ⟨f1, g2⟩
    · exact Or.inl (by omega)
    · refine Or.inr ⟨by omega, ?_⟩
      rcases h2 with h2 | ⟨e2, h3⟩
      · rcases g2 with g2 | ⟨f2, g3⟩
        · exact Or.inl (by omega)
        · exact Or.inl (by omega)
      · rcases g2 with g2 | ⟨f2, g3⟩
        · exact Or.inl (by omega)
        · refine Or.inr ⟨by omega, ?_⟩
          rcases h3 with h3 | ⟨e3, h4⟩
          · rcases g3 with g3 | ⟨f3, g4⟩
            · exact Or.inl (by omega)
            · exact Or.inl (by omega)
          · rcases g3 with g3 | ⟨f3, g4⟩
            · exact Or.inl (by omega)
            · exact Or.inr ⟨by omega, lt_trans h4 g4⟩

theorem tupIncomp_iff (u v : Nat × Nat × Nat × Rat) :
    (¬ tupLt u v ∧ ¬ tupLt v u) ↔
      (u.1 = v.1 ∧ u.2.1 = v.2.1 ∧ u.2.2.1 = v.2.2.1 ∧ u.2.2.2 = v.2.2.2) := by
  constructor
  · rintro ⟨huv, hvu⟩
    unfold tupLt at huv hvu
    push_neg at huv hvu
    have e1 : u.1 = v.1 := by
      have := huv.1
      have := hvu.1
      omega
    have h2 := huv.2 e1
    have g2 := hvu.2 e1.symm
    have e2 : u.2.1 = v.2.1 := by
      have := h2.1
      have := g2.1
      omega
    have h3 := h2.2 e2
    have g3 := g2.2 e2.symm
    have e3 : u.2.2.1 = v.2.2.1 := by
      have := h3.1
      have := g3.1
      omega
    have h4 := h3.2 e3
    have g4 := g3.2 e3.symm
    exact ⟨e1, e2, e3, le_antisymm g4 h4⟩
  · rintro ⟨e1, e2, e3, e4⟩
    unfold tupLt
    push_neg
    constructor
    · exact ⟨by omega, fun _ => ⟨by omega, fun _ => ⟨by omega, fun _ => by rw [e4]⟩⟩⟩
    · exact ⟨by omega, fun _ => ⟨by omega, fun _ => ⟨by omega, fun _ => by rw [e4]⟩⟩⟩

theorem rarity_idx_inj (a b : Rarity) (h : a.idx = b.idx) : a = b := by
  cases a <;> cases b <;> first | rfl | (exfalso; simp [Rarity.idx] at h)

/-- `BOM.__lt__` is the lexicographic key order, for operands sharing one
`prefer_craft` flag and drawing process types from Craft plus at most one
fixed non-Craft type. -/
theorem bomLt_iff (p : Bool) (R : FormulaType) (hR : R ≠ FormulaType.CRAFT)
    (a b : BOM) (hpa : a.preferCraft = p) (hpb : b.preferCraft = p)
    (hta : a.processType = FormulaType.CRAFT ∨ a.processType = R)
    (htb : b.processType = FormulaType.CRAFT ∨ b.processType = R) :
    BOM.lt a b = true ↔ tupLt (bomKey p a) (bomKey p b) := by
  unfold BOM.lt tupLt bomKey avoidRank craftRank
  by_cases hav : a.avoid = b.avoid
  · rw [if_pos hav]
    have havno : ¬ ((if a.avoid then 1 else 0) < (if b.avoid then (1 : Nat) else 0)) := by
      rw [hav]
      omega
    have haveq : (if a.avoid then 1 else 0) = (if b.avoid then (1 : Nat) else 0) := by
      rw [hav]
    by_cases ht : a.processType = b.processType
    · rw [if_pos ht]
      have htno : ¬ ((if a.processType = FormulaType.CRAFT then (if p then 0 else 1)
          else (if p then 1 else 0)) < (if b.processType = FormulaType.CRAFT
          then (if p then (0 : Nat) else 1) else (if p then 1 else 0))) := by
        rw [ht]
        omega
      have hteq : (if a.processType = FormulaType.CRAFT then (if p then 0 else 1)
          else (if p then 1 else 0)) = (if b.processType = FormulaType.CRAFT
          then (if p then (0 : Nat) else 1) else (if p then 1 else 0)) := by
        rw [ht]
      by_cases hr : a.maxRarity = b.maxRarity
      · rw [if_pos hr]
        have hrno : ¬ (a.maxRarity.idx < b.maxRarity.idx) := by
          rw [hr]
          omega
        have hreq : a.maxRarity.idx = b.maxRarity.idx := by rw [hr]
        constructor
        · intro h
          exact Or.inr ⟨haveq, Or.inr ⟨hteq, Or.inr ⟨hreq, by simpa using h⟩⟩⟩
        · rintro (h1 | ⟨-, h2 | ⟨-, h3 | ⟨-, h4⟩⟩⟩)
          · exact absurd h1 havno
          · exact absurd h2 htno
          · exact absurd h3 hrno
          · simpa using h4
      · rw [if_neg hr]
        by_cases hlt : Rarity.ltR a.maxRarity b.maxRarity = true
        · rw [if_pos hlt]
          unfold Rarity.ltR at hlt
          constructor
          · intro _
            exact Or.inr ⟨haveq, Or.inr ⟨hteq, Or.inl (by simpa using hlt)⟩⟩
          · intro _
            rfl
        · rw [if_neg hlt]
          unfold Rarity.ltR at hlt
          constructor
          · intro hcon
            cases hcon
          · rintro (h1 | ⟨-, h2 | ⟨-, h3 | ⟨h3, h4⟩⟩⟩)
            · exact absurd h1 havno
            · exact absurd h2 htno
            · exact absurd (by simpa using h3 : decide (a.maxRarity.idx < b.maxRarity.idx) = true) hlt
            · exact ((hr (rarity_idx_inj _ _ h3)).elim)
    · rw [if_neg ht]
      by_cases hc : a.processType = FormulaType.CRAFT
      · rw [if_pos hc]
        have hbR : b.processType = R := by
          rcases htb with h | h
          · exact absurd (hc.trans h.symm) ht
          · exact h
        have hrka : (if a.processType = FormulaType.CRAFT then (if p then (0 : Nat) else 1)
            else (if p then 1 else 0)) = (if p then 0 else 1) := by rw [if_pos hc]
        have hrkb : (if b.processType = FormulaType.CRAFT then (if p then (0 : Nat) else 1)
            else (if p then 1 else 0)) = (if p then 1 else 0) := by
          rw [if_neg (by rw [hbR]; exact hR)]
        rw [hpa, hrka, hrkb]
        cases p
        · simp only [Bool.false_eq_true, false_iff]
          rintro (h1 | ⟨-, h2 | ⟨h2, -⟩⟩)
          · exact absurd h1 havno
          · simp at h2
          · simp at h2
        · simp only [true_iff]
          exact Or.inr ⟨haveq, Or.inl (by simp)⟩
      · rw [if_neg hc]
        have haR : a.processType = R := by
          rcases hta with h | h
          · exact absurd h hc
          · exact h
        have hbC : b.processType = FormulaType.CRAFT := by
          rcases htb with h | h
          · exact h
          · exact absurd (haR.trans h.symm) ht
        have hrka : (if a.processType = FormulaType.CRAFT then (if p then (0 : Nat) else 1)
            else (if p then 1 else 0)) = (if p then 1 else 0) := by
          rw [if_neg (by rw [haR]; exact hR)]
        have hrkb : (if b.processType = FormulaType.CRAFT then (if p then (0 : Nat) else 1)
            else (if p then 1 else 0)) = (if p then 0 else 1) := by rw [if_pos hbC]
        rw [hpa, hrka, hrkb]
        cases p
        · simp only [Bool.not_false, true_iff]
          exact Or.inr ⟨haveq, Or.inl (by simp)⟩
        · simp only [Bool.not_true, Bool.false_eq_true, false_iff]
          rintro (h1 | ⟨-, h2 | ⟨h2, -⟩⟩)
          · exact absurd h1 havno
          · simp at h2
          · simp at h2
  · rw [if_neg hav]
    by_cases hava : a.avoid = true
    · rw [if_pos hava]
      have hbf : b.avoid = false := by
        cases hb : b.avoid
        · rfl
        · exact absurd (hava.trans hb.symm) hav
      constructor
      · intro hcon
        cases hcon
      · rintro (h1 | ⟨h1, -⟩)
        · rw [hava, hbf] at h1
          simp at h1
        · rw [hava, hbf] at h1
          simp at h1
    · rw [if_neg hava]
      have haf : a.avoid = false := by
        cases ha : a.avoid
        · rfl
        · exact absurd ha hava
      have hbt : b.avoid = true := by
        cases hb : b.avoid
        · exact absurd (haf.trans hb.symm) hav
        · rfl
      constructor
      · intro _
        exact Or.inl (by rw [haf, hbt]; simp)
      · intro _
        rfl

theorem bomLt_irrefl (a : BOM) : BOM.lt a a = false := by
  unfold BOM.lt
  rw [if_pos rfl, if_pos rfl, if_pos rfl]
  simp

theorem cmpListsB_incomp (b : Bool) (X Y : List Ingredient) :
    (cmpListsB b X Y ≠ CompareResult.Less ∧ cmpListsB b Y X ≠ CompareResult.Less) ↔
      X = Y := by
  constructor
  · rintro ⟨h1, h2⟩
    cases hv : cmpListsB b Y X with
    | Less => exact absurd hv h2
    | Equal => exact ((cmpListsB_eq_iff b Y X).mp hv).symm
    | More =>
        have ha := cmpListsB_antisymm b X Y
        rw [hv] at ha
        exact absurd (by simpa [CompareResult.invert] using ha) h1
  · rintro rfl
    constructor <;> rw [cmpListsB_self] <;> intro hcon <;> cases hcon

theorem ilIncomp_iff (s : IngredientListCompare) (x y : IngredientList) :
    (ILcompare x y s ≠ CompareResult.Less ∧ ILcompare y x s ≠ CompareResult.Less) ↔
      ILitems x = ILitems y := by
  cases s
  · rw [(ILcompare_eq_cmpListsB x y).2, (ILcompare_eq_cmpListsB y x).2]
    exact cmpListsB_incomp false _ _
  · rw [(ILcompare_eq_cmpListsB x y).1, (ILcompare_eq_cmpListsB y x).1]
    exact cmpListsB_incomp true _ _

theorem ilLess_trans (s : IngredientListCompare) (x y z : IngredientList)
    (hxy : ILcompare x y s = CompareResult.Less)
    (hyz : ILcompare y z s = CompareResult.Less) :
    ILcompare x z s = CompareResult.Less := by
  cases s
  · rw [(ILcompare_eq_cmpListsB x y).2] at hxy
    rw [(ILcompare_eq_cmpListsB y z).2] at hyz
    rw [(ILcompare_eq_cmpListsB x z).2]
    exact cmpListsB_trans false _ _ _ hxy hyz
  · rw [(ILcompare_eq_cmpListsB x y).1] at hxy
    rw [(ILcompare_eq_cmpListsB y z).1] at hyz
    rw [(ILcompare_eq_cmpListsB x z).1]
    exact cmpListsB_trans true _ _ _ hxy hyz

theorem ilLess_irrefl (s : IngredientListCompare) (x : IngredientList) :
    ILcompare x x s ≠ CompareResult.Less := by
  cases s
  · rw [(ILcompare_eq_cmpListsB x x).2, cmpListsB_self]
    intro hcon
    cases hcon
  · rw [(ILcompare_eq_cmpListsB x x).1, cmpListsB_self]
    intro hcon
    cases hcon

/-- C5 (amended).  The `IngredientList` comparison (either strategy) is a
strict weak order; the BOM comparator is a strict weak order on operands
that share one `prefer_craft` flag and whose process types range over
Craft plus at most one fixed non-Craft type `R` (with mixed flags or two
distinct non-Craft types, asymmetry fails — see the counterexample). -/
theorem comparators_strict_weak_order (p : Bool) (R : FormulaType)
    (hR : R ≠ FormulaType.CRAFT) (a b c : BOM)
    (hpa : a.preferCraft = p) (hpb : b.preferCraft = p) (hpc : c.preferCraft = p)
    (hta : a.processType = FormulaType.CRAFT ∨ a.processType = R)
    (htb : b.processType = FormulaType.CRAFT ∨ b.processType = R)
    (htc : c.processType = FormulaType.CRAFT ∨ c.processType = R)
    (s : IngredientListCompare) (x y z : IngredientList) :
    (BOM.lt a a = false) ∧
    (BOM.lt a b = true → BOM.lt b a = false) ∧
    (BOM.lt a b = true → BOM.lt b c = true → BOM.lt a c = true) ∧
    ((BOM.lt a b = false ∧ BOM.lt b a = false) →
      (BOM.lt b c = false ∧ BOM.lt c b = false) →
      (BOM.lt a c = false ∧ BOM.lt c a = false)) ∧
    (ILcompare x x s ≠ CompareResult.Less) ∧
    (ILcompare x y s = CompareResult.Less → ILcompare y x s ≠ CompareResult.Less) ∧
    (ILcompare x y s = CompareResult.Less → ILcompare y z s = CompareResult.Less →
      ILcompare x z s = CompareResult.Less) ∧
    ((ILcompare x y s ≠ CompareResult.Less ∧ ILcompare y x s ≠ CompareResult.Less) →
      (ILcompare y z s ≠ CompareResult.Less ∧ ILcompare z y s ≠ CompareResult.Less) →
      (ILcompare x z s ≠ CompareResult.Less ∧ ILcompare z x s ≠ CompareResult.Less)) := by
  have kab := bomLt_iff p R hR a b hpa hpb hta htb
  have kba := bomLt_iff p R hR b a hpb hpa htb hta
  have kbc := bomLt_iff p R hR b c hpb hpc htb htc
  have kcb := bomLt_iff p R hR c b hpc hpb htc htb
  have kac := bomLt_iff p R hR a c hpa hpc hta htc
  have kca := bomLt_iff p R hR c a hpc hpa htc hta
  refine ⟨bomLt_irrefl a, ?_, ?_, ?_, ilLess_irrefl s x, ?_, ilLess_trans s x y z, ?_⟩
  · intro hab
    rw [Bool.eq_false_iff]
    intro hba
    exact tupLt_asymm _ _ (kab.mp hab) (kba.mp hba)
  · intro hab hbc
    exact kac.mpr (tupLt_trans _ _ _ (kab.mp hab) (kbc.mp hbc))
  · rintro ⟨h1, h2⟩ ⟨h3, h4⟩
    have n1 : ¬ tupLt (bomKey p a) (bomKey p b) := fun ht => by
      rw [kab.mpr ht] at h1
      cases h1
    have n2 : ¬ tupLt (bomKey p b) (bomKey p a) := fun ht => by
      rw [kba.mpr ht] at h2
      cases h2
    have n3 : ¬ tupLt (bomKey p b) (bomKey p c) := fun ht => by
      rw [kbc.mpr ht] at h3
      cases h3
    have n4 : ¬ tupLt (bomKey p c) (bomKey p b) := fun ht => by
      rw [kcb.mpr ht] at h4
      cases h4
    have e12 := (tupIncomp_iff _ _).mp ⟨n1, n2⟩
    have e23 := (tupIncomp_iff _ _).mp ⟨n3, n4⟩
    have e13 : (bomKey p a).1 = (bomKey p c).1 ∧ (bomKey p a).2.1 = (bomKey p c).2.1 ∧
        (bomKey p a).2.2.1 = (bomKey p c).2.2.1 ∧ (bomKey p a).2.2.2 = (bomKey p c).2.2.2 :=
      ⟨e12.1.trans e23.1, e12.2.1.trans e23.2.1, e12.2.2.1.trans e23.2.2.1,
        e12.2.2.2.trans e23.2.2.2⟩
    have hn := (tupIncomp_iff (bomKey p a) (bomKey p c)).mpr e13
    constructor
    · rw [Bool.eq_false_iff]
      intro hac
      exact hn.1 (kac.mp hac)
    · rw [Bool.eq_false_iff]
      intro hca
      exact hn.2 (kca.mp hca)
  · intro hxy
    intro hyx
    exact ilLess_irrefl s x (ilLess_trans s x y x hxy hyx)
  · intro h12 h23
    have e12 := (ilIncomp_iff s x y).mp h12
    have e23 := (ilIncomp_iff s y z).mp h23
    exact (ilIncomp_iff s x z).mpr (e12.trans e23)

/-- C5 witness: a Craft-typed BOM compared with itself and empty
ingredient lists, under `prefer_craft = false` and `R = Refining`. -/
theorem comparators_strict_weak_order_witness :
    (FormulaType.REFINING ≠ FormulaType.CRAFT ∧
      (mkBOM ⟨0, 0, Rarity.Common, Class.UNKNOWN⟩ [] [] 1
        (FormulaNode.node (Formula.mk ⟨0, 1⟩ [] FormulaType.CRAFT none) [])
        false false).preferCraft = false) ∧
    (BOM.lt (mkBOM ⟨0, 0, Rarity.Common, Class.UNKNOWN⟩ [] [] 1
        (FormulaNode.node (Formula.mk ⟨0, 1⟩ [] FormulaType.CRAFT none) [])
        false false)
      (mkBOM ⟨0, 0, Rarity.Common, Class.UNKNOWN⟩ [] [] 1
        (FormulaNode.node (Formula.mk ⟨0, 1⟩ [] FormulaType.CRAFT none) [])
        false false) = false) ∧
    (ILcompare [] [] IngredientListCompare.LongerMore ≠ CompareResult.Less) :=
  ⟨⟨by decide, rfl⟩,
    (comparators_strict_weak_order false FormulaType.REFINING (by decide)
      (mkBOM ⟨0, 0, Rarity.Common, Class.UNKNOWN⟩ [] [] 1
        (FormulaNode.node (Formula.mk ⟨0, 1⟩ [] FormulaType.CRAFT none) []) false false)
      (mkBOM ⟨0, 0, Rarity.Common, Class.UNKNOWN⟩ [] [] 1
        (FormulaNode.node (Formula.mk ⟨0, 1⟩ [] FormulaType.CRAFT none) []) false false)
      (mkBOM ⟨0, 0, Rarity.Common, Class.UNKNOWN⟩ [] [] 1
        (FormulaNode.node (Formula.mk ⟨0, 1⟩ [] FormulaType.CRAFT none) []) false false)
      rfl rfl rfl (Or.inl rfl) (Or.inl rfl) (Or.inl rfl)
      IngredientListCompare.LongerMore [] [] []).1,
    (comparators_strict_weak_order false FormulaType.REFINING (by decide)
      (mkBOM ⟨0, 0, Rarity.Common, Class.UNKNOWN⟩ [] [] 1
        (FormulaNode.node (Formula.mk ⟨0, 1⟩ [] FormulaType.CRAFT none) []) false false)
      (mkBOM ⟨0, 0, Rarity.Common, Class.UNKNOWN⟩ [] [] 1
        (FormulaNode.node (Formula.mk ⟨0, 1⟩ [] FormulaType.CRAFT none) []) false false)
      (mkBOM ⟨0, 0, Rarity.Common, Class.UNKNOWN⟩ [] [] 1
        (FormulaNode.node (Formula.mk ⟨0, 1⟩ [] FormulaType.CRAFT none) []) false false)
      rfl rfl rfl (Or.inl rfl) (Or.inl rfl) (Or.inl rfl)
      IngredientListCompare.LongerMore [] [] []).2.2.2.2.1⟩

/-- C5 counterexample.  Two BOMs with equal avoid flags and
`prefer_craft = false`, one Refining-typed and one Cook-typed: the
comparator answers `not self._prefer_craft = True` in *both* directions,
so it is not asymmetric and hence not a strict weak order as claimed. -/
theorem comparators_counterexample :
    BOM.lt
      (mkBOM ⟨0, 0, Rarity.Common, Class.UNKNOWN⟩ [] [] 1
        (FormulaNode.node (Formula.mk ⟨0, 1⟩ [] FormulaType.REFINING none) []) false false)
      (mkBOM ⟨0, 0, Rarity.Common, Class.UNKNOWN⟩ [] [] 1
        (FormulaNode.node (Formula.mk ⟨0, 1⟩ [] FormulaType.COOK none) []) false false)
      = true ∧
    BOM.lt
      (mkBOM ⟨0, 0, Rarity.Common, Class.UNKNOWN⟩ [] [] 1
        (FormulaNode.node (Formula.mk ⟨0, 1⟩ [] FormulaType.COOK none) []) false false)
      (mkBOM ⟨0, 0, Rarity.Common, Class.UNKNOWN⟩ [] [] 1
        (FormulaNode.node (Formula.mk ⟨0, 1⟩ [] FormulaType.REFINING none) []) false false)
      = true :=
  ⟨rfl, rfl⟩

/-! ### Refinery pool lemmas (for C7) -/

instance : IsTotal RefineryJobQueue (fun a b => a.totalTime ≤ b.totalTime) :=
  ⟨fun a b => le_total _ _⟩

instance : IsTrans RefineryJobQueue (fun a b => a.totalTime ≤ b.totalTime) :=
  ⟨fun _ _ _ hab hbc => le_trans hab hbc⟩

/-- `add_job` under capacity: a fresh queue is opened at the end. -/
theorem addJob_under (p : RefineryPool) (j : RefineryJob) (N : Nat)
    (hsize : p.poolSize = some N) (hlt : p.queues.length < N) :
    p.addJob j = ⟨some N, p.queues ++ [⟨[j], 0 + j.time⟩],
      (if p.maxTime < 0 + j.time then 0 + j.time else p.maxTime),
      (if p.maxLen < 1 then 1 else p.maxLen)⟩ := by
  unfold RefineryPool.addJob RefineryPool.getNextQueue
  simp only [hsize]
  rw [if_pos hlt]
  have hget : (p.queues ++ [emptyQueue]).getD p.queues.length emptyQueue = emptyQueue := by
    rw [List.getD_eq_getElem?_getD, List.getElem?_concat_length]
    rfl
  simp only [hget]
  have hset : (p.queues ++ [emptyQueue]).set p.queues.length (emptyQueue.addJob j) =
      p.queues ++ [emptyQueue.addJob j] := by
    simp only [le_refl, List.set_append_right, tsub_self, List.set_cons_zero]
  rw [hset]
  rfl

/-- `add_job` at capacity: the queues are stable-sorted by total time and
the head receives the job. -/
theorem addJob_at_capacity (p : RefineryPool) (j : RefineryJob) (N : Nat)
    (hsize : p.poolSize = some N) (hge : ¬ p.queues.length < N)
    (h0 : RefineryJobQueue) (t : List RefineryJobQueue)
    (hsort : p.queues.insertionSort (fun a b => a.totalTime ≤ b.totalTime) = h0 :: t) :
    p.addJob j = ⟨some N, (h0.addJob j) :: t,
      (if p.maxTime < h0.totalTime + j.time then h0.totalTime + j.time else p.maxTime),
      (if p.maxLen < h0.jobs.length + 1 then h0.jobs.length + 1 else p.maxLen)⟩ := by
  unfold RefineryPool.addJob RefineryPool.getNextQueue
  simp only [hsize]
  rw [if_neg hge, hsort]
  show (⟨some N, (h0 :: t).set 0 (h0.addJob j),
    if p.maxTime < (h0.addJob j).totalTime then (h0.addJob j).totalTime else p.maxTime,
    if p.maxLen < (h0.addJob j).jobs.length then (h0.addJob j).jobs.length
      else p.maxLen⟩ : RefineryPool) = _
  rw [List.set_cons_zero]
  have hlenq : (h0.addJob j).jobs.length = h0.jobs.length + 1 := by
    show (h0.jobs ++ [j]).length = _
    simp
  rw [hlenq]
  rfl

/-- Invariant of a size-`N` pool fed `m` equal-duration-`d` jobs: queue
totals track queue lengths; before capacity each queue holds one job;
at capacity the queue lengths are `m / N + 1` (for `m % N` queues) and
`m / N` (for the rest), and `max_time` is the largest total. -/
def PoolInv (N : Nat) (d : Rat) (m : Nat) (p : RefineryPool) : Prop :=
  p.poolSize = some N ∧
  (∀ qq ∈ p.queues, qq.totalTime = (qq.jobs.length : Rat) * d) ∧
  ((m < N ∧ p.queues.map (fun qq => qq.jobs.length) = List.replicate m 1 ∧
      p.maxTime = (if m = 0 then 0 else d)) ∨
   (∃ q r, m = q * N + r ∧ r < N ∧ N ≤ m ∧
      (↑(p.queues.map (fun qq => qq.jobs.length)) : Multiset Nat) =
        Multiset.replicate r (q + 1) + Multiset.replicate (N - r) q ∧
      p.maxTime = ((if r = 0 then q else q + 1 : Nat) : Rat) * d))

theorem poolInv_base (N : Nat) (hN : 1 ≤ N) (d : Rat) :
    PoolInv N d 0 (RefineryPool.mkEmpty (some N)) := by
  refine ⟨rfl, ?_, Or.inl ⟨hN, rfl, rfl⟩⟩
  intro qq hqq
  cases hqq

theorem poolInv_step (N : Nat) (hN : 1 ≤ N) (d : Rat) (hd : 0 < d)
    (j : RefineryJob) (hj : j.time = d) (m : Nat) (p : RefineryPool)
    (hp : PoolInv N d m p) : PoolInv N d (m + 1) (p.addJob j) := by
  obtain ⟨hsize, htot, hphase⟩ := hp
  rcases hphase with ⟨hm, hcounts, hmax⟩ | ⟨q, r, hqr, hrN, hNm, hcounts, hmax⟩
  · -- below capacity: a fresh singleton queue is appended
    have hlen : p.queues.length = m := by
      have := congrArg List.length hcounts
      simpa using this
    rw [addJob_under p j N hsize (by rw [hlen]; exact hm)]
    have hnewtot : (0 : Rat) + j.time = d := by rw [hj, zero_add]
    refine ⟨rfl, ?_, ?_⟩
    · intro qq hqq
      rcases List.mem_append.mp hqq with h1 | h2
      · exact htot qq h1
      · simp only [List.mem_singleton] at h2
        subst h2
        show (0 : Rat) + j.time = _
        rw [hnewtot]
        simp
    · by_cases hm1 : m + 1 < N
      · refine Or.inl ⟨hm1, ?_, ?_⟩
        · rw [List.map_append, hcounts]
          rw [show List.map (fun qq => qq.jobs.length)
              [(⟨[j], 0 + j.time⟩ : RefineryJobQueue)] = [1] from rfl]
          rw [List.replicate_succ']
        · show (if p.maxTime < 0 + j.time then 0 + j.time else p.maxTime) = _
          rw [hnewtot, hmax, if_neg (show ¬ m + 1 = 0 by omega)]
          by_cases hm0 : m = 0
          · rw [if_pos hm0, if_pos hd]
          · rw [if_neg hm0, if_neg (lt_irrefl d)]
      · -- the pool has just reached capacity: m + 1 = N
        have hmN : m + 1 = N := by omega
        refine Or.inr ⟨1, 0, by omega, by omega, by omega, ?_, ?_⟩
        · rw [List.map_append, hcounts]
          rw [show List.map (fun qq => qq.jobs.length)
              [(⟨[j], 0 + j.time⟩ : RefineryJobQueue)] = [1] from rfl]
          have hrep : List.replicate m 1 ++ [1] = List.replicate (m + 1) 1 := by
            rw [List.replicate_succ']
          rw [hrep, hmN]
          simp [Multiset.coe_replicate]
        · show (if p.maxTime < 0 + j.time then 0 + j.time else p.maxTime) = _
          rw [hnewtot, hmax, if_pos (show (0 : Nat) = 0 from rfl)]
          by_cases hm0 : m = 0
          · rw [if_pos hm0, if_pos hd]
            simp
          · rw [if_neg hm0, if_neg (lt_irrefl d)]
            simp
  · -- at capacity: stable sort, head queue receives the job
    have hcard : p.queues.length = N := by
      have h1 := congrArg Multiset.card hcounts
      simp only [Multiset.coe_card, List.length_map, Multiset.card_add,
        Multiset.card_replicate] at h1
      omega
    have hge : ¬ p.queues.length < N := by omega
    obtain ⟨h0, t, hsort⟩ : ∃ h0 t,
        p.queues.insertionSort (fun a b => a.totalTime ≤ b.totalTime) = h0 :: t := by
      cases hs : p.queues.insertionSort (fun a b => a.totalTime ≤ b.totalTime) with
      | nil =>
          have := congrArg List.length hs
          rw [List.length_insertionSort, List.length_nil] at this
          omega
      | cons x xs => exact ⟨x, xs, rfl⟩
    have hperm : (h0 :: t).Perm p.queues := by
      rw [← hsort]
      exact List.perm_insertionSort _ _
    have hmem0 : h0 ∈ p.queues := hperm.mem_iff.mp (by simp)
    have hsorted : List.Sorted (fun a b : RefineryJobQueue => a.totalTime ≤ b.totalTime)
        (h0 :: t) := by
      rw [← hsort]
      exact List.sorted_insertionSort _ _
    have hmin : ∀ x ∈ h0 :: t, h0.totalTime ≤ x.totalTime := by
      intro x hx
      rcases List.mem_cons.mp hx with rfl | hx2
      · exact le_refl _
      · exact (List.sorted_cons.mp hsorted).1 x hx2
    -- the head queue has the minimum length m / N
    have hmemlen : h0.jobs.length ∈ (Multiset.replicate r (q + 1) + Multiset.replicate (N - r) q) := by
      rw [← hcounts]
      exact Multiset.mem_coe.mpr (List.mem_map.mpr ⟨h0, hmem0, rfl⟩)
    have hlen0 : h0.jobs.length = q ∨ h0.jobs.length = q + 1 := by
      rcases Multiset.mem_add.mp hmemlen with h | h
      · exact Or.inr (Multiset.eq_of_mem_replicate h)
      · exact Or.inl (Multiset.eq_of_mem_replicate h)
    have hqmem : (q : Nat) ∈ (Multiset.replicate r (q + 1) + Multiset.replicate (N - r) q) := by
      apply Multiset.mem_add.mpr
      right
      apply Multiset.mem_replicate.mpr
      exact ⟨by omega, rfl⟩
    obtain ⟨qq, hqqmem, hqqlen⟩ : ∃ qq ∈ p.queues, qq.jobs.length = q := by
      rw [← hcounts] at hqmem
      rcases List.mem_map.mp (Multiset.mem_coe.mp hqmem) with ⟨qq, hqq, he⟩
      exact ⟨qq, hqq, he⟩
    have hq0 : h0.jobs.length = q := by
      rcases hlen0 with h | h
      · exact h
      · exfalso
        have h1 : h0.totalTime ≤ qq.totalTime := hmin qq (hperm.mem_iff.mpr hqqmem)
        rw [htot h0 hmem0, htot qq hqqmem, h, hqqlen] at h1
        have : ((q + 1 : Nat) : Rat) ≤ (q : Nat) := le_of_mul_le_mul_right h1 hd
        push_cast at this
        linarith
    rw [addJob_at_capacity p j N hsize hge h0 t hsort]
    have htot0 : h0.totalTime = (q : Rat) * d := by
      rw [htot h0 hmem0, hq0]
    have hnewtot : h0.totalTime + j.time = ((q + 1 : Nat) : Rat) * d := by
      rw [htot0, hj]
      push_cast
      ring
    -- the tail multiset: everything except one length-q queue
    have htmul : (↑(t.map (fun qq => qq.jobs.length)) : Multiset Nat) =
        Multiset.replicate r (q + 1) + Multiset.replicate (N - r - 1) q := by
      have hall : (↑(p.queues.map (fun qq => qq.jobs.length)) : Multiset Nat) =
          h0.jobs.length ::ₘ ↑(t.map (fun qq => qq.jobs.length)) := by
        have := (hperm.map (fun qq => qq.jobs.length)).symm
        rw [← Multiset.coe_eq_coe] at this
        simpa using this
      rw [hcounts, hq0] at hall
      have hNr : N - r = (N - r - 1) + 1 := by omega
      rw [hNr, Multiset.replicate_succ] at hall
      have hall2 : Multiset.replicate r (q + 1) + (q ::ₘ Multiset.replicate (N - r - 1) q) =
          q ::ₘ (Multiset.replicate r (q + 1) + Multiset.replicate (N - r - 1) q) := by
        rw [Multiset.add_cons]
      rw [hall2] at hall
      exact ((Multiset.cons_inj_right q).mp hall).symm
    refine ⟨rfl, ?_, ?_⟩
    · intro x hx
      rcases List.mem_cons.mp hx with rfl | hx2
      · show h0.totalTime + j.time = ((h0.addJob j).jobs.length : Rat) * d
        rw [hnewtot]
        have hlq2 : (h0.addJob j).jobs.length = q + 1 := by
          show (h0.jobs ++ [j]).length = _
          rw [List.length_append, hq0]
          rfl
        rw [hlq2]
      · exact htot x (hperm.mem_iff.mp (List.mem_cons_of_mem _ hx2))
    · refine Or.inr ?_
      by_cases hr1 : r + 1 < N
      · refine ⟨q, r + 1, by omega, by omega, by omega, ?_, ?_⟩
        · show ((h0.addJob j).jobs.length ::ₘ ↑(t.map (fun qq => qq.jobs.length))) = _
          have hlq : (h0.addJob j).jobs.length = q + 1 := by
            show (h0.jobs ++ [j]).length = _
            rw [List.length_append, hq0]
            rfl
          rw [hlq, htmul]
          rw [show Multiset.replicate (r + 1) (q + 1) =
            (q + 1) ::ₘ Multiset.replicate r (q + 1) from Multiset.replicate_succ _ _]
          rw [Multiset.cons_add]
          rw [show N - r - 1 = N - (r + 1) from by omega]
        · show (if p.maxTime < h0.totalTime + j.time then h0.totalTime + j.time
              else p.maxTime) = _
          rw [hnewtot, hmax, if_neg (show ¬ r + 1 = 0 by omega)]
          by_cases hr0 : r = 0
          · rw [if_pos hr0]
            have hlt : ((q : Nat) : Rat) * d < ((q + 1 : Nat) : Rat) * d := by
              apply mul_lt_mul_of_pos_right _ hd
              push_cast
              linarith
            rw [if_pos hlt]
          · rw [if_neg hr0, if_neg (lt_irrefl _)]
      · -- the round completes: m + 1 = (q + 1) * N
        have hrN2 : r + 1 = N := by omega
        have hmul : (q + 1) * N = q * N + N := by ring
        refine ⟨q + 1, 0, by omega, by omega, by omega, ?_, ?_⟩
        · show ((h0.addJob j).jobs.length ::ₘ ↑(t.map (fun qq => qq.jobs.length))) = _
          have hlq : (h0.addJob j).jobs.length = q + 1 := by
            show (h0.jobs ++ [j]).length = _
            rw [List.length_append, hq0]
            rfl
          rw [hlq, htmul]
          rw [show N - r - 1 = 0 from by omega]
          rw [show Multiset.replicate 0 (q : Nat) = 0 from rfl]
          rw [show Multiset.replicate (0 : Nat) (q + 1 + 1) = 0 from rfl]
          rw [show N - 0 = N from by omega]
          rw [add_zero, zero_add]
          rw [show (N : Nat) = r + 1 from hrN2.symm]
          rw [show Multiset.replicate (r + 1) (q + 1) =
            (q + 1) ::ₘ Multiset.replicate r (q + 1) from Multiset.replicate_succ _ _]
        · show (if p.maxTime < h0.totalTime + j.time then h0.totalTime + j.time
              else p.maxTime) = _
          rw [hnewtot, hmax, if_pos (show (0 : Nat) = 0 from rfl)]
          by_cases hr0 : r = 0
          · rw [if_pos hr0]
            have hlt : ((q : Nat) : Rat) * d < ((q + 1 : Nat) : Rat) * d := by
              apply mul_lt_mul_of_pos_right _ hd
              push_cast
              linarith
            rw [if_pos hlt]
          · rw [if_neg hr0, if_neg (lt_irrefl _)]

theorem ceilDiv_eq (N q r : Nat) (hN : 1 ≤ N) (hr : r < N) (hge : N ≤ q * N + r) :
    (q * N + r + N - 1) / N = (if r = 0 then q else q + 1) := by
  by_cases hr0 : r = 0
  · subst hr0
    rw [if_pos rfl]
    have hq : q ≠ 0 := by
      rintro rfl
      simp at hge
      omega
    have h1 : q * N + 0 + N - 1 = N * q + (N - 1) := by
      have h2 := Nat.mul_comm q N
      omega
    rw [h1, Nat.mul_add_div (by omega : 0 < N)]
    rw [Nat.div_eq_of_lt (by omega : N - 1 < N), add_zero]
  · rw [if_neg hr0]
    have h1 : q * N + r + N - 1 = N * (q + 1) + (r - 1) := by
      have h2 := Nat.mul_comm q N
      have h3 : N * (q + 1) = N * q + N := by ring
      omega
    rw [h1, Nat.mul_add_div (by omega : 0 < N)]
    rw [Nat.div_eq_of_lt (by omega : r - 1 < N), add_zero]

/-- The single job shape used to probe the pool: no formula, duration `d`,
batch 1. -/
def equalJob (d : Rat) : RefineryJob := ⟨none, d, 1⟩

theorem poolFed_inv (N : Nat) (hN : 1 ≤ N) (d : Rat) (hd : 0 < d) (M : Nat) :
    PoolInv N d M ((List.range M).foldl (fun p _ => p.addJob (equalJob d))
      (RefineryPool.mkEmpty (some N))) := by
  induction M with
  | zero => exact poolInv_base N hN d
  | succ M ih =>
      rw [List.range_succ, List.foldl_append]
      exact poolInv_step N hN d hd _ rfl M _ ih

/-- Degenerate invariant when every job has duration zero. -/
def ZeroPoolInv (N : Nat) (p : RefineryPool) : Prop :=
  p.poolSize = some N ∧ (∀ qq ∈ p.queues, qq.totalTime = 0) ∧ p.maxTime = 0

theorem zeroPoolInv_step (N : Nat) (hN : 1 ≤ N) (j : RefineryJob) (hj : j.time = 0)
    (p : RefineryPool) (hp : ZeroPoolInv N p) : ZeroPoolInv N (p.addJob j) := by
  obtain ⟨hsize, htot, hmax⟩ := hp
  by_cases hlt : p.queues.length < N
  · rw [addJob_under p j N hsize hlt]
    refine ⟨rfl, ?_, ?_⟩
    · intro qq hqq
      rcases List.mem_append.mp hqq with h1 | h2
      · exact htot qq h1
      · simp only [List.mem_singleton] at h2
        subst h2
        show (0 : Rat) + j.time = 0
        rw [hj, add_zero]
    · show (if p.maxTime < 0 + j.time then 0 + j.time else p.maxTime) = 0
      rw [hj, hmax]
      simp
  · obtain ⟨h0, t, hsort⟩ : ∃ h0 t,
        p.queues.insertionSort (fun a b => a.totalTime ≤ b.totalTime) = h0 :: t := by
      cases hs : p.queues.insertionSort (fun a b => a.totalTime ≤ b.totalTime) with
      | nil =>
          have := congrArg List.length hs
          rw [List.length_insertionSort, List.length_nil] at this
          omega
      | cons x xs => exact ⟨x, xs, rfl⟩
    have hperm : (h0 :: t).Perm p.queues := by
      rw [← hsort]
      exact List.perm_insertionSort _ _
    have h0tot : h0.totalTime = 0 := htot h0 (hperm.mem_iff.mp (by simp))
    rw [addJob_at_capacity p j N hsize hlt h0 t hsort]
    refine ⟨rfl, ?_, ?_⟩
    · intro x hx
      rcases List.mem_cons.mp hx with rfl | hx2
      · show h0.totalTime + j.time = 0
        rw [h0tot, hj, add_zero]
      · exact htot x (hperm.mem_iff.mp (List.mem_cons_of_mem _ hx2))
    · show (if p.maxTime < h0.totalTime + j.time then h0.totalTime + j.time
          else p.maxTime) = 0
      rw [h0tot, hj, hmax, add_zero]
      simp

theorem poolFed_zero (N : Nat) (hN : 1 ≤ N) (M : Nat) :
    ZeroPoolInv N ((List.range M).foldl (fun p _ => p.addJob (equalJob 0))
      (RefineryPool.mkEmpty (some N))) := by
  induction M with
  | zero =>
      refine ⟨rfl, ?_, rfl⟩
      intro qq h
      cases h
  | succ M ih =>
      rw [List.range_succ, List.foldl_append]
      exact zeroPoolInv_step N hN _ rfl _ ih

/-- C7: a `RefineryPool` of finite size `N ≥ 1` that receives `M` jobs of
equal duration `d ≥ 0` through `add_job` ends with
`max_time = ceil(M / N) * d`; in particular a pool of size 2 given 5 jobs
of 10 seconds ends with queue lengths `[3, 2]` and `max_time = 30`. -/
theorem pool_equal_jobs_makespan (N M : Nat) (hN : 1 ≤ N) (d : Rat) (hd : 0 ≤ d) :
    ((List.range M).foldl (fun p _ => p.addJob (equalJob d))
        (RefineryPool.mkEmpty (some N))).maxTime = (((M + N - 1) / N : Nat) : Rat) * d ∧
    ((List.range 5).foldl (fun p _ => p.addJob (equalJob 10))
        (RefineryPool.mkEmpty (some 2))).queues.map (fun qq => qq.jobs.length) = [3, 2] ∧
    ((List.range 5).foldl (fun p _ => p.addJob (equalJob 10))
        (RefineryPool.mkEmpty (some 2))).maxTime = 30 := by
  refine ⟨?_, by with_unfolding_all rfl, by with_unfolding_all rfl⟩
  rcases lt_or_eq_of_le hd with hpos | hzero
  · obtain ⟨hsize, htot, hphase⟩ := poolFed_inv N hN d hpos M
    rcases hphase with ⟨hm, hcounts, hmax⟩ | ⟨q, r, hqr, hrN, hNm, hcounts, hmax⟩
    · rw [hmax]
      by_cases hm0 : M = 0
      · subst hm0
        rw [if_pos rfl]
        rw [show (0 + N - 1) / N = 0 from Nat.div_eq_of_lt (by omega)]
        simp
      · rw [if_neg hm0]
        rw [show M + N - 1 = (M - 1) + N from by omega]
        rw [Nat.add_div_right _ (by omega : 0 < N)]
        rw [Nat.div_eq_of_lt (by omega : M - 1 < N)]
        simp
    · rw [hmax, hqr]
      rw [ceilDiv_eq N q r hN hrN (hqr ▸ hNm)]
  · subst hzero
    rw [(poolFed_zero N hN M).2.2, mul_zero]

/-! ### Chain time estimation (for C3) -/

/-- Spec-literal reading of C3: each stage is estimated against its own
fresh pool set and the per-stage makespans are summed. -/
def chainEstimateSpec (c : ProductionChain) (items : Nat → Item)
    (craftTime : Rat) (limit : RefineryLimit) : Rat :=
  (c.stages.map
    (fun s => (s.estimateTime items craftTime (ProductionLine.make limit)).2)).sum

/-- The shared pool set after the given stages have enqueued their
jobs, in order, starting from a fresh pool set. -/
def cumulativePools (ss : List ProductionStage) (items : Nat → Item)
    (craftTime : Rat) (limit : RefineryLimit) : ProductionLine :=
  ss.foldl (fun pl s => (s.estimateTime items craftTime pl).1)
    (ProductionLine.make limit)

/-- A constant catalog for the estimation scenarios. -/
def plainItem : Nat → Item := fun n => ⟨n, 0, Rarity.Common, Class.Product⟩

/-- The default Medium-3 / Big-2 refinery limit. -/
def defaultLimit : RefineryLimit := ⟨some 3, some 2⟩

/-- A craft formula producing `qty` of item `name` out of nothing. -/
def craftFormula (name : Nat) (qty : Int) : Formula :=
  ⟨⟨name, qty⟩, [], FormulaType.CRAFT, none⟩

theorem chainFold_eq (items : Nat → Item) (craftTime : Rat) (limit : RefineryLimit)
    (ss : List ProductionStage) :
    ss.foldl
      (fun (acc : ProductionLine × Rat) stage =>
        let r := stage.estimateTime items craftTime acc.1
        (r.1, acc.2 + r.2))
      (ProductionLine.make limit, 0) =
    (cumulativePools ss items craftTime limit,
     ((List.range ss.length).map (fun k =>
       (cumulativePools (ss.take (k + 1)) items craftTime limit).maxTime)).sum) := by
  induction ss using List.reverseRecOn with
  | nil => rfl
  | append_singleton ss s ih =>
      rw [List.foldl_append, ih]
      have hcp : cumulativePools (ss ++ [s]) items craftTime limit =
          (s.estimateTime items craftTime
            (cumulativePools ss items craftTime limit)).1 := by
        show (ss ++ [s]).foldl _ _ = _
        rw [List.foldl_append]
        rfl
      have hlen : (ss ++ [s]).length = ss.length + 1 := by simp
      rw [hlen, List.range_succ, List.map_append, List.sum_append]
      have hmap : List.map (fun k =>
            (cumulativePools ((ss ++ [s]).take (k + 1)) items craftTime limit).maxTime)
            (List.range ss.length) =
          List.map (fun k =>
            (cumulativePools (ss.take (k + 1)) items craftTime limit).maxTime)
            (List.range ss.length) := by
        apply List.map_congr_left
        intro k hk
        rw [List.mem_range] at hk
        rw [List.take_append_of_le_length (by omega)]
      rw [hmap]
      simp only [List.map_cons, List.map_nil, List.sum_cons, List.sum_nil, add_zero]
      have htake : (ss ++ [s]).take (ss.length + 1) = ss ++ [s] :=
        List.take_of_length_le (by simp)
      rw [htake, hcp]
      rfl

/-- C3 (amended): `ProductionChain.estimate_time` creates ONE pool set and
threads it through every stage, so the figure it adds for each stage is
the shared pool set's cumulative makespan over all jobs enqueued so far:
the total is the sum over stage prefixes of the cumulative makespan, not
the sum of per-stage makespans. -/
theorem chain_estimate_cumulative (items : Nat → Item) (craftTime : Rat)
    (limit : RefineryLimit) (c : ProductionChain) :
    c.estimateTime items craftTime limit =
      ((List.range c.stages.length).map (fun k =>
        (cumulativePools (c.stages.take (k + 1)) items craftTime limit).maxTime)).sum := by
  unfold ProductionChain.estimateTime
  rw [chainFold_eq]

/-- Counterexample to C3 as stated: a chain of two single-craft-formula
stages (result quantities 1 and 2, craft time 1).  The shared pool
serialises the two craft jobs, so the code returns 1 + (1 + 2) = 4, while
the claimed sum of per-stage makespans is 1 + 2 = 3. -/
theorem chain_estimate_counterexample :
    ProductionChain.estimateTime ⟨[⟨[craftFormula 1 1]⟩, ⟨[craftFormula 2 2]⟩]⟩
        plainItem 1 defaultLimit = 4 ∧
    chainEstimateSpec ⟨[⟨[craftFormula 1 1]⟩, ⟨[craftFormula 2 2]⟩]⟩
        plainItem 1 defaultLimit = 3 := by
  constructor
  · with_unfolding_all rfl
  · with_unfolding_all rfl

/-- Witness for C7: the size-2 pool fed 5 ten-second jobs. -/
theorem pool_equal_jobs_makespan_witness :
    1 ≤ 2 ∧ (0 : Rat) ≤ 10 ∧
    ((List.range 5).foldl (fun p _ => p.addJob (equalJob 10))
        (RefineryPool.mkEmpty (some 2))).maxTime = (((5 + 2 - 1) / 2 : Nat) : Rat) * 10 :=
  ⟨by decide, by decide, (pool_equal_jobs_makespan 2 5 (by decide) 10 (by decide)).1⟩

/-! ### Walker invariants (for C2 and C10) -/

variable {α : Type} [DecidableEq α]

/-- The node a frontier entry is about. -/
def entryNode : Entry α → α
  | Entry.visit a _ => a
  | Entry.finish a _ => a

/-- Recognizer for visit entries of `a`. -/
def isVisitOf (a : α) : Entry α → Bool
  | Entry.visit b _ => b = a
  | _ => false

/-- Recognizer for finish markers of `a`. -/
def isMarkerOf (a : α) : Entry α → Bool
  | Entry.finish b _ => b = a
  | _ => false

/-- Number of visit entries for `a` on the frontier. -/
def countVisit (a : α) (q : List (Entry α)) : Nat := q.countP (isVisitOf a)

/-- Number of finish markers for `a` on the frontier. -/
def countMarker (a : α) (q : List (Entry α)) : Nat := q.countP (isMarkerOf a)

/-- Fuel a node still costs the walk: an unseen node will be pushed once
and examined once; a White node will be examined once; Gray and Black
nodes cost nothing beyond the entries already on the frontier. -/
def colorFuel : Option Color → Nat
  | none => 2
  | some Color.white => 1
  | some Color.gray => 0
  | some Color.black => 0

/-- Termination measure of the walk: frontier length plus the pending
color fuel of the nodes of `U`. -/
def walkMeasure (U : Finset α) (σ : WalkState α) : Nat :=
  σ.queue.length + U.sum (fun a => colorFuel (σ.colors a))

/-- The lifecycle tag of an event for node `a`: 0 = discovered,
1 = examined, 2 = finished; edge callbacks carry no tag. -/
def lifeTag (a : α) : Event α → Option Nat
  | Event.discoverNode b _ _ => if b = a then some 0 else none
  | Event.examineNode b _ => if b = a then some 1 else none
  | Event.finishNode b _ => if b = a then some 2 else none
  | _ => none

/-- The lifecycle trace of node `a`: the tags of its discover, examine
and finish events, in trace order. -/
def lifeTags (a : α) (tr : List (Event α)) : List Nat := tr.filterMap (lifeTag a)

/-- Recognizer for `finish_node` events of `a`. -/
def isFinishOf (a : α) : Event α → Bool
  | Event.finishNode b _ => b = a
  | _ => false

/-- Recognizer for `examine_node` events of `a`. -/
def isExamineOf (a : α) : Event α → Bool
  | Event.examineNode b _ => b = a
  | _ => false

/-- Recognizer for `discover_node` events of `a`. -/
def isDiscoverOf (a : α) : Event α → Bool
  | Event.discoverNode b _ _ => b = a
  | _ => false

/-- The walk invariant over node set `U`: every frontier entry concerns a
node of `U`; a node has exactly one visit entry on the frontier while it
is White and none otherwise; a node has exactly one finish marker on the
frontier while it is Gray and none otherwise. -/
def WalkInv (U : Finset α) (σ : WalkState α) : Prop :=
  (∀ e ∈ σ.queue, entryNode e ∈ U) ∧
  (∀ a, countVisit a σ.queue = (if σ.colors a = some Color.white then 1 else 0)) ∧
  (∀ a, countMarker a σ.queue = (if σ.colors a = some Color.gray then 1 else 0))

theorem lifeTags_append (a : α) (t1 t2 : List (Event α)) :
    lifeTags a (t1 ++ t2) = lifeTags a t1 ++ lifeTags a t2 := by
  simp [lifeTags]

theorem popEntry_eq_none (order : WalkOrder) (q : List (Entry α)) :
    popEntry order q = none ↔ q = [] := by
  cases order with
  | DFS =>
      unfold popEntry
      cases h : q.getLast? with
      | none => simpa using List.getLast?_eq_none_iff.mp h
      | some e =>
          simp only []
          constructor
          · intro hc
            cases hc
          · intro hq
            subst hq
            cases h
  | BFS =>
      unfold popEntry
      cases q <;> simp

/-- A successful pop takes one end of the frontier: the popped entry plus
the remainder is the frontier, at one end or the other. -/
theorem popEntry_shape (order : WalkOrder) (q : List (Entry α))
    (e : Entry α) (q1 : List (Entry α)) (h : popEntry order q = some (e, q1)) :
    q = q1 ++ [e] ∨ q = e :: q1 := by
  cases order with
  | DFS =>
      left
      unfold popEntry at h
      cases hg : q.getLast? with
      | none => rw [hg] at h; cases h
      | some x =>
          rw [hg] at h
          simp only [Option.some.injEq, Prod.mk.injEq] at h
          obtain ⟨he, hq⟩ := h
          subst he
          subst hq
          exact (List.dropLast_append_getLast? x hg).symm
  | BFS =>
      right
      unfold popEntry at h
      cases q with
      | nil => cases h
      | cons x rest =>
          simp only [Option.some.injEq, Prod.mk.injEq] at h
          obtain ⟨he, hq⟩ := h
          subst he
          subst hq
          rfl

/-- Effect of one `addItem` call on a fixed node `a`: either `a` is left
alone (colors, lifecycle events and entry counts unchanged) or `a` itself
is discovered (it was unseen, turns White, emits one discover event and
gains one visit entry). -/
theorem addItem_node (σ : WalkState α) (src : Option α) (d : Nat) (b a : α) :
    ((addItem σ src d b).1.colors a = σ.colors a ∧
     lifeTags a (addItem σ src d b).2 = [] ∧
     countVisit a (addItem σ src d b).1.queue = countVisit a σ.queue ∧
     countMarker a (addItem σ src d b).1.queue = countMarker a σ.queue) ∨
    (σ.colors a = none ∧ b = a ∧
     (addItem σ src d b).1.colors a = some Color.white ∧
     lifeTags a (addItem σ src d b).2 = [0] ∧
     countVisit a (addItem σ src d b).1.queue = countVisit a σ.queue + 1 ∧
     countMarker a (addItem σ src d b).1.queue = countMarker a σ.queue) := by
  unfold addItem
  cases hb : σ.colors b with
  | none =>
      by_cases hab : b = a
      · subst hab
        refine Or.inr ⟨hb, rfl, ?_, ?_, ?_, ?_⟩
        · simp [Function.update]
        · simp [lifeTags, lifeTag]
        · simp [countVisit, List.countP_append, isVisitOf, List.countP_cons]
        · simp [countMarker, List.countP_append, isMarkerOf, List.countP_cons]
      · refine Or.inl ⟨?_, ?_, ?_, ?_⟩
        · exact Function.update_noteq (Ne.symm hab) _ _
        · simp [lifeTags, lifeTag, hab]
        · simp [countVisit, List.countP_append, isVisitOf, List.countP_cons, hab]
        · simp [countMarker, List.countP_append, isMarkerOf, List.countP_cons]
  | some c =>
      cases c <;>
        exact Or.inl ⟨rfl, by simp [lifeTags, lifeTag], rfl, rfl⟩

/-- Effect of a whole adjacency scan on a fixed node `a`: either `a` is
left alone, or it is discovered during the scan. -/
theorem addItems_node (src : Option α) (d : Nat) (σ : WalkState α)
    (l : List α) (a : α) :
    ((addItems src d σ l).1.colors a = σ.colors a ∧
     lifeTags a (addItems src d σ l).2 = [] ∧
     countVisit a (addItems src d σ l).1.queue = countVisit a σ.queue ∧
     countMarker a (addItems src d σ l).1.queue = countMarker a σ.queue) ∨
    (σ.colors a = none ∧ (addItems src d σ l).1.colors a = some Color.white ∧
     lifeTags a (addItems src d σ l).2 = [0] ∧
     countVisit a (addItems src d σ l).1.queue = countVisit a σ.queue + 1 ∧
     countMarker a (addItems src d σ l).1.queue = countMarker a σ.queue) := by
  induction l generalizing σ with
  | nil => exact Or.inl ⟨rfl, rfl, rfl, rfl⟩
  | cons b rest ih =>
      simp only [addItems, lifeTags_append]
      rcases addItem_node σ src d b a with ⟨h1, h2, h3, h4⟩ | ⟨h0, hba, h1, h2, h3, h4⟩
      · rcases ih (addItem σ src d b).1 with ⟨g1, g2, g3, g4⟩ | ⟨g0, g1, g2, g3, g4⟩
        · exact Or.inl ⟨h1 ▸ g1, by rw [h2, g2]; rfl, h3 ▸ g3, h4 ▸ g4⟩
        · exact Or.inr ⟨h1 ▸ g0, g1, by rw [h2, g2]; rfl, h3 ▸ g3, h4 ▸ g4⟩
      · rcases ih (addItem σ src d b).1 with ⟨g1, g2, g3, g4⟩ | ⟨g0, g1, g2, g3, g4⟩
        · exact Or.inr ⟨h0, h1 ▸ g1, by rw [h2, g2]; rfl, h3 ▸ g3, h4 ▸ g4⟩
        · rw [h1] at g0
          cases g0

/-- An adjacency scan only ever appends visit entries for scanned nodes. -/
theorem addItems_queue_mem (src : Option α) (d : Nat) (σ : WalkState α)
    (l : List α) : ∀ e ∈ (addItems src d σ l).1.queue,
      e ∈ σ.queue ∨ entryNode e ∈ l := by
  induction l generalizing σ with
  | nil => exact fun e he => Or.inl he
  | cons b rest ih =>
      intro e he
      simp only [addItems] at he
      rcases ih (addItem σ src d b).1 e he with h | h
      · unfold addItem at h
        cases hb : σ.colors b with
        | none =>
            rw [hb] at h
            rcases List.mem_append.mp h with h1 | h2
            · exact Or.inl h1
            · simp only [List.mem_singleton] at h2
              subst h2
              exact Or.inr (by simp [entryNode])
        | some c =>
            rw [hb] at h
            cases c <;> exact Or.inl h
      · exact Or.inr (List.mem_cons_of_mem _ h)

/-- Scan events are never finish or examine events. -/
theorem addItems_no_finish (src : Option α) (d : Nat) (σ : WalkState α)
    (l : List α) : ∀ ev ∈ (addItems src d σ l).2, ∀ x : α,
      isFinishOf x ev = false ∧ isExamineOf x ev = false := by
  induction l generalizing σ with
  | nil => intro ev hev; cases hev
  | cons b rest ih =>
      intro ev hev x
      simp only [addItems] at hev
      rcases List.mem_append.mp hev with h | h
      · unfold addItem at h
        cases hb : σ.colors b with
        | none =>
            rw [hb] at h
            simp only [List.mem_singleton] at h
            subst h
            exact ⟨rfl, rfl⟩
        | some c =>
            rw [hb] at h
            cases c <;>
              (simp only [List.mem_singleton] at h; subst h; exact ⟨rfl, rfl⟩)
      · exact ih (addItem σ src d b).1 ev h x

/-- Every discover event of a scan carries the scan's source. -/
theorem addItems_discover_src (src : Option α) (d : Nat) (σ : WalkState α)
    (l : List α) : ∀ b db s, Event.discoverNode b db s ∈ (addItems src d σ l).2 →
      s = src := by
  induction l generalizing σ with
  | nil => intro b db s h; cases h
  | cons c rest ih =>
      intro b db s h
      simp only [addItems] at h
      rcases List.mem_append.mp h with h1 | h1
      · unfold addItem at h1
        cases hc : σ.colors c with
        | none =>
            rw [hc] at h1
            simp only [List.mem_singleton, Event.discoverNode.injEq] at h1
            exact h1.2.2
        | some col =>
            rw [hc] at h1
            cases col <;> simp at h1
      · exact ih (addItem σ src d c).1 b db s h1

/-- One `addItem` call never increases the walk measure. -/
theorem addItem_measure (U : Finset α) (σ : WalkState α) (src : Option α)
    (d : Nat) (b : α) (hb : b ∈ U) :
    walkMeasure U (addItem σ src d b).1 ≤ walkMeasure U σ := by
  unfold addItem
  cases hc : σ.colors b with
  | some c => cases c <;> exact le_refl _
  | none =>
      show walkMeasure U ⟨σ.queue ++ [Entry.visit b d],
        Function.update σ.colors b (some Color.white)⟩ ≤ _
      unfold walkMeasure
      have hnew : U.sum (fun a => colorFuel (Function.update σ.colors b (some Color.white) a)) =
          1 + (U.erase b).sum (fun a => colorFuel (σ.colors a)) := by
        rw [← Finset.add_sum_erase U _ hb]
        congr 1
        · rw [Function.update_same]
          rfl
        · apply Finset.sum_congr rfl
          intro a ha
          rw [Function.update_noteq (Finset.ne_of_mem_erase ha) _ _]
      have hold : U.sum (fun a => colorFuel (σ.colors a)) =
          2 + (U.erase b).sum (fun a => colorFuel (σ.colors a)) := by
        rw [← Finset.add_sum_erase U _ hb, hc]
        rfl
      rw [hnew, hold]
      simp only [List.length_append, List.length_singleton]
      omega

/-- A whole scan never increases the walk measure. -/
theorem addItems_measure (U : Finset α) (src : Option α) (d : Nat)
    (σ : WalkState α) (l : List α) (hl : ∀ b ∈ l, b ∈ U) :
    walkMeasure U (addItems src d σ l).1 ≤ walkMeasure U σ := by
  induction l generalizing σ with
  | nil => exact le_refl _
  | cons b rest ih =>
      simp only [addItems]
      exact le_trans
        (ih (addItem σ src d b).1 (fun x hx => hl x (List.mem_cons_of_mem _ hx)))
        (addItem_measure U σ src d b (hl b (List.mem_cons_self _ _)))

/-- Effect of pushing a finish marker on colors and entry counts. -/
theorem pushFinish_node (σ : WalkState α) (s : α) (d : Nat) (a : α) :
    (pushFinish σ s d).colors = σ.colors ∧
    countVisit a (pushFinish σ s d).queue = countVisit a σ.queue ∧
    countMarker a (pushFinish σ s d).queue =
      countMarker a σ.queue + (if s = a then 1 else 0) := by
  refine ⟨rfl, ?_, ?_⟩
  · simp [pushFinish, countVisit, List.countP_append, isVisitOf, List.countP_cons]
  · simp only [pushFinish, countMarker, List.countP_append, List.countP_cons,
      List.countP_nil, isMarkerOf]
    by_cases h : s = a
    · simp [h]
    · simp [h]

/-- Effect of a full `_NodeContainer.add` call with source `b` on a fixed
node `a`: as for the scan, plus exactly one new finish marker for `b`. -/
theorem addCall_node (order : WalkOrder) (σ : WalkState α) (b : α) (d : Nat)
    (l : List α) (a : α) :
    (((addCall order σ (some b) d l).1.colors a = σ.colors a ∧
      lifeTags a (addCall order σ (some b) d l).2 = [] ∧
      countVisit a (addCall order σ (some b) d l).1.queue = countVisit a σ.queue ∧
      countMarker a (addCall order σ (some b) d l).1.queue =
        countMarker a σ.queue + (if b = a then 1 else 0)) ∨
     (σ.colors a = none ∧
      (addCall order σ (some b) d l).1.colors a = some Color.white ∧
      lifeTags a (addCall order σ (some b) d l).2 = [0] ∧
      countVisit a (addCall order σ (some b) d l).1.queue = countVisit a σ.queue + 1 ∧
      countMarker a (addCall order σ (some b) d l).1.queue =
        countMarker a σ.queue + (if b = a then 1 else 0))) := by
  cases order with
  | DFS =>
      have hAC : addCall WalkOrder.DFS σ (some b) d l =
          addItems (some b) d (pushFinish σ b (d - 1)) l := rfl
      rw [hAC]
      obtain ⟨hc, hv, hm⟩ := pushFinish_node σ b (d - 1) a
      rcases addItems_node (some b) d (pushFinish σ b (d - 1)) l a with
        ⟨g1, g2, g3, g4⟩ | ⟨g0, g1, g2, g3, g4⟩
      · exact Or.inl ⟨by rw [g1, hc], g2, by rw [g3, hv], by rw [g4, hm]⟩
      · refine Or.inr ⟨?_, g1, g2, by rw [g3, hv], by rw [g4, hm]⟩
        rw [← g0, hc]
  | BFS =>
      have hAC : addCall WalkOrder.BFS σ (some b) d l =
          (pushFinish (addItems (some b) d σ l).1 b (d - 1),
            (addItems (some b) d σ l).2) := rfl
      rw [hAC]
      obtain ⟨hc, hv, hm⟩ := pushFinish_node (addItems (some b) d σ l).1 b (d - 1) a
      rcases addItems_node (some b) d σ l a with
        ⟨g1, g2, g3, g4⟩ | ⟨g0, g1, g2, g3, g4⟩
      · exact Or.inl ⟨by rw [hc, g1], g2, by rw [hv, g3], by rw [hm, g4]⟩
      · exact Or.inr ⟨g0, by rw [hc, g1], g2, by rw [hv, g3], by rw [hm, g4]⟩

/-- Pushing a finish marker raises the measure by exactly one. -/
theorem pushFinish_measure (U : Finset α) (σ : WalkState α) (s : α) (d : Nat) :
    walkMeasure U (pushFinish σ s d) = walkMeasure U σ + 1 := by
  unfold walkMeasure pushFinish
  simp only [List.length_append, List.length_singleton]
  omega

/-- A full `_NodeContainer.add` call raises the measure by at most one
(the marker), provided the scanned nodes live in `U`. -/
theorem addCall_measure (order : WalkOrder) (U : Finset α) (σ : WalkState α)
    (b : α) (d : Nat) (l : List α) (hl : ∀ x ∈ l, x ∈ U) :
    walkMeasure U (addCall order σ (some b) d l).1 ≤ walkMeasure U σ + 1 := by
  cases order with
  | DFS =>
      show walkMeasure U (addItems (some b) d (pushFinish σ b (d - 1)) l).1 ≤ _
      calc walkMeasure U (addItems (some b) d (pushFinish σ b (d - 1)) l).1
          ≤ walkMeasure U (pushFinish σ b (d - 1)) :=
            addItems_measure U (some b) d _ l hl
        _ = walkMeasure U σ + 1 := pushFinish_measure U σ b (d - 1)
  | BFS =>
      show walkMeasure U (pushFinish (addItems (some b) d σ l).1 b (d - 1)) ≤ _
      rw [pushFinish_measure]
      have := addItems_measure U (some b) d σ l hl
      omega

/-- Frontier entries after a full `add` call: old entries, scanned nodes,
or the source's marker. -/
theorem addCall_queue_mem (order : WalkOrder) (σ : WalkState α) (b : α)
    (d : Nat) (l : List α) :
    ∀ e ∈ (addCall order σ (some b) d l).1.queue,
      e ∈ σ.queue ∨ entryNode e ∈ l ∨ entryNode e = b := by
  cases order with
  | DFS =>
      intro e he
      show e ∈ σ.queue ∨ _
      rcases addItems_queue_mem (some b) d (pushFinish σ b (d - 1)) l e he with h | h
      · rcases List.mem_append.mp h with h1 | h2
        · exact Or.inl h1
        · simp only [List.mem_singleton] at h2
          subst h2
          exact Or.inr (Or.inr rfl)
      · exact Or.inr (Or.inl h)
  | BFS =>
      intro e he
      show e ∈ σ.queue ∨ _
      rcases List.mem_append.mp he with h | h
      · rcases addItems_queue_mem (some b) d σ l e h with h1 | h1
        · exact Or.inl h1
        · exact Or.inr (Or.inl h1)
      · simp only [List.mem_singleton] at h
        subst h
        exact Or.inr (Or.inr rfl)

/-- `add` call events are never finish or examine events. -/
theorem addCall_no_finish (order : WalkOrder) (σ : WalkState α) (b : α)
    (d : Nat) (l : List α) :
    ∀ ev ∈ (addCall order σ (some b) d l).2, ∀ x : α,
      isFinishOf x ev = false ∧ isExamineOf x ev = false := by
  cases order with
  | DFS => exact addItems_no_finish (some b) d (pushFinish σ b (d - 1)) l
  | BFS => exact addItems_no_finish (some b) d σ l

/-- Every discover event of an `add` call carries the call's source. -/
theorem addCall_discover_src (order : WalkOrder) (σ : WalkState α) (b : α)
    (d : Nat) (l : List α) :
    ∀ c dc s, Event.discoverNode c dc s ∈ (addCall order σ (some b) d l).2 →
      s = some b := by
  cases order with
  | DFS => exact addItems_discover_src (some b) d (pushFinish σ b (d - 1)) l
  | BFS => exact addItems_discover_src (some b) d σ l

/-- Length, membership and count bookkeeping for a popped entry. -/
theorem pop_counts (q q1 : List (Entry α)) (e : Entry α)
    (h : q = q1 ++ [e] ∨ q = e :: q1) :
    q.length = q1.length + 1 ∧ e ∈ q ∧ (∀ x ∈ q1, x ∈ q) ∧
    (∀ a : α, countVisit a q = countVisit a q1 + (if isVisitOf a e then 1 else 0)) ∧
    (∀ a : α, countMarker a q = countMarker a q1 + (if isMarkerOf a e then 1 else 0)) := by
  rcases h with h | h <;> subst h
  · refine ⟨by simp, by simp, fun x hx => by simp [hx], fun a => ?_, fun a => ?_⟩
    · unfold countVisit
      rw [List.countP_append]
      simp [List.countP_cons]
    · unfold countMarker
      rw [List.countP_append]
      simp [List.countP_cons]
  · refine ⟨by simp, by simp, fun x hx => by simp [hx], fun a => ?_, fun a => ?_⟩
    · unfold countVisit
      rw [List.countP_cons]
    · unfold countMarker
      rw [List.countP_cons]

/-- Under the invariant, a finish marker on the frontier means its node is
Gray. -/
theorem marker_color (U : Finset α) (σ : WalkState α) (hinv : WalkInv U σ)
    (a : α) (d : Nat) (h : Entry.finish a d ∈ σ.queue) :
    σ.colors a = some Color.gray := by
  have h1 : 0 < countMarker a σ.queue :=
    List.countP_pos.mpr ⟨_, h, by simp [isMarkerOf]⟩
  rw [hinv.2.2 a] at h1
  by_cases hg : σ.colors a = some Color.gray
  · exact hg
  · rw [if_neg hg] at h1
    omega

/-- Under the invariant, a visit entry on the frontier means its node is
White. -/
theorem visit_color (U : Finset α) (σ : WalkState α) (hinv : WalkInv U σ)
    (a : α) (d : Nat) (h : Entry.visit a d ∈ σ.queue) :
    σ.colors a = some Color.white := by
  have h1 : 0 < countVisit a σ.queue :=
    List.countP_pos.mpr ⟨_, h, by simp [isVisitOf]⟩
  rw [hinv.2.1 a] at h1
  by_cases hg : σ.colors a = some Color.white
  · exact hg
  · rw [if_neg hg] at h1
    omega

theorem sum_update_fuel (U : Finset α) (colors : α → Option Color) (a0 : α)
    (ha0 : a0 ∈ U) (c : Color) :
    U.sum (fun a => colorFuel (Function.update colors a0 (some c) a)) =
      colorFuel (some c) + (U.erase a0).sum (fun a => colorFuel (colors a)) := by
  rw [← Finset.add_sum_erase U _ ha0]
  congr 1
  · rw [Function.update_same]
  · apply Finset.sum_congr rfl
    intro a ha
    rw [Function.update_noteq (Finset.ne_of_mem_erase ha) _ _]

theorem sum_fuel_split (U : Finset α) (colors : α → Option Color) (a0 : α)
    (ha0 : a0 ∈ U) :
    U.sum (fun a => colorFuel (colors a)) =
      colorFuel (colors a0) + (U.erase a0).sum (fun a => colorFuel (colors a)) :=
  (Finset.add_sum_erase U _ ha0).symm

/-- Processing one popped entry preserves the walk invariant and strictly
decreases the measure. -/
theorem step_preserves (order : WalkOrder) (adj : α → List α) (U : Finset α)
    (hadj : ∀ x, ∀ y ∈ adj x, y ∈ U) (σ : WalkState α) (e : Entry α)
    (q1 : List (Entry α)) (hpop : popEntry order σ.queue = some (e, q1))
    (hinv : WalkInv U σ) :
    WalkInv U (stepEntry order adj ⟨q1, σ.colors⟩ e).1 ∧
    walkMeasure U (stepEntry order adj ⟨q1, σ.colors⟩ e).1 < walkMeasure U σ := by
  obtain ⟨hQ, hV, hM⟩ := hinv
  obtain ⟨hlen, hmem, hsub, hcv, hcm⟩ :=
    pop_counts σ.queue q1 e (popEntry_shape order σ.queue e q1 hpop)
  cases e with
  | finish a0 d0 =>
      have hgray : σ.colors a0 = some Color.gray :=
        marker_color U σ ⟨hQ, hV, hM⟩ a0 d0 hmem
      have hstep1 : (stepEntry order adj ⟨q1, σ.colors⟩ (Entry.finish a0 d0)).1 =
          ⟨q1, Function.update σ.colors a0 (some Color.black)⟩ := rfl
      rw [hstep1]
      have hcveq : ∀ a : α, countVisit a σ.queue = countVisit a q1 := by
        intro a
        have h6 := hcv a
        rw [show isVisitOf a (Entry.finish a0 d0) = false from rfl] at h6
        simpa using h6
      have hm0 : countMarker a0 σ.queue = countMarker a0 q1 + 1 := by
        have h6 := hcm a0
        rw [show isMarkerOf a0 (Entry.finish a0 d0) = true from by
          simp [isMarkerOf]] at h6
        simpa using h6
      refine ⟨⟨fun x hx => hQ x (hsub x hx), ?_, ?_⟩, ?_⟩
      · intro a
        show countVisit a q1 =
          if Function.update σ.colors a0 (some Color.black) a = some Color.white
          then 1 else 0
        by_cases ha : a = a0
        · subst ha
          rw [Function.update_same, if_neg (by simp)]
          have hv1 := hV a
          rw [hgray] at hv1
          simp at hv1
          rw [← hcveq a]
          exact hv1
        · rw [Function.update_noteq ha]
          rw [← hcveq a]
          exact hV a
      · intro a
        show countMarker a q1 =
          if Function.update σ.colors a0 (some Color.black) a = some Color.gray
          then 1 else 0
        by_cases ha : a = a0
        · subst ha
          rw [Function.update_same, if_neg (by simp)]
          have hm1 := hM a
          rw [hgray] at hm1
          simp at hm1
          omega
        · rw [Function.update_noteq ha]
          have h6 := hcm a
          rw [show isMarkerOf a (Entry.finish a0 d0) = false from by
            simp [isMarkerOf]
            exact fun h => ha h.symm] at h6
          simp at h6
          rw [← h6]
          exact hM a
      · show q1.length + U.sum (fun a => colorFuel
            (Function.update σ.colors a0 (some Color.black) a)) <
          σ.queue.length + U.sum (fun a => colorFuel (σ.colors a))
        have hsum : U.sum (fun a => colorFuel
            (Function.update σ.colors a0 (some Color.black) a)) ≤
            U.sum (fun a => colorFuel (σ.colors a)) := by
          apply Finset.sum_le_sum
          intro a _
          by_cases ha : a = a0
          · subst ha
            rw [Function.update_same]
            exact Nat.zero_le _
          · rw [Function.update_noteq ha]
        omega
  | visit a0 d0 =>
      have hwhite : σ.colors a0 = some Color.white :=
        visit_color U σ ⟨hQ, hV, hM⟩ a0 d0 hmem
      have ha0U : a0 ∈ U := hQ (Entry.visit a0 d0) hmem
      have hcond : (σ.colors a0).getD Color.white = Color.white := by
        rw [hwhite]
        rfl
      have hstep : stepEntry order adj ⟨q1, σ.colors⟩ (Entry.visit a0 d0) =
          ((addCall order ⟨q1, Function.update σ.colors a0 (some Color.gray)⟩
              (some a0) (d0 + 1) (adj a0)).1,
            Event.examineNode a0 d0 ::
              (addCall order ⟨q1, Function.update σ.colors a0 (some Color.gray)⟩
                (some a0) (d0 + 1) (adj a0)).2) := by
        simp only [stepEntry]
        rw [if_pos hcond]
      have hstep1 : (stepEntry order adj ⟨q1, σ.colors⟩ (Entry.visit a0 d0)).1 =
          (addCall order ⟨q1, Function.update σ.colors a0 (some Color.gray)⟩
            (some a0) (d0 + 1) (adj a0)).1 := by
        rw [hstep]
      rw [hstep1]
      have hv1 : countVisit a0 σ.queue = 1 := by
        have h6 := hV a0
        rw [hwhite] at h6
        simpa using h6
      have hcva0 : countVisit a0 σ.queue = countVisit a0 q1 + 1 := by
        have h6 := hcv a0
        rw [show isVisitOf a0 (Entry.visit a0 d0) = true from by
          simp [isVisitOf]] at h6
        simpa using h6
      have hcveq : ∀ a : α, a ≠ a0 → countVisit a σ.queue = countVisit a q1 := by
        intro a ha
        have h6 := hcv a
        rw [show isVisitOf a (Entry.visit a0 d0) = false from by
          simp [isVisitOf]
          exact fun h => ha h.symm] at h6
        simpa using h6
      have hcmeq : ∀ a : α, countMarker a σ.queue = countMarker a q1 := by
        intro a
        have h6 := hcm a
        rw [show isMarkerOf a (Entry.visit a0 d0) = false from rfl] at h6
        simpa using h6
      refine ⟨⟨?_, ?_, ?_⟩, ?_⟩
      · intro x hx
        rcases addCall_queue_mem order _ a0 (d0 + 1) (adj a0) x hx with h | h | h
        · exact hQ x (hsub x h)
        · exact hadj a0 _ h
        · rw [h]
          exact ha0U
      · intro a
        rcases addCall_node order ⟨q1, Function.update σ.colors a0 (some Color.gray)⟩
            a0 (d0 + 1) (adj a0) a with ⟨g1, g2, g3, g4⟩ | ⟨g0, g1, g2, g3, g4⟩
        · rw [g3, g1]
          show countVisit a q1 =
            if Function.update σ.colors a0 (some Color.gray) a = some Color.white
            then 1 else 0
          by_cases ha : a = a0
          · subst ha
            rw [Function.update_same, if_neg (by simp)]
            omega
          · rw [Function.update_noteq ha, ← hcveq a ha]
            exact hV a
        · have ha : a ≠ a0 := by
            intro h
            subst h
            have : Function.update σ.colors a (some Color.gray) a = none := g0
            rw [Function.update_same] at this
            cases this
          have hnone : σ.colors a = none := by
            have : Function.update σ.colors a0 (some Color.gray) a = none := g0
            rwa [Function.update_noteq ha] at this
          rw [g3, g1, if_pos rfl]
          show countVisit a q1 + 1 = 1
          have h6 := hV a
          rw [hnone] at h6
          simp at h6
          rw [← hcveq a ha]
          omega
      · intro a
        rcases addCall_node order ⟨q1, Function.update σ.colors a0 (some Color.gray)⟩
            a0 (d0 + 1) (adj a0) a with ⟨g1, g2, g3, g4⟩ | ⟨g0, g1, g2, g3, g4⟩
        · rw [g4, g1]
          show countMarker a q1 + _ =
            if Function.update σ.colors a0 (some Color.gray) a = some Color.gray
            then 1 else 0
          by_cases ha : a0 = a
          · rw [← ha, Function.update_same, if_pos rfl, if_pos rfl]
            have h6 := hM a0
            rw [hwhite] at h6
            simp at h6
            have h7 := hcmeq a0
            omega
          · rw [if_neg ha, Function.update_noteq (fun h => ha h.symm), ← hcmeq a]
            have := hM a
            omega
        · have ha : a ≠ a0 := by
            intro h
            subst h
            have : Function.update σ.colors a (some Color.gray) a = none := g0
            rw [Function.update_same] at this
            cases this
          have hnone : σ.colors a = none := by
            have : Function.update σ.colors a0 (some Color.gray) a = none := g0
            rwa [Function.update_noteq ha] at this
          rw [g4, g1]
          show countMarker a q1 + (if a0 = a then 1 else 0) =
            if (some Color.white : Option Color) = some Color.gray then 1 else 0
          rw [if_neg (show ¬ (some Color.white : Option Color) = some Color.gray
            from by simp)]
          rw [if_neg (show ¬ a0 = a from fun h => ha h.symm)]
          rw [← hcmeq a]
          have h6 := hM a
          rw [hnone] at h6
          simp at h6
          omega
      · have hAC := addCall_measure order U
          ⟨q1, Function.update σ.colors a0 (some Color.gray)⟩ a0 (d0 + 1)
          (adj a0) (hadj a0)
        have hsg : walkMeasure U
            ⟨q1, Function.update σ.colors a0 (some Color.gray)⟩ + 1 =
            q1.length + U.sum (fun a => colorFuel (σ.colors a)) := by
          show q1.length + _ + 1 = _
          rw [sum_update_fuel U σ.colors a0 ha0U Color.gray,
            sum_fuel_split U σ.colors a0 ha0U, hwhite]
          show q1.length + (0 + _) + 1 = q1.length + (1 + _)
          omega
        show walkMeasure U _ < σ.queue.length + _
        omega

theorem walkLoop_succ_some (order : WalkOrder) (adj : α → List α) (n : Nat)
    (σ : WalkState α) (e : Entry α) (q1 : List (Entry α))
    (hp : popEntry order σ.queue = some (e, q1)) :
    walkLoop order adj (n + 1) σ =
      ((walkLoop order adj n (stepEntry order adj ⟨q1, σ.colors⟩ e).1).1,
       (stepEntry order adj ⟨q1, σ.colors⟩ e).2 ++
       (walkLoop order adj n (stepEntry order adj ⟨q1, σ.colors⟩ e).1).2) := by
  rw [walkLoop, hp]

theorem walkLoop_succ_none (order : WalkOrder) (adj : α → List α) (n : Nat)
    (σ : WalkState α) (hp : popEntry order σ.queue = none) :
    walkLoop order adj (n + 1) σ = (σ, []) := by
  rw [walkLoop, hp]

/-- With fuel at least the walk measure, the main loop drains the
frontier completely. -/
theorem walkLoop_drain (order : WalkOrder) (adj : α → List α) (U : Finset α)
    (hadj : ∀ x, ∀ y ∈ adj x, y ∈ U) (fuel : Nat) (σ : WalkState α)
    (hinv : WalkInv U σ) (hfuel : walkMeasure U σ ≤ fuel) :
    (walkLoop order adj fuel σ).1.queue = [] := by
  induction fuel generalizing σ with
  | zero =>
      show σ.queue = []
      apply List.length_eq_zero.mp
      unfold walkMeasure at hfuel
      omega
  | succ n ih =>
      cases hp : popEntry order σ.queue with
      | none =>
          have hres : (walkLoop order adj (n + 1) σ).1 = σ := by
            rw [walkLoop_succ_none order adj n σ hp]
          rw [hres]
          exact (popEntry_eq_none order σ.queue).mp hp
      | some pr =>
          obtain ⟨e, q1⟩ := pr
          obtain ⟨hinv2, hlt⟩ := step_preserves order adj U hadj σ e q1 hp hinv
          have hres : (walkLoop order adj (n + 1) σ).1 =
              (walkLoop order adj n (stepEntry order adj ⟨q1, σ.colors⟩ e).1).1 := by
            rw [walkLoop_succ_some order adj n σ e q1 hp]
          rw [hres]
          exact ih _ hinv2 (by omega)

/-- The white-visit arm of `stepEntry`, spelled out. -/
theorem stepEntry_visit_eq (order : WalkOrder) (adj : α → List α)
    (σ : WalkState α) (q1 : List (Entry α)) (a0 : α) (d0 : Nat)
    (hwhite : σ.colors a0 = some Color.white) :
    stepEntry order adj ⟨q1, σ.colors⟩ (Entry.visit a0 d0) =
      ((addCall order ⟨q1, Function.update σ.colors a0 (some Color.gray)⟩
          (some a0) (d0 + 1) (adj a0)).1,
        Event.examineNode a0 d0 ::
          (addCall order ⟨q1, Function.update σ.colors a0 (some Color.gray)⟩
            (some a0) (d0 + 1) (adj a0)).2) := by
  have hcond : (σ.colors a0).getD Color.white = Color.white := by
    rw [hwhite]
    rfl
  simp only [stepEntry]
  rw [if_pos hcond]

/-- Master lifecycle lemma: with the invariant and enough fuel, the loop
emits for each node exactly the lifecycle tail its current color calls
for: a Black node gets nothing more, a Gray node exactly its finish, a
White node examine then finish, and an unseen node either nothing or the
full discover-examine-finish sequence. -/
theorem walkLoop_life (order : WalkOrder) (adj : α → List α) (U : Finset α)
    (hadj : ∀ x, ∀ y ∈ adj x, y ∈ U) (fuel : Nat) (σ : WalkState α)
    (hinv : WalkInv U σ) (hfuel : walkMeasure U σ ≤ fuel) (a : α) :
    (σ.colors a = none →
      lifeTags a (walkLoop order adj fuel σ).2 = [] ∨
      lifeTags a (walkLoop order adj fuel σ).2 = [0, 1, 2]) ∧
    (σ.colors a = some Color.white →
      lifeTags a (walkLoop order adj fuel σ).2 = [1, 2]) ∧
    (σ.colors a = some Color.gray →
      lifeTags a (walkLoop order adj fuel σ).2 = [2]) ∧
    (σ.colors a = some Color.black →
      lifeTags a (walkLoop order adj fuel σ).2 = []) := by
  induction fuel generalizing σ with
  | zero =>
      have hq : σ.queue = [] := by
        apply List.length_eq_zero.mp
        unfold walkMeasure at hfuel
        omega
      refine ⟨fun _ => Or.inl rfl, ?_, ?_, fun _ => rfl⟩
      · intro h
        have hv := hinv.2.1 a
        rw [h, hq, if_pos rfl] at hv
        simp [countVisit] at hv
      · intro h
        have hm := hinv.2.2 a
        rw [h, hq, if_pos rfl] at hm
        simp [countMarker] at hm
  | succ n ih =>
      cases hp : popEntry order σ.queue with
      | none =>
          have hq : σ.queue = [] := (popEntry_eq_none order σ.queue).mp hp
          have hres : (walkLoop order adj (n + 1) σ).2 = [] := by
            rw [walkLoop_succ_none order adj n σ hp]
          rw [hres]
          refine ⟨fun _ => Or.inl rfl, ?_, ?_, fun _ => rfl⟩
          · intro h
            have hv := hinv.2.1 a
            rw [h, hq, if_pos rfl] at hv
            simp [countVisit] at hv
          · intro h
            have hm := hinv.2.2 a
            rw [h, hq, if_pos rfl] at hm
            simp [countMarker] at hm
      | some pr =>
          obtain ⟨e, q1⟩ := pr
          obtain ⟨hinv2, hlt⟩ := step_preserves order adj U hadj σ e q1 hp hinv
          have hfl : walkMeasure U (stepEntry order adj ⟨q1, σ.colors⟩ e).1 ≤ n := by
            omega
          have hres : (walkLoop order adj (n + 1) σ).2 =
              (stepEntry order adj ⟨q1, σ.colors⟩ e).2 ++
              (walkLoop order adj n (stepEntry order adj ⟨q1, σ.colors⟩ e).1).2 := by
            rw [walkLoop_succ_some order adj n σ e q1 hp]
          obtain ⟨hQ, hV, hM⟩ := hinv
          obtain ⟨hlen, hmem, hsub, hcv, hcm⟩ :=
            pop_counts σ.queue q1 e (popEntry_shape order σ.queue e q1 hp)
          have hih := ih (stepEntry order adj ⟨q1, σ.colors⟩ e).1 hinv2 hfl
          rw [hres, lifeTags_append]
          cases e with
          | finish b d =>
              have hgrayb : σ.colors b = some Color.gray :=
                marker_color U σ ⟨hQ, hV, hM⟩ b d hmem
              have hs1 : (stepEntry order adj ⟨q1, σ.colors⟩ (Entry.finish b d)).1 =
                  ⟨q1, Function.update σ.colors b (some Color.black)⟩ := rfl
              have hs2 : (stepEntry order adj ⟨q1, σ.colors⟩ (Entry.finish b d)).2 =
                  [Event.finishNode b d] := rfl
              rw [hs2, hs1]
              rw [hs1] at hih
              by_cases hab : b = a
              · subst hab
                have hrest := hih.2.2.2 (by
                  show Function.update σ.colors b (some Color.black) b = _
                  rw [Function.update_same])
                refine ⟨?_, ?_, ?_, ?_⟩
                · intro h
                  rw [hgrayb] at h
                  cases h
                · intro h
                  rw [hgrayb] at h
                  simp at h
                · intro _
                  rw [show lifeTags b [Event.finishNode b d] = [2] from by
                    simp [lifeTags, lifeTag], hrest]
                  rfl
                · intro h
                  rw [hgrayb] at h
                  simp at h
              · have htag : lifeTags a [Event.finishNode b d] = [] := by
                  simp [lifeTags, lifeTag, hab]
                rw [htag, List.nil_append]
                have heq : Function.update σ.colors b (some Color.black) a =
                    σ.colors a := Function.update_noteq (fun h => hab h.symm) _ _
                rw [show (⟨q1, Function.update σ.colors b (some Color.black)⟩ :
                    WalkState α).colors a = σ.colors a from heq] at hih
                exact hih
          | visit b d =>
              have hwhiteb : σ.colors b = some Color.white :=
                visit_color U σ ⟨hQ, hV, hM⟩ b d hmem
              have hstep := stepEntry_visit_eq order adj σ q1 b d hwhiteb
              have hs1 : (stepEntry order adj ⟨q1, σ.colors⟩ (Entry.visit b d)).1 =
                  (addCall order ⟨q1, Function.update σ.colors b (some Color.gray)⟩
                    (some b) (d + 1) (adj b)).1 := by
                rw [hstep]
              have hs2 : (stepEntry order adj ⟨q1, σ.colors⟩ (Entry.visit b d)).2 =
                  Event.examineNode b d ::
                  (addCall order ⟨q1, Function.update σ.colors b (some Color.gray)⟩
                    (some b) (d + 1) (adj b)).2 := by
                rw [hstep]
              rw [hs2, hs1]
              rw [hs1] at hih
              by_cases hab : b = a
              · subst hab
                refine ⟨?_, ?_, ?_, ?_⟩
                · intro h
                  rw [hwhiteb] at h
                  cases h
                · intro _
                  rcases addCall_node order
                      ⟨q1, Function.update σ.colors b (some Color.gray)⟩ b (d + 1)
                      (adj b) b with ⟨g1, g2, g3, g4⟩ | ⟨g0, g1, g2, g3, g4⟩
                  · have hACcol : (addCall order
                        ⟨q1, Function.update σ.colors b (some Color.gray)⟩
                        (some b) (d + 1) (adj b)).1.colors b = some Color.gray :=
                      g1.trans (show (⟨q1, Function.update σ.colors b
                          (some Color.gray)⟩ : WalkState α).colors b =
                          some Color.gray from
                        Function.update_same b (some Color.gray) σ.colors)
                    have hrest := hih.2.2.1 hACcol
                    have htag : lifeTags b (Event.examineNode b d ::
                        (addCall order
                          ⟨q1, Function.update σ.colors b (some Color.gray)⟩
                          (some b) (d + 1) (adj b)).2) =
                        1 :: lifeTags b (addCall order
                          ⟨q1, Function.update σ.colors b (some Color.gray)⟩
                          (some b) (d + 1) (adj b)).2 := by
                      simp [lifeTags, lifeTag]
                    rw [htag, g2, hrest]
                    rfl
                  · exfalso
                    have hg := g0
                    rw [show (⟨q1, Function.update σ.colors b (some Color.gray)⟩ :
                      WalkState α).colors b = some Color.gray from
                        Function.update_same b (some Color.gray) σ.colors] at hg
                    cases hg
                · intro h
                  rw [hwhiteb] at h
                  simp at h
                · intro h
                  rw [hwhiteb] at h
                  simp at h
              · have heqg : (⟨q1, Function.update σ.colors b (some Color.gray)⟩ :
                    WalkState α).colors a = σ.colors a :=
                  Function.update_noteq (fun h => hab h.symm) _ _
                have htag0 : lifeTags a (Event.examineNode b d ::
                    (addCall order ⟨q1, Function.update σ.colors b (some Color.gray)⟩
                      (some b) (d + 1) (adj b)).2) =
                    lifeTags a (addCall order
                      ⟨q1, Function.update σ.colors b (some Color.gray)⟩
                      (some b) (d + 1) (adj b)).2 := by
                  simp [lifeTags, lifeTag, hab]
                rcases addCall_node order
                    ⟨q1, Function.update σ.colors b (some Color.gray)⟩ b (d + 1)
                    (adj b) a with ⟨g1, g2, g3, g4⟩ | ⟨g0, g1, g2, g3, g4⟩
                · rw [htag0, g2, List.nil_append]
                  rw [show (addCall order
                      ⟨q1, Function.update σ.colors b (some Color.gray)⟩
                      (some b) (d + 1) (adj b)).1.colors a = σ.colors a from
                    g1.trans heqg] at hih
                  exact hih
                · have hnone : σ.colors a = none := heqg ▸ g0
                  have hrest := hih.2.1 g1
                  rw [htag0, g2]
                  refine ⟨?_, ?_, ?_, ?_⟩
                  · intro _
                    right
                    rw [hrest]
                    rfl
                  · intro h
                    rw [hnone] at h
                    cases h
                  · intro h
                    rw [hnone] at h
                    cases h
                  · intro h
                    rw [hnone] at h
                    cases h

/-- The seeding `add` call (source `None`) is a plain scan: no finish
marker is pushed in either order. -/
theorem seed_eq (order : WalkOrder) (start : List α) :
    addCall order ⟨[], fun _ => none⟩ none 0 start =
      addItems none 0 ⟨[], fun _ => none⟩ start := by
  cases order <;> rfl

theorem seed_inv (U : Finset α) (start : List α) (hstart : ∀ a ∈ start, a ∈ U) :
    WalkInv U (addItems none 0 (⟨[], fun _ => none⟩ : WalkState α) start).1 := by
  refine ⟨?_, ?_, ?_⟩
  · intro e he
    rcases addItems_queue_mem none 0 _ start e he with h | h
    · cases h
    · exact hstart _ h
  · intro a
    rcases addItems_node none 0 ⟨[], fun _ => none⟩ start a with
      ⟨g1, g2, g3, g4⟩ | ⟨g0, g1, g2, g3, g4⟩
    · rw [g3, g1]
      simp [countVisit]
    · rw [g3, g1]
      simp [countVisit]
  · intro a
    rcases addItems_node none 0 ⟨[], fun _ => none⟩ start a with
      ⟨g1, g2, g3, g4⟩ | ⟨g0, g1, g2, g3, g4⟩
    · rw [g4, g1]
      simp [countMarker]
    · rw [g4, g1]
      simp [countMarker]

theorem seed_measure (U : Finset α) (start : List α)
    (hstart : ∀ a ∈ start, a ∈ U) :
    walkMeasure U (addItems none 0 (⟨[], fun _ => none⟩ : WalkState α) start).1 ≤
      2 * U.card := by
  have h1 := addItems_measure U none 0 ⟨[], fun _ => none⟩ start hstart
  have h2 : walkMeasure U (⟨[], fun _ => none⟩ : WalkState α) = 2 * U.card := by
    show [].length + U.sum (fun _ => colorFuel none) = 2 * U.card
    simp only [List.length_nil, Finset.sum_const, smul_eq_mul]
    show 0 + U.card * 2 = 2 * U.card
    omega
  omega

/-- The frontier is empty after a full walk with fuel `2 * |U|`. -/
theorem walkGraph_drain (order : WalkOrder) (adj : α → List α)
    (start : List α) (U : Finset α) (hadj : ∀ x, ∀ y ∈ adj x, y ∈ U)
    (hstart : ∀ a ∈ start, a ∈ U) :
    (walkGraphRun order adj start (2 * U.card)).1.queue = [] := by
  have h1 : (walkGraphRun order adj start (2 * U.card)).1 =
      (walkLoop order adj (2 * U.card)
        (addCall order ⟨[], fun _ => none⟩ none 0 start).1).1 := rfl
  rw [h1, seed_eq]
  exact walkLoop_drain order adj U hadj _ _ (seed_inv U start hstart)
    (seed_measure U start hstart)

/-- Lifecycle of every node over a full walk: either the node is never
seen, or it is discovered, examined and finished, exactly once each and
in that order. -/
theorem walkGraph_life (order : WalkOrder) (adj : α → List α)
    (start : List α) (U : Finset α) (hadj : ∀ x, ∀ y ∈ adj x, y ∈ U)
    (hstart : ∀ a ∈ start, a ∈ U) (a : α) :
    lifeTags a (walkGraph order adj start (2 * U.card)) = [] ∨
    lifeTags a (walkGraph order adj start (2 * U.card)) = [0, 1, 2] := by
  have h2 : walkGraph order adj start (2 * U.card) =
      (addItems none 0 (⟨[], fun _ => none⟩ : WalkState α) start).2 ++
      (walkLoop order adj (2 * U.card)
        (addItems none 0 (⟨[], fun _ => none⟩ : WalkState α) start).1).2 := by
    show (addCall order ⟨[], fun _ => none⟩ none 0 start).2 ++
      (walkLoop order adj (2 * U.card)
        (addCall order ⟨[], fun _ => none⟩ none 0 start).1).2 = _
    rw [seed_eq]
  rw [h2, lifeTags_append]
  have hlife := walkLoop_life order adj U hadj (2 * U.card) _
    (seed_inv U start hstart) (seed_measure U start hstart) a
  rcases addItems_node none 0 ⟨[], fun _ => none⟩ start a with
    ⟨g1, g2, g3, g4⟩ | ⟨g0, g1, g2, g3, g4⟩
  · have hcol : (addItems none 0 (⟨[], fun _ => none⟩ : WalkState α) start).1.colors a =
        none := g1.trans rfl
    rw [g2, List.nil_append]
    exact hlife.1 hcol
  · have hrest := hlife.2.1 g1
    rw [g2, hrest]
    right
    rfl

theorem count_filterMap_eq {β γ : Type} [DecidableEq γ] (f : β → Option γ)
    (t : γ) (l : List β) :
    (l.filterMap f).count t = l.countP (fun e => f e = some t) := by
  induction l with
  | nil => rfl
  | cons x xs ih =>
      rw [List.filterMap_cons, List.countP_cons]
      cases hf : f x with
      | none =>
          rw [ih]
          simp [hf]
      | some y =>
          rw [List.count_cons, ih]
          by_cases hy : y = t
          · subst hy
            simp [hf]
          · simp [hf, hy]

theorem countP_discover_eq (a : α) (tr : List (Event α)) :
    tr.countP (isDiscoverOf a) = (lifeTags a tr).count 0 := by
  rw [lifeTags, count_filterMap_eq]
  apply List.countP_congr
  intro ev _
  cases ev with
  | discoverNode b db s =>
      by_cases hb : b = a <;> simp [isDiscoverOf, lifeTag, hb]
  | examineNode b db =>
      by_cases hb : b = a <;> simp [isDiscoverOf, lifeTag, hb]
  | finishNode b db =>
      by_cases hb : b = a <;> simp [isDiscoverOf, lifeTag, hb]
  | treeEdge s b => simp [isDiscoverOf, lifeTag]
  | backEdge s b => simp [isDiscoverOf, lifeTag]
  | fwdOrCrossEdge s b => simp [isDiscoverOf, lifeTag]

theorem countP_examine_eq (a : α) (tr : List (Event α)) :
    tr.countP (isExamineOf a) = (lifeTags a tr).count 1 := by
  rw [lifeTags, count_filterMap_eq]
  apply List.countP_congr
  intro ev _
  cases ev with
  | discoverNode b db s =>
      by_cases hb : b = a <;> simp [isExamineOf, lifeTag, hb]
  | examineNode b db =>
      by_cases hb : b = a <;> simp [isExamineOf, lifeTag, hb]
  | finishNode b db =>
      by_cases hb : b = a <;> simp [isExamineOf, lifeTag, hb]
  | treeEdge s b => simp [isExamineOf, lifeTag]
  | backEdge s b => simp [isExamineOf, lifeTag]
  | fwdOrCrossEdge s b => simp [isExamineOf, lifeTag]

theorem countP_finish_eq (a : α) (tr : List (Event α)) :
    tr.countP (isFinishOf a) = (lifeTags a tr).count 2 := by
  rw [lifeTags, count_filterMap_eq]
  apply List.countP_congr
  intro ev _
  cases ev with
  | discoverNode b db s =>
      by_cases hb : b = a <;> simp [isFinishOf, lifeTag, hb]
  | examineNode b db =>
      by_cases hb : b = a <;> simp [isFinishOf, lifeTag, hb]
  | finishNode b db =>
      by_cases hb : b = a <;> simp [isFinishOf, lifeTag, hb]
  | treeEdge s b => simp [isFinishOf, lifeTag]
  | backEdge s b => simp [isFinishOf, lifeTag]
  | fwdOrCrossEdge s b => simp [isFinishOf, lifeTag]

/-- C10.  `walk_graph` terminates for every start set and adjacency
staying inside a fixed finite node set `U`: fuel `2 * |U|` fully drains
the frontier (a node already in the color map is never pushed again, so
each node contributes at most one visit entry and one finish marker), and
`discover_node`, `examine_node` and `finish_node` each fire at most once
per node, no matter how many edges reach it. -/
theorem walk_terminates_once (order : WalkOrder) (adj : α → List α)
    (start : List α) (U : Finset α)
    (hadj : ∀ x, ∀ y ∈ adj x, y ∈ U) (hstart : ∀ a ∈ start, a ∈ U) :
    (walkGraphRun order adj start (2 * U.card)).1.queue = [] ∧
    ∀ a : α,
      (walkGraph order adj start (2 * U.card)).countP (isDiscoverOf a) ≤ 1 ∧
      (walkGraph order adj start (2 * U.card)).countP (isExamineOf a) ≤ 1 ∧
      (walkGraph order adj start (2 * U.card)).countP (isFinishOf a) ≤ 1 := by
  refine ⟨walkGraph_drain order adj start U hadj hstart, fun a => ⟨?_, ?_, ?_⟩⟩
  · rw [countP_discover_eq]
    rcases walkGraph_life order adj start U hadj hstart a with h | h <;>
      rw [h] <;> decide
  · rw [countP_examine_eq]
    rcases walkGraph_life order adj start U hadj hstart a with h | h <;>
      rw [h] <;> decide
  · rw [countP_finish_eq]
    rcases walkGraph_life order adj start U hadj hstart a with h | h <;>
      rw [h] <;> decide

/-- A concrete two-node cyclic graph for the walker scenarios. -/
def adjW : Fin 2 → List (Fin 2) := fun x => if x = 0 then [1] else [0]

/-- Witness for C10: the DFS walk of the two-node cycle from node 0. -/
theorem walk_terminates_once_witness :
    (∀ x : Fin 2, ∀ y ∈ adjW x, y ∈ (Finset.univ : Finset (Fin 2))) ∧
    (∀ a ∈ [(0 : Fin 2)], a ∈ (Finset.univ : Finset (Fin 2))) ∧
    ((walkGraphRun WalkOrder.DFS adjW [0]
        (2 * (Finset.univ : Finset (Fin 2)).card)).1.queue = [] ∧
     ∀ a : Fin 2,
      (walkGraph WalkOrder.DFS adjW [0]
        (2 * (Finset.univ : Finset (Fin 2)).card)).countP (isDiscoverOf a) ≤ 1 ∧
      (walkGraph WalkOrder.DFS adjW [0]
        (2 * (Finset.univ : Finset (Fin 2)).card)).countP (isExamineOf a) ≤ 1 ∧
      (walkGraph WalkOrder.DFS adjW [0]
        (2 * (Finset.univ : Finset (Fin 2)).card)).countP (isFinishOf a) ≤ 1) :=
  ⟨by decide, by decide,
    walk_terminates_once WalkOrder.DFS adjW [0] Finset.univ
      (by decide) (by decide)⟩

theorem takeWhile_all_append {β : Type} {p : β → Bool} (X Y : List β)
    (h : ∀ x ∈ X, p x = true) :
    (X ++ Y).takeWhile p = X ++ Y.takeWhile p := by
  induction X with
  | nil => rfl
  | cons x xs ih =>
      rw [List.cons_append, List.takeWhile_cons, h x (List.mem_cons_self _ _),
        if_pos rfl, ih (fun y hy => h y (List.mem_cons_of_mem _ hy)),
        List.cons_append]

theorem discover_mem_tags (c : α) (dc : Nat) (s : Option α)
    (tr : List (Event α)) (h : Event.discoverNode c dc s ∈ tr) :
    (0 : Nat) ∈ lifeTags c tr := by
  apply List.mem_filterMap.mpr
  exact ⟨_, h, by simp [lifeTag]⟩

theorem isVisitOf_shape (a : α) (ent : Entry α) (h : isVisitOf a ent = true) :
    ∃ d, ent = Entry.visit a d := by
  cases ent with
  | visit b d =>
      simp [isVisitOf] at h
      subst h
      exact ⟨d, rfl⟩
  | finish b d => cases h

/-- A scan only appends entries to the frontier. -/
theorem addItems_queue_shape (src : Option α) (d : Nat) (σ : WalkState α)
    (l : List α) :
    ∃ suf, (addItems src d σ l).1.queue = σ.queue ++ suf := by
  induction l generalizing σ with
  | nil => exact ⟨[], by simp [addItems]⟩
  | cons b rest ih =>
      obtain ⟨suf, hsuf⟩ := ih (addItem σ src d b).1
      simp only [addItems]
      unfold addItem at hsuf ⊢
      cases hb : σ.colors b with
      | none =>
          rw [hb] at hsuf
          exact ⟨Entry.visit b d :: suf, by
            rw [hsuf]
            simp⟩
      | some c =>
          rw [hb] at hsuf
          cases c <;> exact ⟨suf, hsuf⟩

/-- For DFS, `_NodeContainer.add` puts the source's marker directly after
the old frontier, followed by the newly discovered visit entries. -/
theorem addCall_queue_shape_dfs (σ : WalkState α) (b : α) (d : Nat)
    (l : List α) :
    ∃ suf, (addCall WalkOrder.DFS σ (some b) d l).1.queue =
      σ.queue ++ Entry.finish b (d - 1) :: suf := by
  obtain ⟨suf, hsuf⟩ := addItems_queue_shape (some b) d (pushFinish σ b (d - 1)) l
  refine ⟨suf, ?_⟩
  show (addItems (some b) d (pushFinish σ b (d - 1)) l).1.queue = _
  rw [hsuf]
  show (σ.queue ++ [Entry.finish b (d - 1)]) ++ suf = _
  rw [List.append_assoc]
  rfl

/-- The white-visit arm of `stepEntry`, from the branch condition. -/
theorem stepEntry_visit_cond (order : WalkOrder) (adj : α → List α)
    (σ : WalkState α) (q1 : List (Entry α)) (a0 : α) (d0 : Nat)
    (hcond : (σ.colors a0).getD Color.white = Color.white) :
    stepEntry order adj ⟨q1, σ.colors⟩ (Entry.visit a0 d0) =
      ((addCall order ⟨q1, Function.update σ.colors a0 (some Color.gray)⟩
          (some a0) (d0 + 1) (adj a0)).1,
        Event.examineNode a0 d0 ::
          (addCall order ⟨q1, Function.update σ.colors a0 (some Color.gray)⟩
            (some a0) (d0 + 1) (adj a0)).2) := by
  simp only [stepEntry]
  rw [if_pos hcond]

/-- The defensive skip arm of `stepEntry`. -/
theorem stepEntry_visit_skip (order : WalkOrder) (adj : α → List α)
    (σ : WalkState α) (q1 : List (Entry α)) (a0 : α) (d0 : Nat)
    (hcond : ¬ (σ.colors a0).getD Color.white = Color.white) :
    stepEntry order adj ⟨q1, σ.colors⟩ (Entry.visit a0 d0) =
      (⟨q1, σ.colors⟩, []) := by
  simp only [stepEntry]
  rw [if_neg hcond]

/-- A node already in the color map is never discovered again. -/
theorem walkLoop_no_rediscover (order : WalkOrder) (adj : α → List α)
    (fuel : Nat) (σ : WalkState α) (c : α) (hc : σ.colors c ≠ none) :
    ∀ dc s, Event.discoverNode c dc s ∉ (walkLoop order adj fuel σ).2 := by
  induction fuel generalizing σ with
  | zero =>
      intro dc s h
      cases h
  | succ n ih =>
      intro dc s h
      cases hp : popEntry order σ.queue with
      | none =>
          rw [walkLoop_succ_none order adj n σ hp] at h
          cases h
      | some pr =>
          obtain ⟨e, q1⟩ := pr
          rw [walkLoop_succ_some order adj n σ e q1 hp] at h
          cases e with
          | finish b d =>
              rcases List.mem_append.mp h with h1 | h2
              · rw [show (stepEntry order adj ⟨q1, σ.colors⟩ (Entry.finish b d)).2 =
                  [Event.finishNode b d] from rfl] at h1
                simp at h1
              · refine ih ⟨q1, Function.update σ.colors b (some Color.black)⟩
                  ?_ dc s h2
                show Function.update σ.colors b (some Color.black) c ≠ none
                by_cases hbc : b = c
                · subst hbc
                  rw [Function.update_same]
                  simp
                · rw [Function.update_noteq (fun hh => hbc hh.symm)]
                  exact hc
          | visit b d =>
              by_cases hcnd : (σ.colors b).getD Color.white = Color.white
              · rw [stepEntry_visit_cond order adj σ q1 b d hcnd] at h
                rcases List.mem_append.mp h with h1 | h2
                · have h3 : Event.discoverNode c dc s ∈
                      (addCall order ⟨q1, Function.update σ.colors b (some Color.gray)⟩
                        (some b) (d + 1) (adj b)).2 := by
                    rcases List.mem_cons.mp h1 with h4 | h4
                    · simp at h4
                    · exact h4
                  rcases addCall_node order
                      ⟨q1, Function.update σ.colors b (some Color.gray)⟩ b (d + 1)
                      (adj b) c with ⟨g1, g2, g3, g4⟩ | ⟨g0, g1, g2, g3, g4⟩
                  · have h5 := discover_mem_tags c dc s _ h3
                    rw [g2] at h5
                    cases h5
                  · apply hc
                    by_cases hbc : b = c
                    · exfalso
                      subst hbc
                      have hg := g0
                      rw [show (⟨q1, Function.update σ.colors b (some Color.gray)⟩ :
                        WalkState α).colors b = some Color.gray from
                          Function.update_same b (some Color.gray) σ.colors] at hg
                      cases hg
                    · have hg := g0
                      rw [show (⟨q1, Function.update σ.colors b (some Color.gray)⟩ :
                        WalkState α).colors c = σ.colors c from
                          Function.update_noteq (fun hh => hbc hh.symm) _ _] at hg
                      exact hg
                · refine ih _ ?_ dc s h2
                  rcases addCall_node order
                      ⟨q1, Function.update σ.colors b (some Color.gray)⟩ b (d + 1)
                      (adj b) c with ⟨g1, g2, g3, g4⟩ | ⟨g0, g1, g2, g3, g4⟩
                  · rw [g1]
                    by_cases hbc : b = c
                    · subst hbc
                      rw [show (⟨q1, Function.update σ.colors b (some Color.gray)⟩ :
                        WalkState α).colors b = some Color.gray from
                          Function.update_same b (some Color.gray) σ.colors]
                      simp
                    · rw [show (⟨q1, Function.update σ.colors b (some Color.gray)⟩ :
                        WalkState α).colors c = σ.colors c from
                          Function.update_noteq (fun hh => hbc hh.symm) _ _]
                      exact hc
                  · rw [g1]
                    simp
              · rw [stepEntry_visit_skip order adj σ q1 b d hcnd] at h
                rcases List.mem_append.mp h with h1 | h2
                · cases h1
                · exact ih ⟨q1, σ.colors⟩ hc dc s h2

/-- A Black node's adjacency is never scanned again: no discover event
ever carries it as source. -/
theorem walkLoop_no_black_source (order : WalkOrder) (adj : α → List α)
    (fuel : Nat) (σ : WalkState α) (p : α)
    (hb : σ.colors p = some Color.black) :
    ∀ c dc, Event.discoverNode c dc (some p) ∉ (walkLoop order adj fuel σ).2 := by
  induction fuel generalizing σ with
  | zero =>
      intro c dc h
      cases h
  | succ n ih =>
      intro c dc h
      cases hp : popEntry order σ.queue with
      | none =>
          rw [walkLoop_succ_none order adj n σ hp] at h
          cases h
      | some pr =>
          obtain ⟨e, q1⟩ := pr
          rw [walkLoop_succ_some order adj n σ e q1 hp] at h
          cases e with
          | finish b d =>
              rcases List.mem_append.mp h with h1 | h1
              · rw [show (stepEntry order adj ⟨q1, σ.colors⟩ (Entry.finish b d)).2 =
                  [Event.finishNode b d] from rfl] at h1
                simp at h1
              · refine ih ⟨q1, Function.update σ.colors b (some Color.black)⟩ ?_ c dc h1
                show Function.update σ.colors b (some Color.black) p = some Color.black
                by_cases hbp : b = p
                · subst hbp
                  rw [Function.update_same]
                · rw [Function.update_noteq (fun hh => hbp hh.symm)]
                  exact hb
          | visit b d =>
              by_cases hcnd : (σ.colors b).getD Color.white = Color.white
              · have hbp : b ≠ p := by
                  intro hh
                  subst hh
                  rw [hb] at hcnd
                  cases hcnd
                rw [stepEntry_visit_cond order adj σ q1 b d hcnd] at h
                have hgp : (⟨q1, Function.update σ.colors b (some Color.gray)⟩ :
                    WalkState α).colors p = some Color.black := by
                  show Function.update σ.colors b (some Color.gray) p = _
                  rw [Function.update_noteq (fun hh => hbp hh.symm)]
                  exact hb
                rcases List.mem_append.mp h with h1 | h1
                · rcases List.mem_cons.mp h1 with h4 | h4
                  · simp at h4
                  · have h5 := addCall_discover_src order
                      ⟨q1, Function.update σ.colors b (some Color.gray)⟩ b (d + 1)
                      (adj b) c dc (some p) h4
                    simp only [Option.some.injEq] at h5
                    exact hbp h5.symm
                · refine ih _ ?_ c dc h1
                  rcases addCall_node order
                      ⟨q1, Function.update σ.colors b (some Color.gray)⟩ b (d + 1)
                      (adj b) p with ⟨g1, g2, g3, g4⟩ | ⟨g0, g1, g2, g3, g4⟩
                  · rw [g1]
                    exact hgp
                  · rw [hgp] at g0
                    cases g0
              · rw [stepEntry_visit_skip order adj σ q1 b d hcnd] at h
                rcases List.mem_append.mp h with h1 | h1
                · cases h1
                · exact ih ⟨q1, σ.colors⟩ hb c dc h1

/-- Core DFS post-order argument: while the frontier holds, above the
source's finish marker, a visit entry or finish marker for the child `c`,
no `finish_node` for the source `p` fires before the first `finish_node`
for `c`. -/
theorem walkLoop_postorder (adj : α → List α) (U : Finset α)
    (hadj : ∀ x, ∀ y ∈ adj x, y ∈ U) (fuel : Nat) (σ : WalkState α)
    (hinv : WalkInv U σ) (hfuel : walkMeasure U σ ≤ fuel)
    (p c : α) (q1 q2 : List (Entry α)) (dp : Nat)
    (hq : σ.queue = q1 ++ Entry.finish p dp :: q2)
    (hc : (∃ dc, Entry.visit c dc ∈ q2) ∨ (∃ dc, Entry.finish c dc ∈ q2)) :
    ((walkLoop WalkOrder.DFS adj fuel σ).2.takeWhile
      (fun ev => !(isFinishOf c ev))).countP (isFinishOf p) = 0 := by
  induction fuel generalizing σ q1 q2 dp with
  | zero =>
      exfalso
      have h0 : σ.queue.length = 0 := by
        unfold walkMeasure at hfuel
        omega
      rw [hq] at h0
      simp at h0
  | succ n ih =>
      rcases List.eq_nil_or_concat q2 with h2 | ⟨q2h, e, heq⟩
      · exfalso
        rcases hc with ⟨dc, hdc⟩ | ⟨dc, hdc⟩ <;> (rw [h2] at hdc; cases hdc)
      · rw [List.concat_eq_append] at heq
        subst heq
        have hq' : σ.queue = (q1 ++ Entry.finish p dp :: q2h) ++ [e] := by
          rw [hq]
          simp
        have hgl : σ.queue.getLast? = some e := by
          rw [hq']
          exact List.getLast?_concat _
        have hdl : σ.queue.dropLast = q1 ++ Entry.finish p dp :: q2h := by
          rw [hq']
          exact List.dropLast_concat
        have hpop : popEntry WalkOrder.DFS σ.queue =
            some (e, q1 ++ Entry.finish p dp :: q2h) := by
          unfold popEntry
          rw [hgl, hdl]
        obtain ⟨hinv2, hlt⟩ := step_preserves WalkOrder.DFS adj U hadj σ e _ hpop hinv
        obtain ⟨hQ, hV, hM⟩ := hinv
        obtain ⟨hlen, hmem, hsub, hcv, hcm⟩ :=
          pop_counts σ.queue _ e (popEntry_shape _ _ _ _ hpop)
        have hmarkp : Entry.finish p dp ∈ σ.queue := by
          rw [hq]
          exact List.mem_append_right _ (List.mem_cons_self _ _)
        have hgrayp : σ.colors p = some Color.gray :=
          marker_color U σ ⟨hQ, hV, hM⟩ p dp hmarkp
        rw [walkLoop_succ_some WalkOrder.DFS adj n σ e _ hpop]
        cases e with
        | finish b d =>
            by_cases hbc : b = c
            · subst hbc
              rw [show (stepEntry WalkOrder.DFS adj
                  ⟨q1 ++ Entry.finish p dp :: q2h, σ.colors⟩ (Entry.finish b d)).2 =
                  [Event.finishNode b d] from rfl]
              rw [List.singleton_append, List.takeWhile_cons]
              rw [show (!(isFinishOf b (Event.finishNode b d))) = false from by
                simp [isFinishOf]]
              rw [if_neg (by simp)]
              rfl
            · have hbp : b ≠ p := by
                intro hh
                subst hh
                have h5 := hcm b
                rw [show isMarkerOf b (Entry.finish b d) = true from by
                  simp [isMarkerOf]] at h5
                rw [show (if (true = true) then (1 : Nat) else 0) = 1 from rfl] at h5
                have h6 : 0 < countMarker b (q1 ++ Entry.finish b dp :: q2h) :=
                  List.countP_pos.mpr ⟨Entry.finish b dp,
                    List.mem_append_right _ (List.mem_cons_self _ _),
                    by simp [isMarkerOf]⟩
                have h7 := hM b
                rw [hgrayp] at h7
                simp at h7
                omega
              rw [show (stepEntry WalkOrder.DFS adj
                  ⟨q1 ++ Entry.finish p dp :: q2h, σ.colors⟩ (Entry.finish b d)).2 =
                  [Event.finishNode b d] from rfl]
              rw [List.singleton_append, List.takeWhile_cons]
              rw [show (!(isFinishOf c (Event.finishNode b d))) = true from by
                simp [isFinishOf]
                exact fun hh => hbc hh]
              rw [if_pos rfl, List.countP_cons]
              rw [show isFinishOf p (Event.finishNode b d) = false from by
                simp [isFinishOf]
                exact fun hh => hbp hh]
              rw [show (if (false = true) then (1 : Nat) else 0) = 0 from rfl]
              have hcq : (∃ dc, Entry.visit c dc ∈ q2h) ∨
                  (∃ dc, Entry.finish c dc ∈ q2h) := by
                rcases hc with ⟨dc, hdc⟩ | ⟨dc, hdc⟩
                · rcases List.mem_append.mp hdc with h8 | h8
                  · exact Or.inl ⟨dc, h8⟩
                  · simp at h8
                · rcases List.mem_append.mp hdc with h8 | h8
                  · exact Or.inr ⟨dc, h8⟩
                  · simp at h8
                    exact absurd h8.1 (fun hh => hbc hh.symm)
              have hrec := ih (stepEntry WalkOrder.DFS adj
                  ⟨q1 ++ Entry.finish p dp :: q2h, σ.colors⟩ (Entry.finish b d)).1
                hinv2 (by omega) q1 q2h dp rfl hcq
              omega
        | visit b d =>
            have hwhiteb : σ.colors b = some Color.white :=
              visit_color U σ ⟨hQ, hV, hM⟩ b d hmem
            have hbp : b ≠ p := by
              intro hh
              subst hh
              rw [hwhiteb] at hgrayp
              cases hgrayp
            have hstep := stepEntry_visit_eq WalkOrder.DFS adj σ
              (q1 ++ Entry.finish p dp :: q2h) b d hwhiteb
            have hs1 : (stepEntry WalkOrder.DFS adj
                ⟨q1 ++ Entry.finish p dp :: q2h, σ.colors⟩ (Entry.visit b d)).1 =
                (addCall WalkOrder.DFS
                  ⟨q1 ++ Entry.finish p dp :: q2h,
                    Function.update σ.colors b (some Color.gray)⟩
                  (some b) (d + 1) (adj b)).1 := by
              rw [hstep]
            have hs2 : (stepEntry WalkOrder.DFS adj
                ⟨q1 ++ Entry.finish p dp :: q2h, σ.colors⟩ (Entry.visit b d)).2 =
                Event.examineNode b d ::
                (addCall WalkOrder.DFS
                  ⟨q1 ++ Entry.finish p dp :: q2h,
                    Function.update σ.colors b (some Color.gray)⟩
                  (some b) (d + 1) (adj b)).2 := by
              rw [hstep]
            rw [hs2, hs1]
            rw [hs1] at hinv2 hlt
            obtain ⟨suf, hsuf⟩ := addCall_queue_shape_dfs
              ⟨q1 ++ Entry.finish p dp :: q2h,
                Function.update σ.colors b (some Color.gray)⟩ b (d + 1) (adj b)
            have hsuf2 : (addCall WalkOrder.DFS
                ⟨q1 ++ Entry.finish p dp :: q2h,
                  Function.update σ.colors b (some Color.gray)⟩
                (some b) (d + 1) (adj b)).1.queue =
                q1 ++ Entry.finish p dp :: (q2h ++ Entry.finish b d :: suf) := by
              rw [hsuf]
              show (q1 ++ Entry.finish p dp :: q2h) ++
                Entry.finish b ((d + 1) - 1) :: suf = _
              rw [show (d + 1) - 1 = d from rfl]
              simp
            have hnofin : ∀ ev ∈ Event.examineNode b d ::
                (addCall WalkOrder.DFS
                  ⟨q1 ++ Entry.finish p dp :: q2h,
                    Function.update σ.colors b (some Color.gray)⟩
                  (some b) (d + 1) (adj b)).2, ∀ x : α, isFinishOf x ev = false := by
              intro ev hev x
              rcases List.mem_cons.mp hev with h8 | h8
              · subst h8
                rfl
              · exact (addCall_no_finish WalkOrder.DFS _ b (d + 1) (adj b) ev h8 x).1
            rw [takeWhile_all_append _ _ (fun ev hev => by
              rw [hnofin ev hev c]
              rfl)]
            rw [List.countP_append]
            rw [List.countP_eq_zero.mpr (fun ev hev => by
              rw [hnofin ev hev p]
              simp)]
            have hcq : (∃ dc, Entry.visit c dc ∈ q2h ++ Entry.finish b d :: suf) ∨
                (∃ dc, Entry.finish c dc ∈ q2h ++ Entry.finish b d :: suf) := by
              by_cases hbc : b = c
              · subst hbc
                exact Or.inr ⟨d, List.mem_append_right _ (List.mem_cons_self _ _)⟩
              · rcases hc with ⟨dc, hdc⟩ | ⟨dc, hdc⟩
                · rcases List.mem_append.mp hdc with h8 | h8
                  · exact Or.inl ⟨dc, List.mem_append_left _ h8⟩
                  · simp at h8
                    exact absurd h8.1 (fun hh => hbc hh.symm)
                · rcases List.mem_append.mp hdc with h8 | h8
                  · exact Or.inr ⟨dc, List.mem_append_left _ h8⟩
                  · simp at h8
            have hrec := ih (addCall WalkOrder.DFS
                ⟨q1 ++ Entry.finish p dp :: q2h,
                  Function.update σ.colors b (some Color.gray)⟩
                (some b) (d + 1) (adj b)).1 hinv2 (by omega) q1
              (q2h ++ Entry.finish b d :: suf) dp hsuf2 hcq
            omega

/-- Whenever a DFS loop discovers `c` with source `p`, no finish of `p`
precedes the first finish of `c` in the loop's trace. -/
theorem walkLoop_discover_post (adj : α → List α) (U : Finset α)
    (hadj : ∀ x, ∀ y ∈ adj x, y ∈ U) (fuel : Nat) (σ : WalkState α)
    (hinv : WalkInv U σ) (hfuel : walkMeasure U σ ≤ fuel)
    (c p : α) (dc : Nat)
    (hdisc : Event.discoverNode c dc (some p) ∈
      (walkLoop WalkOrder.DFS adj fuel σ).2) :
    ((walkLoop WalkOrder.DFS adj fuel σ).2.takeWhile
      (fun ev => !(isFinishOf c ev))).countP (isFinishOf p) = 0 := by
  induction fuel generalizing σ with
  | zero => cases hdisc
  | succ n ih =>
      cases hp : popEntry WalkOrder.DFS σ.queue with
      | none =>
          rw [walkLoop_succ_none _ adj n σ hp] at hdisc
          cases hdisc
      | some pr =>
          obtain ⟨e, q1⟩ := pr
          obtain ⟨hinv2, hlt⟩ := step_preserves WalkOrder.DFS adj U hadj σ e q1 hp hinv
          obtain ⟨hQ, hV, hM⟩ := hinv
          obtain ⟨hlen, hmem, hsub, hcv, hcm⟩ :=
            pop_counts σ.queue q1 e (popEntry_shape _ _ _ _ hp)
          rw [walkLoop_succ_some WalkOrder.DFS adj n σ e q1 hp] at hdisc ⊢
          cases e with
          | finish b d =>
              have hs2 : (stepEntry WalkOrder.DFS adj ⟨q1, σ.colors⟩
                  (Entry.finish b d)).2 = [Event.finishNode b d] := rfl
              have hs1 : (stepEntry WalkOrder.DFS adj ⟨q1, σ.colors⟩
                  (Entry.finish b d)).1 =
                  ⟨q1, Function.update σ.colors b (some Color.black)⟩ := rfl
              rw [hs2, hs1] at hdisc ⊢
              rw [hs1] at hinv2 hlt
              have hdisc2 : Event.discoverNode c dc (some p) ∈
                  (walkLoop WalkOrder.DFS adj n
                    ⟨q1, Function.update σ.colors b (some Color.black)⟩).2 := by
                rcases List.mem_append.mp hdisc with h1 | h1
                · simp at h1
                · exact h1
              have hbc : b ≠ c := by
                intro hh
                subst hh
                refine walkLoop_no_rediscover WalkOrder.DFS adj n
                  ⟨q1, Function.update σ.colors b (some Color.black)⟩ b ?_ dc
                  (some p) hdisc2
                show Function.update σ.colors b (some Color.black) b ≠ none
                rw [Function.update_same]
                simp
              have hbp : b ≠ p := by
                intro hh
                subst hh
                refine walkLoop_no_black_source WalkOrder.DFS adj n
                  ⟨q1, Function.update σ.colors b (some Color.black)⟩ b ?_ c dc hdisc2
                show Function.update σ.colors b (some Color.black) b =
                  some Color.black
                rw [Function.update_same]
              rw [List.singleton_append, List.takeWhile_cons]
              rw [show (!(isFinishOf c (Event.finishNode b d))) = true from by
                simp [isFinishOf]
                exact fun hh => hbc hh]
              rw [if_pos rfl, List.countP_cons]
              rw [show isFinishOf p (Event.finishNode b d) = false from by
                simp [isFinishOf]
                exact fun hh => hbp hh]
              rw [show (if (false = true) then (1 : Nat) else 0) = 0 from rfl]
              have hrec := ih ⟨q1, Function.update σ.colors b (some Color.black)⟩
                hinv2 (by omega) hdisc2
              omega
          | visit b d =>
              have hwhiteb : σ.colors b = some Color.white :=
                visit_color U σ ⟨hQ, hV, hM⟩ b d hmem
              have hstep := stepEntry_visit_eq WalkOrder.DFS adj σ q1 b d hwhiteb
              have hs1 : (stepEntry WalkOrder.DFS adj ⟨q1, σ.colors⟩
                  (Entry.visit b d)).1 =
                  (addCall WalkOrder.DFS
                    ⟨q1, Function.update σ.colors b (some Color.gray)⟩
                    (some b) (d + 1) (adj b)).1 := by
                rw [hstep]
              have hs2 : (stepEntry WalkOrder.DFS adj ⟨q1, σ.colors⟩
                  (Entry.visit b d)).2 =
                  Event.examineNode b d ::
                  (addCall WalkOrder.DFS
                    ⟨q1, Function.update σ.colors b (some Color.gray)⟩
                    (some b) (d + 1) (adj b)).2 := by
                rw [hstep]
              rw [hs2, hs1] at hdisc ⊢
              rw [hs1] at hinv2 hlt
              have hnofin : ∀ ev ∈ Event.examineNode b d ::
                  (addCall WalkOrder.DFS
                    ⟨q1, Function.update σ.colors b (some Color.gray)⟩
                    (some b) (d + 1) (adj b)).2, ∀ x : α,
                  isFinishOf x ev = false := by
                intro ev hev x
                rcases List.mem_cons.mp hev with h8 | h8
                · subst h8
                  rfl
                · exact (addCall_no_finish WalkOrder.DFS _ b (d + 1) (adj b)
                    ev h8 x).1
              rw [takeWhile_all_append _ _ (fun ev hev => by
                rw [hnofin ev hev c]
                rfl)]
              rw [List.countP_append]
              rw [List.countP_eq_zero.mpr (fun ev hev => by
                rw [hnofin ev hev p]
                simp)]
              rcases List.mem_append.mp hdisc with h1 | h1
              · -- the discover happens in this very scan
                have h3 : Event.discoverNode c dc (some p) ∈
                    (addCall WalkOrder.DFS
                      ⟨q1, Function.update σ.colors b (some Color.gray)⟩
                      (some b) (d + 1) (adj b)).2 := by
                  rcases List.mem_cons.mp h1 with h4 | h4
                  · simp at h4
                  · exact h4
                have hsrc := addCall_discover_src WalkOrder.DFS
                  ⟨q1, Function.update σ.colors b (some Color.gray)⟩ b (d + 1)
                  (adj b) c dc (some p) h3
                simp only [Option.some.injEq] at hsrc
                subst hsrc
                rcases addCall_node WalkOrder.DFS
                    ⟨q1, Function.update σ.colors p (some Color.gray)⟩ p (d + 1)
                    (adj p) c with ⟨g1, g2, g3, g4⟩ | ⟨g0, g1, g2, g3, g4⟩
                · exfalso
                  have h5 := discover_mem_tags c dc (some p) _ h3
                  rw [g2] at h5
                  cases h5
                · have hcb : c ≠ p := by
                    intro hh
                    subst hh
                    have hg := g0
                    rw [show (⟨q1, Function.update σ.colors c (some Color.gray)⟩ :
                      WalkState α).colors c = some Color.gray from
                        Function.update_same c (some Color.gray) σ.colors] at hg
                    cases hg
                  have hnc : σ.colors c = none := by
                    have hg := g0
                    rw [show (⟨q1, Function.update σ.colors p (some Color.gray)⟩ :
                      WalkState α).colors c = σ.colors c from
                        Function.update_noteq hcb _ _] at hg
                    exact hg
                  have h4 : countVisit c q1 = 0 := by
                    have h5 := hcv c
                    rw [show isVisitOf c (Entry.visit p d) = false from by
                      simp [isVisitOf]
                      exact fun hh => hcb (hh.symm)] at h5
                    rw [show (if (false = true) then (1 : Nat) else 0) = 0
                      from rfl] at h5
                    have h6 := hV c
                    rw [hnc] at h6
                    simp at h6
                    omega
                  obtain ⟨suf, hsuf⟩ := addCall_queue_shape_dfs
                    ⟨q1, Function.update σ.colors p (some Color.gray)⟩ p (d + 1)
                    (adj p)
                  have hq2 : (addCall WalkOrder.DFS
                      ⟨q1, Function.update σ.colors p (some Color.gray)⟩
                      (some p) (d + 1) (adj p)).1.queue =
                      q1 ++ Entry.finish p d :: suf := by
                    rw [hsuf]
                    rfl
                  have h7 : countVisit c suf = 1 := by
                    have h8 := g3
                    rw [hq2] at h8
                    rw [show (⟨q1, Function.update σ.colors p (some Color.gray)⟩ :
                      WalkState α).queue = q1 from rfl] at h8
                    unfold countVisit at h8 h4 ⊢
                    rw [List.countP_append, List.countP_cons] at h8
                    rw [show isVisitOf c (Entry.finish p d) = false from rfl] at h8
                    rw [show (if (false = true) then (1 : Nat) else 0) = 0
                      from rfl] at h8
                    omega
                  have h9 : 0 < countVisit c suf := by omega
                  obtain ⟨ent, hent, hentP⟩ := List.countP_pos.mp h9
                  obtain ⟨dcc, rfl⟩ := isVisitOf_shape c ent hentP
                  have hpost := walkLoop_postorder adj U hadj n _ hinv2 (by omega)
                    p c q1 suf d hq2 (Or.inl ⟨dcc, hent⟩)
                  rw [hpost]
              · have hrec := ih _ hinv2 (by omega) h1
                rw [hrec]

/-- C2.  In every DFS walk over a finite node set (adjacency and start
inside `U`, fuel `2 * |U|`): each node's color lifecycle runs
White→Gray→Black exactly once or not at all — its discover, examine and
finish events come exactly once each and in that order, or never — and
finishes are in strict post-order: whenever `c` was discovered during
`p`'s adjacency scan (the parent's marker is pushed before its children),
no `finish_node(p)` precedes the first `finish_node(c)` in the trace,
and `finish_node(c)` does occur. -/
theorem dfs_transitions_postorder (adj : α → List α) (start : List α)
    (U : Finset α) (hadj : ∀ x, ∀ y ∈ adj x, y ∈ U)
    (hstart : ∀ a ∈ start, a ∈ U) :
    (∀ a : α,
      lifeTags a (walkGraph WalkOrder.DFS adj start (2 * U.card)) = [] ∨
      lifeTags a (walkGraph WalkOrder.DFS adj start (2 * U.card)) = [0, 1, 2]) ∧
    (∀ c p dc, Event.discoverNode c dc (some p) ∈
        walkGraph WalkOrder.DFS adj start (2 * U.card) →
      (walkGraph WalkOrder.DFS adj start (2 * U.card)).countP (isFinishOf c) = 1 ∧
      ((walkGraph WalkOrder.DFS adj start (2 * U.card)).takeWhile
        (fun ev => !(isFinishOf c ev))).countP (isFinishOf p) = 0) := by
  refine ⟨walkGraph_life WalkOrder.DFS adj start U hadj hstart, ?_⟩
  intro c p dc hdisc
  constructor
  · rw [countP_finish_eq]
    rcases walkGraph_life WalkOrder.DFS adj start U hadj hstart c with h | h
    · exfalso
      have h0 := discover_mem_tags c dc (some p) _ hdisc
      rw [h] at h0
      cases h0
    · rw [h]
      decide
  · have h2 : walkGraph WalkOrder.DFS adj start (2 * U.card) =
        (addItems none 0 (⟨[], fun _ => none⟩ : WalkState α) start).2 ++
        (walkLoop WalkOrder.DFS adj (2 * U.card)
          (addItems none 0 (⟨[], fun _ => none⟩ : WalkState α) start).1).2 := by
      show (addCall WalkOrder.DFS ⟨[], fun _ => none⟩ none 0 start).2 ++
        (walkLoop WalkOrder.DFS adj (2 * U.card)
          (addCall WalkOrder.DFS ⟨[], fun _ => none⟩ none 0 start).1).2 = _
      rw [seed_eq]
    rw [h2] at hdisc ⊢
    have hdisc2 : Event.discoverNode c dc (some p) ∈
        (walkLoop WalkOrder.DFS adj (2 * U.card)
          (addItems none 0 (⟨[], fun _ => none⟩ : WalkState α) start).1).2 := by
      rcases List.mem_append.mp hdisc with h1 | h1
      · exfalso
        have h3 := addItems_discover_src none 0 ⟨[], fun _ => none⟩ start c dc
          (some p) h1
        exact Option.noConfusion h3
      · exact h1
    rw [takeWhile_all_append _ _ (fun ev hev => by
      rw [(addItems_no_finish none 0 _ start ev hev c).1]
      rfl)]
    rw [List.countP_append]
    rw [List.countP_eq_zero.mpr (fun ev hev => by
      rw [(addItems_no_finish none 0 _ start ev hev p).1]
      simp)]
    rw [walkLoop_discover_post adj U hadj (2 * U.card) _
      (seed_inv U start hstart) (seed_measure U start hstart) c p dc hdisc2]

/-- Witness for C2: the DFS walk of the two-node cycle from node 0. -/
theorem dfs_transitions_postorder_witness :
    (∀ x : Fin 2, ∀ y ∈ adjW x, y ∈ (Finset.univ : Finset (Fin 2))) ∧
    (∀ a ∈ [(0 : Fin 2)], a ∈ (Finset.univ : Finset (Fin 2))) ∧
    ((∀ a : Fin 2,
      lifeTags a (walkGraph WalkOrder.DFS adjW [0]
        (2 * (Finset.univ : Finset (Fin 2)).card)) = [] ∨
      lifeTags a (walkGraph WalkOrder.DFS adjW [0]
        (2 * (Finset.univ : Finset (Fin 2)).card)) = [0, 1, 2]) ∧
    (∀ c p dc, Event.discoverNode c dc (some p) ∈
        walkGraph WalkOrder.DFS adjW [0]
          (2 * (Finset.univ : Finset (Fin 2)).card) →
      (walkGraph WalkOrder.DFS adjW [0]
        (2 * (Finset.univ : Finset (Fin 2)).card)).countP (isFinishOf c) = 1 ∧
      ((walkGraph WalkOrder.DFS adjW [0]
        (2 * (Finset.univ : Finset (Fin 2)).card)).takeWhile
          (fun ev => !(isFinishOf c ev))).countP (isFinishOf p) = 0)) :=
  ⟨by decide, by decide,
    dfs_transitions_postorder adjW [0] Finset.univ (by decide) (by decide)⟩

end NMS
